import Mathlib

/-!
Verification development for the Process_Optimization maintenance-scheduling
repository.

The Python source is shallowly embedded: times are integers (seconds since an
epoch placed on a Monday 00:00, so weekday arithmetic is `(t / 86400) % 7`),
`datetime.time` values are seconds-of-day, durations coming from the data
loader are integer hours (`data_handler._as_int(j.duration)`), quantities are
integers, and the float scores of the metaheuristics are rationals.  Python
dicts are association lists with insertion-order keys and last-write-wins
values.  While-loops whose bound is not structural take an explicit fuel
parameter; theorems quantify over the fuel, and concrete runs instantiate it
large enough for the loop to reach its exit condition.  Randomness in the
metaheuristics is abstracted as explicit oracle streams, one entry per call
of a random primitive, so that every actual execution corresponds to some
oracle value.
-/

/-! ## Shared input data model (the loader's payload shapes) -/

structure ToolReq where
  tool_id : String
  quantity : Int
deriving DecidableEq

structure MatReq where
  material_id : String
  quantity : Int
deriving DecidableEq

/-- A job record as produced by `data_handler.load_and_validate_data`
(`duration` is integer hours there, via `_as_int`). -/
structure JobIn where
  job_id : String
  description : String
  duration : Int
  equipment_id : String
  required_skills : List String
  required_tools : List ToolReq
  required_materials : List MatReq
  precedence : List String
deriving DecidableEq

/-- A technician record; the workday fields are the `Technician.__init__`
defaults "08:00"/"18:00", Mon-Fri, as seconds-of-day / weekday indices. -/
structure TechIn where
  tech_id : String
  name : String
  skills : List String
  hourly_rate : ℚ
  workday_start : Int := 28800
  workday_end : Int := 64800
  workdays : List Int := [0, 1, 2, 3, 4]
deriving DecidableEq

/-- An equipment record; defaults are `Equipment.__init__`'s
"00:00"/"23:59" and all seven weekdays. -/
structure EquipIn where
  equipment_id : String
  name : String
  priority : Int
  workday_start : Int := 0
  workday_end : Int := 86340
  workdays : List Int := [0, 1, 2, 3, 4, 5, 6]
deriving DecidableEq

structure ToolIn where
  tool_id : String
  name : String
  quantity : Int
deriving DecidableEq

structure MatIn where
  material_id : String
  name : String
  quantity : Int
deriving DecidableEq

/-- The planning input bundle (`t_start`/`t_end` already parsed to epoch
seconds). -/
structure DataIn where
  t_start : Int
  t_end : Int
  jobs : List JobIn
  technicians : List TechIn
  equipment : List EquipIn
  tools : List ToolIn
  materials : List MatIn
deriving DecidableEq

/-! ## Python dict / builtin helpers -/

/-- `d[k] = v` with dict semantics: an existing key keeps its position and the
value is overwritten, a new key is appended. -/
def pyDictInsert {β : Type} (d : List (String × β)) (k : String) (v : β) :
    List (String × β) :=
  if d.any (fun p => p.1 == k) then
    d.map (fun p => if p.1 == k then (k, v) else p)
  else
    d ++ [(k, v)]

/-- `{key(a): val(a) for a in l}`. -/
def pyDictOf {α β : Type} (key : α → String) (val : α → β) (l : List α) :
    List (String × β) :=
  l.foldl (fun d a => pyDictInsert d (key a) (val a)) []

/-- `d.get(k)` (`None` when absent). -/
def pyGet? {β : Type} (d : List (String × β)) (k : String) : Option β :=
  (d.find? (fun p => p.1 == k)).map (fun p => p.2)

/-- `d.get(k, dflt)`. -/
def pyGetD {β : Type} (d : List (String × β)) (k : String) (dflt : β) : β :=
  (pyGet? d k).getD dflt

theorem find?_map_overwrite {β : Type} (d : List (String × β)) (k' k : String)
    (v : β) (h : k' ≠ k) :
    (d.map (fun p => if p.1 == k' then (k', v) else p)).find? (fun p => p.1 == k)
      = d.find? (fun p => p.1 == k) := by
  induction d with
  | nil => rfl
  | cons a l ih =>
    simp only [List.map_cons]
    by_cases ha : (a.1 == k') = true
    · have hak : a.1 = k' := by simpa using ha
      have h1 : ((k', v).1 == k) = false := by simpa using h
      have h2 : (a.1 == k) = false := by rw [hak]; simpa using h
      rw [if_pos ha, List.find?_cons, List.find?_cons, h1, h2]
      simpa using ih
    · rw [if_neg ha, List.find?_cons, List.find?_cons]
      cases hb : (a.1 == k) with
      | false => exact ih
      | true => rfl

theorem find?_append_single {β : Type} (d : List (String × β)) (k' k : String)
    (v : β) (h : k' ≠ k) :
    ((d ++ [(k', v)]).find? (fun p => p.1 == k)) = d.find? (fun p => p.1 == k) := by
  induction d with
  | nil =>
    have h1 : ((k', v).1 == k) = false := by simpa using h
    simp only [List.nil_append]
    rw [List.find?_cons, h1]
  | cons a l ih =>
    simp only [List.cons_append]
    rw [List.find?_cons, List.find?_cons]
    cases hb : (a.1 == k) with
    | false => exact ih
    | true => rfl

theorem pyGet?_insert_ne {β : Type} (d : List (String × β)) (k' k : String)
    (v : β) (h : k' ≠ k) : pyGet? (pyDictInsert d k' v) k = pyGet? d k := by
  unfold pyDictInsert pyGet?
  by_cases hd : d.any (fun p => p.1 == k') = true
  · rw [if_pos hd, find?_map_overwrite d k' k v h]
  · rw [if_neg hd, find?_append_single d k' k v h]

theorem pyGet?_foldl_none {α β : Type} (key : α → String) (val : α → β)
    (l : List α) (k : String) :
    ∀ d, (∀ a ∈ l, key a ≠ k) → pyGet? d k = none →
      pyGet? (l.foldl (fun d a => pyDictInsert d (key a) (val a)) d) k = none := by
  induction l with
  | nil =>
    intro d _ hd
    simpa using hd
  | cons a l ih =>
    intro d h hd
    simp only [List.foldl_cons]
    refine ih _ (fun b hb => h b (by simp [hb])) ?_
    rw [pyGet?_insert_ne _ _ _ _ (h a (by simp))]
    exact hd

/-- Looking a key up in a dict comprehension over records none of which carry
that key gives `None`. -/
theorem pyGet?_dictOf_none {α β : Type} (key : α → String) (val : α → β)
    (l : List α) (k : String) (h : ∀ a ∈ l, key a ≠ k) :
    pyGet? (pyDictOf key val l) k = none :=
  pyGet?_foldl_none key val l k [] h rfl

/-- `max(l, key=key)` for nonempty `l`: Python's `max` keeps the earliest
maximum, updating only on a strictly larger key. -/
def pyMax {α β : Type} [LinearOrder β] (key : α → β) : List α → Option α
  | [] => none
  | a :: l => some (l.foldl (fun best x => if key x > key best then x else best) a)

/-- Stable ascending insertion used by `pySortBy`. -/
def pyInsortBy {α : Type} (le : α → α → Bool) (a : α) : List α → List α
  | [] => [a]
  | b :: l => if le a b then a :: b :: l else b :: pyInsortBy le a l

/-- Stable sort matching Python's `list.sort(key=...)` for a total preorder
`le` (an element is inserted before the first strictly-greater one, so equal
keys keep their original order). -/
def pySortBy {α : Type} (le : α → α → Bool) : List α → List α
  | [] => []
  | a :: l => pyInsortBy le a (pySortBy le l)

/-- `itertools.combinations(l, r)` in its enumeration order. -/
def pyCombinations {α : Type} : Nat → List α → List (List α)
  | 0, _ => [[]]
  | _ + 1, [] => []
  | r + 1, a :: l =>
    (pyCombinations r l).map (fun c => a :: c) ++ pyCombinations (r + 1) l

/-! ## FeasibilityPrecheck (`src/precheck.py`)

Reasons are embedded as an inductive type carrying exactly the data the
source interpolates into its f-strings (needed quantity, available quantity,
`int(day_len)` and the fixed 08:00-17:00 window), so string formatting of
floats is avoided while the information content of each reason is kept. -/

inductive PCReason where
  | toolShort (tool_id : String) (needed avail : Int)
  | materialShort (material_id : String) (needed avail : Int)
  | noMatchingTechnicians
  | durationExceedsWorkday (dur : ℚ) (workdayHours : Int)
deriving DecidableEq

/-- `_daily_work_hours()`: `(17:00 - 08:00).total_seconds() / 3600.0`. -/
def _daily_work_hours : ℚ := ((17 * 3600 - 8 * 3600 : Int) : ℚ) / 3600

/-- An entry of the `unscheduled` list built by `precheck_jobs`. -/
structure PCUnsched where
  job_id : String
  description : String
  duration : ℚ
  equipment_id : String
  required_skills : List String
  required_tools : List ToolReq
  required_materials : List MatReq
  reason : List PCReason
deriving DecidableEq

/-- The reasons `precheck_jobs` collects for one job, in source order:
tools, materials, skills, duration. -/
def pcReasonsFor (d : DataIn) (job : JobIn) : List PCReason :=
  let tool_caps := pyDictOf (fun t : ToolIn => t.tool_id) (fun t => t.quantity) d.tools
  let mat_caps := pyDictOf (fun m : MatIn => m.material_id) (fun m => m.quantity) d.materials
  let r1 := job.required_tools.filterMap (fun req =>
    let avail := pyGetD tool_caps req.tool_id 0
    if req.quantity > avail then some (.toolShort req.tool_id req.quantity avail) else none)
  let r2 := job.required_materials.filterMap (fun req =>
    let avail := pyGetD mat_caps req.material_id 0
    if req.quantity > avail then some (.materialShort req.material_id req.quantity avail) else none)
  let eligible := d.technicians.filter (fun t =>
    job.required_skills.all (fun s => t.skills.contains s))
  let r3 := if eligible.isEmpty && !job.required_skills.isEmpty then
    [PCReason.noMatchingTechnicians] else []
  let dur : ℚ := (job.duration : ℚ)
  let r4 := if dur > _daily_work_hours then
    [PCReason.durationExceedsWorkday dur 9] else []
  r1 ++ r2 ++ r3 ++ r4

/-- The `record` dict `precheck_jobs` builds for a rejected job. -/
def pcMkRecord (job : JobIn) (rs : List PCReason) : PCUnsched :=
  ⟨job.job_id, job.description, (job.duration : ℚ), job.equipment_id,
   job.required_skills, job.required_tools, job.required_materials, rs⟩

/-- The per-job loop of `precheck_jobs`, returning `(unscheduled, feasible)`
in input order. -/
def precheckGo (d : DataIn) : List JobIn → List PCUnsched × List JobIn
  | [] => ([], [])
  | job :: rest =>
    let next := precheckGo d rest
    let rs := pcReasonsFor d job
    if rs.isEmpty then (next.1, job :: next.2)
    else (pcMkRecord job rs :: next.1, next.2)

/-- `precheck_jobs(data)` from `src/precheck.py`. -/
def precheck_jobs (d : DataIn) : List PCUnsched × List JobIn :=
  precheckGo d d.jobs

theorem daily_work_hours_eq : _daily_work_hours = 9 := by
  norm_num [_daily_work_hours]

theorem precheckGo_mem_feasible (d : DataIn) (l : List JobIn) (job : JobIn)
    (hmem : job ∈ l) (hok : pcReasonsFor d job = []) :
    job ∈ (precheckGo d l).2 := by
  induction l with
  | nil => cases hmem
  | cons a rest ih =>
    rcases List.mem_cons.mp hmem with h | h
    · subst h
      unfold precheckGo
      rw [hok]
      simp
    · unfold precheckGo
      by_cases ha : (pcReasonsFor d a).isEmpty
      · simp only [ha, if_true]
        simpa using Or.inr (ih h)
      · simp only [ha, if_false]
        exact ih h

theorem precheckGo_mem_unsched (d : DataIn) (l : List JobIn) (job : JobIn)
    (hmem : job ∈ l) (hbad : pcReasonsFor d job ≠ []) :
    pcMkRecord job (pcReasonsFor d job) ∈ (precheckGo d l).1 := by
  induction l with
  | nil => cases hmem
  | cons a rest ih =>
    rcases List.mem_cons.mp hmem with h | h
    · subst h
      unfold precheckGo
      have : ¬ (pcReasonsFor d job).isEmpty := by
        simpa [List.isEmpty_iff] using hbad
      simp [this]
    · unfold precheckGo
      by_cases ha : (pcReasonsFor d a).isEmpty
      · simp only [ha, if_true]
        exact ih h
      · simp only [ha, if_false]
        simpa using Or.inr (ih h)

theorem precheckGo_feasible_ok (d : DataIn) (l : List JobIn) :
    ∀ job ∈ (precheckGo d l).2, pcReasonsFor d job = [] := by
  induction l with
  | nil => intro job hj; cases hj
  | cons a rest ih =>
    intro job hj
    unfold precheckGo at hj
    by_cases ha : (pcReasonsFor d a).isEmpty
    · simp only [ha, if_true] at hj
      rcases List.mem_cons.mp hj with h | h
      · subst h
        simpa [List.isEmpty_iff] using ha
      · exact ih job h
    · simp only [ha, if_false] at hj
      exact ih job hj

theorem precheckGo_all_ok (d : DataIn) (l : List JobIn)
    (h : ∀ job ∈ l, pcReasonsFor d job = []) :
    precheckGo d l = ([], l) := by
  induction l with
  | nil => rfl
  | cons a rest ih =>
    unfold precheckGo
    rw [ih (fun j hj => h j (by simp [hj]))]
    have := h a (by simp)
    simp [this]

theorem pcReasonsFor_duration_mem (d : DataIn) (job : JobIn)
    (h : (job.duration : ℚ) > 9) :
    PCReason.durationExceedsWorkday (job.duration : ℚ) 9 ∈ pcReasonsFor d job := by
  unfold pcReasonsFor
  rw [daily_work_hours_eq]
  simp [h]

/-- Claim C4: a job whose duration exceeds the 9-hour working window
(08:00-17:00) is placed by `precheck_jobs` in the rejection list with a
`durationExceedsWorkday _ 9` reason, and a job failing none of the four
checks is placed in the feasible list. -/
theorem C4_precheck_rejects_overlong_jobs (d : DataIn) (job : JobIn)
    (hmem : job ∈ d.jobs) :
    ((job.duration : ℚ) > 9 →
      ∃ rec ∈ (precheck_jobs d).1, rec.job_id = job.job_id ∧
        PCReason.durationExceedsWorkday (job.duration : ℚ) 9 ∈ rec.reason)
    ∧ (pcReasonsFor d job = [] → job ∈ (precheck_jobs d).2) := by
  constructor
  · intro hdur
    have hmemr := pcReasonsFor_duration_mem d job hdur
    have hne : pcReasonsFor d job ≠ [] := by
      intro he
      rw [he] at hmemr
      cases hmemr
    exact ⟨pcMkRecord job (pcReasonsFor d job),
      precheckGo_mem_unsched d d.jobs job hmem hne, rfl, hmemr⟩
  · intro hok
    exact precheckGo_mem_feasible d d.jobs job hmem hok

/-- The 10-hour job of spec scenario 3. -/
def jobC4 : JobIn :=
  { job_id := "JC", description := "", duration := 10, equipment_id := "EQ1",
    required_skills := [], required_tools := [], required_materials := [],
    precedence := [] }

def dataC4 : DataIn :=
  { t_start := 28800, t_end := 637200, jobs := [jobC4], technicians := [],
    equipment := [], tools := [], materials := [] }

/-- Witness for C4 at the concrete 10-hour job. -/
theorem C4_precheck_rejects_overlong_jobs_witness :
    ∃ rec ∈ (precheck_jobs dataC4).1, rec.job_id = jobC4.job_id ∧
      PCReason.durationExceedsWorkday (jobC4.duration : ℚ) 9 ∈ rec.reason :=
  (C4_precheck_rejects_overlong_jobs dataC4 jobC4 (by decide)).1 (by norm_num [jobC4])

/-- The same planning input with its job list replaced by the feasible list
of a first `precheck_jobs` run. -/
def pcRestrict (d : DataIn) : DataIn := { d with jobs := (precheck_jobs d).2 }

/-- Claim C9: `precheck_jobs` is deterministic (in this pure embedding the
source reads only its input and mutates nothing, so two runs on the same
data are literally the same computation), and it is idempotent as a filter:
re-running it on its own feasible output rejects nothing and returns the
same feasible list. -/
theorem C9_precheck_deterministic_idempotent (d : DataIn) :
    precheck_jobs d = precheck_jobs d
    ∧ (precheck_jobs (pcRestrict d)).1 = []
    ∧ (precheck_jobs (pcRestrict d)).2 = (precheck_jobs d).2 := by
  have hall : ∀ job ∈ (precheck_jobs d).2, pcReasonsFor (pcRestrict d) job = [] :=
    fun job hj => precheckGo_feasible_ok d d.jobs job hj
  have h2 : precheck_jobs (pcRestrict d) = ([], (precheck_jobs d).2) :=
    precheckGo_all_ok (pcRestrict d) (precheck_jobs d).2 hall
  exact ⟨rfl, by rw [h2], by rw [h2]⟩

/-- A job referencing the absent tool id "TX" with quantity 0. -/
def jobC10 : JobIn :=
  { job_id := "J1", description := "", duration := 1, equipment_id := "EQ1",
    required_skills := [], required_tools := [⟨"TX", 0⟩],
    required_materials := [], precedence := [] }

def dataC10 : DataIn :=
  { t_start := 0, t_end := 3600, jobs := [jobC10], technicians := [],
    equipment := [], tools := [], materials := [] }

/-- Counterexample to claim C10 as stated: `jobC10` references tool id "TX",
which occurs in no tool record, yet `precheck_jobs` leaves the job in the
feasible list (its required quantity is 0, and the source only rejects when
`needed > avail`), so a missing reference alone does not move a job to the
rejection list. -/
theorem C10_counterexample :
    (∃ req ∈ jobC10.required_tools, ∀ t ∈ dataC10.tools, t.tool_id ≠ req.tool_id)
    ∧ (precheck_jobs dataC10).1 = [] ∧ (precheck_jobs dataC10).2 = [jobC10] := by
  have h : pcReasonsFor dataC10 jobC10 = [] := by
    unfold pcReasonsFor
    rw [daily_work_hours_eq]
    decide
  refine ⟨⟨⟨"TX", 0⟩, by decide, by decide⟩, ?_, ?_⟩ <;>
    simp [precheck_jobs, precheckGo, h]

/-- Claim C10 (amended): a required tool/material whose id occurs in no
tool/material record is treated as having 0 available, and when its required
quantity is at least 1 the job is rejected with a reason recording that only
0 are available; no error is raised (the embedding is total on such inputs,
mirroring the source's `dict.get(key, 0)`).  A zero-quantity reference to a
missing id does not reject. -/
theorem C10_missing_reference_treated_as_zero (d : DataIn) (job : JobIn)
    (hmem : job ∈ d.jobs) :
    (∀ req ∈ job.required_tools, (∀ t ∈ d.tools, t.tool_id ≠ req.tool_id) →
        1 ≤ req.quantity →
        PCReason.toolShort req.tool_id req.quantity 0 ∈ pcReasonsFor d job)
    ∧ (∀ req ∈ job.required_materials,
        (∀ m ∈ d.materials, m.material_id ≠ req.material_id) →
        1 ≤ req.quantity →
        PCReason.materialShort req.material_id req.quantity 0 ∈ pcReasonsFor d job)
    ∧ (pcReasonsFor d job ≠ [] →
        pcMkRecord job (pcReasonsFor d job) ∈ (precheck_jobs d).1) := by
  refine ⟨?_, ?_, fun hne => precheckGo_mem_unsched d d.jobs job hmem hne⟩
  · intro req hreq hmiss hpos
    have hnone : pyGet? (pyDictOf (fun t : ToolIn => t.tool_id)
        (fun t => t.quantity) d.tools) req.tool_id = none :=
      pyGet?_dictOf_none _ _ _ _ hmiss
    have havail : pyGetD (pyDictOf (fun t : ToolIn => t.tool_id)
        (fun t => t.quantity) d.tools) req.tool_id 0 = 0 := by
      rw [pyGetD, hnone]
      rfl
    unfold pcReasonsFor
    apply List.mem_append_left
    apply List.mem_append_left
    apply List.mem_append_left
    apply List.mem_filterMap.mpr
    refine ⟨req, hreq, ?_⟩
    simp only [havail]
    rw [if_pos (by omega : req.quantity > 0)]
  · intro req hreq hmiss hpos
    have hnone : pyGet? (pyDictOf (fun m : MatIn => m.material_id)
        (fun m => m.quantity) d.materials) req.material_id = none :=
      pyGet?_dictOf_none _ _ _ _ hmiss
    have havail : pyGetD (pyDictOf (fun m : MatIn => m.material_id)
        (fun m => m.quantity) d.materials) req.material_id 0 = 0 := by
      rw [pyGetD, hnone]
      rfl
    unfold pcReasonsFor
    apply List.mem_append_left
    apply List.mem_append_left
    apply List.mem_append_right
    apply List.mem_filterMap.mpr
    refine ⟨req, hreq, ?_⟩
    simp only [havail]
    rw [if_pos (by omega : req.quantity > 0)]

/-- A job requiring 2 of the absent tool id "TX". -/
def jobC10w : JobIn :=
  { job_id := "J2", description := "", duration := 1, equipment_id := "EQ1",
    required_skills := [], required_tools := [⟨"TX", 2⟩],
    required_materials := [], precedence := [] }

def dataC10w : DataIn :=
  { t_start := 0, t_end := 3600, jobs := [jobC10w], technicians := [],
    equipment := [], tools := [], materials := [] }

/-- Witness for the amended C10 at a concrete positive-quantity missing
reference. -/
theorem C10_missing_reference_treated_as_zero_witness :
    PCReason.toolShort "TX" 2 0 ∈ pcReasonsFor dataC10w jobC10w :=
  (C10_missing_reference_treated_as_zero dataC10w jobC10w (by decide)).1
    ⟨"TX", 2⟩ (by decide) (by decide) (by decide)

/-! ## Shared working-hours constants and time arithmetic

`WORKDAY_START`/`WORKDAY_END`/`WORKDAYS` as in `optimiser_ortools.py`,
`optimiser_sa.py`, `optimiser_ga.py` and `precheck.py`: 08:00-17:00, Mon-Fri.
Times are seconds since an epoch Monday 00:00. -/

def WORKDAY_START : Int := 28800

def WORKDAY_END : Int := 61200

def WORKDAYS : List Int := [0, 1, 2, 3, 4]

/-- `dt.time()` as seconds-of-day. -/
def secsOfDay (t : Int) : Int := t % 86400

/-- Midnight of `dt.date()`. -/
def dayStart (t : Int) : Int := t.fdiv 86400 * 86400

/-- `dt.weekday()` (0 = Monday, epoch day 0 is a Monday). -/
def weekday (t : Int) : Int := t.fdiv 86400 % 7

/-! ## ConstraintOptimizer (`src/optimiser_ortools.py`, active version)

The CP-SAT model is embedded as a satisfaction predicate over a valuation of
its decision variables.  The solver returns (OPTIMAL or FEASIBLE) only
valuations satisfying every posted constraint, so properties of "any solution
the solver returns" are properties of all satisfying valuations.
`AddCumulative` is stated as "at the start of every posted interval the
summed demand of the intervals containing that instant is within capacity",
which for half-open intervals is equivalent to the bound holding at every
instant. -/

/-- Number of day steps of the `generate_working_windows` loop
(`current = t_start + k days` while `current < t_end`). -/
def windowCount (t_start t_end : Int) : Nat := ((t_end - t_start + 86399).fdiv 86400).toNat

/-- `generate_working_windows(t_start, t_end)`: working windows in minutes
from `t_start`, one per working weekday clipped to the horizon. -/
def generate_working_windows (t_start t_end : Int) : List (Int × Int) :=
  (List.range (windowCount t_start t_end)).filterMap (fun k =>
    let current := t_start + 86400 * (k : Int)
    if weekday current ∈ WORKDAYS then
      let day_start := max (dayStart current + WORKDAY_START) t_start
      let day_end := min (dayStart current + WORKDAY_END) t_end
      if day_start < day_end then
        some ((day_start - t_start) / 60, (day_end - t_start) / 60)
      else none
    else none)

/-- `minutes_to_datetime(minutes, t_start)`. -/
def minutes_to_datetime (m t_start : Int) : Int := t_start + m * 60

/-- A valuation of the model's decision variables: per-job start/end (minutes
from `t_start`), the per-(job, window) literal, and the per-(technician, job)
assignment literal. -/
structure OrtSol where
  start : String → Int
  stop : String → Int
  inWindow : String → Int × Int → Bool
  assigned : String → String → Bool

/-- `set(tech['skills']).intersection(set(job['required_skills']))` nonempty:
the condition under which the model creates an assignment literal for this
(technician, job) pair. -/
def ortEligible (tech : TechIn) (job : JobIn) : Bool :=
  tech.skills.any (fun s => job.required_skills.contains s)

def jobIds (d : DataIn) : List String := d.jobs.map (fun j => j.job_id)

def total_minutes (d : DataIn) : Int := (d.t_end - d.t_start) / 60

/-- The number of eligible technicians whose assignment literal for `job` is
true (the sum the source constrains to `len(job['required_skills'])`). -/
def countAssigned (d : DataIn) (sol : OrtSol) (job : JobIn) : Nat :=
  (d.technicians.filter (fun t => ortEligible t job && sol.assigned t.tech_id job.job_id)).length

/-- Two half-open interval variables do not overlap. -/
def disjointI (s1 e1 s2 e2 : Int) : Prop := e1 ≤ s2 ∨ e2 ≤ s1

instance (s1 e1 s2 e2 : Int) : Decidable (disjointI s1 e1 s2 e2) := by
  unfold disjointI
  infer_instance

/-- Summed demand on `tool` from intervals containing instant `τ` (minutes
from `t_start`); one interval per (job, matching required-tool entry). -/
def toolDemandAt (d : DataIn) (sol : OrtSol) (tool : ToolIn) (τ : Int) : Int :=
  d.jobs.foldl (fun acc j =>
    acc + (j.required_tools.foldl (fun a r =>
      a + (if r.tool_id == tool.tool_id ∧
             sol.start j.job_id ≤ τ ∧ τ < sol.stop j.job_id then r.quantity else 0)) 0)) 0

/-- Total demand on material `m` across all jobs (no time dimension). -/
def matDemand (d : DataIn) (m : MatIn) : Int :=
  d.jobs.foldl (fun acc j =>
    acc + (j.required_materials.foldl (fun a r =>
      a + (if r.material_id == m.material_id then r.quantity else 0)) 0)) 0

/-- The constraints `optimize_schedule` posts on the CP-SAT model, as a
predicate on variable valuations. -/
structure OrtSatisfies (d : DataIn) (sol : OrtSol) : Prop where
  domains : ∀ j ∈ d.jobs, 0 ≤ sol.start j.job_id ∧ sol.start j.job_id ≤ total_minutes d
    ∧ 0 ≤ sol.stop j.job_id ∧ sol.stop j.job_id ≤ total_minutes d
  durationEq : ∀ j ∈ d.jobs, sol.stop j.job_id - sol.start j.job_id = j.duration * 60
  windowImp : ∀ j ∈ d.jobs, ∀ w ∈ generate_working_windows d.t_start d.t_end,
    sol.inWindow j.job_id w = true → w.1 ≤ sol.start j.job_id ∧ sol.stop j.job_id ≤ w.2
  windowSome : ∀ j ∈ d.jobs, ∃ w ∈ generate_working_windows d.t_start d.t_end,
    sol.inWindow j.job_id w = true
  equipNoOverlap : ∀ e ∈ d.equipment,
    (d.jobs.filter (fun j => j.equipment_id == e.equipment_id)).Pairwise
      (fun j1 j2 => disjointI (sol.start j1.job_id) (sol.stop j1.job_id)
        (sol.start j2.job_id) (sol.stop j2.job_id))
  techNoOverlap : ∀ t ∈ d.technicians,
    (d.jobs.filter (fun j => ortEligible t j)).Pairwise
      (fun j1 j2 => sol.assigned t.tech_id j1.job_id = true →
        sol.assigned t.tech_id j2.job_id = true →
        disjointI (sol.start j1.job_id) (sol.stop j1.job_id)
          (sol.start j2.job_id) (sol.stop j2.job_id))
  assignCount : ∀ j ∈ d.jobs, countAssigned d sol j = j.required_skills.length
  toolCum : ∀ tool ∈ d.tools, ∀ j ∈ d.jobs, ∀ r ∈ j.required_tools,
    r.tool_id = tool.tool_id → toolDemandAt d sol tool (sol.start j.job_id) ≤ tool.quantity
  matCap : ∀ m ∈ d.materials, matDemand d m ≤ m.quantity
  prec : ∀ j ∈ d.jobs, ∀ pid ∈ j.precedence, pid ∈ jobIds d →
    sol.stop pid ≤ sol.start j.job_id

/-- The output record `optimize_schedule` appends per job (times back in
absolute seconds; the source formats them as ISO strings). -/
structure OutAssign where
  job_id : String
  equipment_id : String
  scheduled_start_time : Int
  scheduled_end_time : Int
  duration_hours : Int
  assigned_technicians : List String
deriving DecidableEq

/-- The `optimized_schedule` list the source builds from a solver solution:
one entry per job, in input job order. -/
def ortOutput (d : DataIn) (sol : OrtSol) : List OutAssign :=
  d.jobs.map (fun j =>
    { job_id := j.job_id
      equipment_id := j.equipment_id
      scheduled_start_time := minutes_to_datetime (sol.start j.job_id) d.t_start
      scheduled_end_time := minutes_to_datetime (sol.stop j.job_id) d.t_start
      duration_hours := j.duration
      assigned_technicians :=
        (d.technicians.filter (fun t => ortEligible t j && sol.assigned t.tech_id j.job_id)).map
          (fun t => t.tech_id) })

/-- An assignment list is sorted by non-decreasing scheduled start time. -/
def sortedByStart (l : List OutAssign) : Prop :=
  l.Pairwise (fun a b => a.scheduled_start_time ≤ b.scheduled_start_time)

instance (l : List OutAssign) : Decidable (sortedByStart l) := by
  unfold sortedByStart
  infer_instance

/-- Claim C2 (amended): in the ConstraintOptimizer's model, any solution the
solver returns assigns to each job exactly as many eligible technicians
(those sharing at least one required skill) as the job has required skills —
`model.Add(sum(...) == len(job['required_skills']))` — so exactly one
technician only when the job requires exactly one skill. -/
theorem C2_model_assigns_skill_count (d : DataIn) (sol : OrtSol)
    (h : OrtSatisfies d sol) (job : JobIn) (hj : job ∈ d.jobs) :
    countAssigned d sol job = job.required_skills.length :=
  h.assignCount job hj

/-- The two-skill job of the C2 counterexample. -/
def jobC2 : JobIn :=
  { job_id := "J1", description := "", duration := 1, equipment_id := "EQ1",
    required_skills := ["A", "B"], required_tools := [], required_materials := [],
    precedence := [] }

/-- One Monday 08:00-17:00 horizon; two technicians covering one skill each. -/
def dataC2 : DataIn :=
  { t_start := 28800, t_end := 61200, jobs := [jobC2],
    technicians := [{ tech_id := "T1", name := "", skills := ["A"], hourly_rate := 0 },
                    { tech_id := "T2", name := "", skills := ["B"], hourly_rate := 0 }],
    equipment := [{ equipment_id := "EQ1", name := "", priority := 1 }],
    tools := [], materials := [] }

/-- A concrete satisfying valuation: the job at minutes [0, 60), both
technicians assigned. -/
def solC2 : OrtSol :=
  { start := fun _ => 0, stop := fun _ => 60,
    inWindow := fun _ _ => true, assigned := fun _ _ => true }

/-- Counterexample to claim C2 as stated: `solC2` satisfies every constraint
of the model built on `dataC2` (so the solver can return it), yet the job
"J1" has two eligible technicians assigned, not exactly one — the model ties
the assignment count to `len(required_skills)`, here 2. -/
theorem C2_counterexample :
    OrtSatisfies dataC2 solC2 ∧ countAssigned dataC2 solC2 jobC2 = 2 := by
  refine ⟨⟨?_, ?_, ?_, ?_, ?_, ?_, ?_, ?_, ?_, ?_⟩, ?_⟩ <;> decide

/-- Witness for the amended C2 at the concrete satisfying valuation. -/
theorem C2_model_assigns_skill_count_witness :
    countAssigned dataC2 solC2 jobC2 = jobC2.required_skills.length :=
  C2_model_assigns_skill_count dataC2 solC2 C2_counterexample.1 jobC2 (by decide)

def jobC6a : JobIn :=
  { job_id := "J1", description := "", duration := 1, equipment_id := "EQ1",
    required_skills := [], required_tools := [], required_materials := [],
    precedence := ["J2"] }

def jobC6b : JobIn :=
  { job_id := "J2", description := "", duration := 1, equipment_id := "EQ1",
    required_skills := [], required_tools := [], required_materials := [],
    precedence := [] }

/-- Two jobs where the first listed job must run after the second (J2 is a
predecessor of J1). -/
def dataC6 : DataIn :=
  { t_start := 28800, t_end := 61200, jobs := [jobC6a, jobC6b],
    technicians := [], equipment := [{ equipment_id := "EQ1", name := "", priority := 1 }],
    tools := [], materials := [] }

/-- A satisfying valuation: J2 at minutes [0, 60), J1 at [60, 120). -/
def solC6 : OrtSol :=
  { start := fun j => if j == "J1" then 60 else 0,
    stop := fun j => if j == "J1" then 120 else 60,
    inWindow := fun _ _ => true, assigned := fun _ _ => false }

/-- Counterexample to claim C6 as stated: `solC6` satisfies the
ConstraintOptimizer model on `dataC6` (so the solver can return it), yet the
output list — built in input job order with no sort — lists J1 (start minute
60) before J2 (start minute 0), so it is not sorted by start time.  (The
precedence J2 before J1 in fact forces this inversion in every solution.) -/
theorem C6_counterexample :
    OrtSatisfies dataC6 solC6 ∧ ¬ sortedByStart (ortOutput dataC6 solC6) := by
  refine ⟨⟨?_, ?_, ?_, ?_, ?_, ?_, ?_, ?_, ?_, ?_⟩, ?_⟩ <;> decide

/-! ## Simulated annealing (`src/optimiser_sa.py`, active version)

Randomness is an explicit oracle (`SARand`), one field per call site of a
random primitive; `random.randint(a, b)` with oracle value `v` is
`a + v % (b - a + 1)`, `random.sample(l, k)` draws `k` distinct positions
from oracle values, and the Metropolis test
`random.random() < pow(2.718, (old - new) / T)` — a float computation — is
abstracted as the oracle Boolean `accept`; when `old = new` the source
always accepts (the power is 1.0 and `random()` < 1.0), so an
always-accepting oracle is reachable there.  The outer `while T > T_min`
loop runs a fixed number of temperature steps determined by float decay from
100.0 by factor 0.95 down to 0.01 (about 180); the embedding takes that
count as the parameter `outer` and theorems hold for every value.
`evaluate` raises `KeyError` on a tool/material id missing from the caps
dict; such appends are dropped here (no theorem touches that case, and
`optimize_schedule`'s precheck keeps only in-capacity references apart from
zero-quantity ones). -/

structure SAssign where
  job_id : String
  equipment_id : String
  scheduled_start_time : Int
  scheduled_end_time : Int
  assigned_technicians : List String
deriving DecidableEq

structure SARand where
  initStart : Nat → Nat
  initTech : Nat → Nat → Nat
  perturbIdx : Nat → Nat
  perturbStart : Nat → Nat
  perturbTech : Nat → Nat → Nat
  accept : Nat → Bool

/-- `random.randint(a, b)` under oracle value `v` (any value of the range is
reached by some `v`; the source raises for `b < a`, never hit here). -/
def pyRandint (a b : Int) (v : Nat) : Int := a + (v : Int) % (b - a + 1)

/-- `random.sample(l, k)` under per-slot oracle index draws: each draw picks
a remaining element by position, so exactly the ordered k-selections without
replacement are reachable. -/
def pySampleGo {α : Type} (vals : Nat → Nat) : Nat → Nat → List α → List α
  | 0, _, _ => []
  | _ + 1, _, [] => []
  | k + 1, slot, r :: rs =>
    let rem := r :: rs
    let i := vals slot % rem.length
    let a := rem.getD i r
    a :: pySampleGo vals k (slot + 1) (rem.eraseIdx i)

def pySample {α : Type} (vals : Nat → Nat) (k : Nat) (l : List α) : List α :=
  pySampleGo vals k 0 l

/-- The technicians whose skill set covers the job's required skills
(`set(job['required_skills']).issubset(set(tech['skills']))`). -/
def coveringTechs (techs : List TechIn) (job : JobIn) : List TechIn :=
  techs.filter (fun t => job.required_skills.all (fun s => t.skills.contains s))

/-- `generate_initial_solution(jobs, techs, t_start, t_end)`. -/
def sa_generate_initial (jobs : List JobIn) (techs : List TechIn)
    (t_start t_end : Int) (rnd : SARand) : List SAssign :=
  jobs.enum.map (fun p =>
    let i := p.1
    let job := p.2
    let hours := (t_end - t_start).fdiv 3600 - job.duration
    let job_start := t_start + 3600 * pyRandint 0 hours (rnd.initStart i)
    let job_end := job_start + 3600 * job.duration
    let available := coveringTechs techs job
    let cnt := min available.length (max 1 job.required_skills.length)
    { job_id := job.job_id, equipment_id := job.equipment_id,
      scheduled_start_time := job_start, scheduled_end_time := job_end,
      assigned_technicians := (pySample (rnd.initTech i) cnt available).map
        (fun t => t.tech_id) })

/-- The body of `perturb` once the mutated index is drawn. -/
def sa_perturbAt (schedule : List SAssign) (t_start t_end : Int)
    (jobs : List JobIn) (techs : List TechIn) (step : Nat) (rnd : SARand)
    (idx : Nat) : List SAssign :=
  match jobs.get? idx, schedule.get? idx with
  | some job, some a =>
    let hours := (t_end - t_start).fdiv 3600 - job.duration
    let ns := t_start + 3600 * pyRandint 0 hours (rnd.perturbStart step)
    let ne := ns + 3600 * job.duration
    let available := coveringTechs techs job
    let cnt := min available.length (max 1 job.required_skills.length)
    let a' := { a with
      scheduled_start_time := ns
      scheduled_end_time := ne
      assigned_technicians := (pySample (rnd.perturbTech step) cnt available).map
        (fun t => t.tech_id) }
    schedule.set idx a'
  | _, _ => schedule

/-- `perturb(schedule, t_start, t_end, jobs, techs)` at global step `step`. -/
def sa_perturb (schedule : List SAssign) (t_start t_end : Int)
    (jobs : List JobIn) (techs : List TechIn) (step : Nat) (rnd : SARand) :
    List SAssign :=
  sa_perturbAt schedule t_start t_end jobs techs step rnd
    ((pyRandint 0 ((schedule.length : Int) - 1) (rnd.perturbIdx step)).toNat)

/-- Append to an existing key of a usage dict (`d[k].append(v)`; a missing
key raises `KeyError` in the source and is a no-op here). -/
def dictAppend {β : Type} (d : List (String × List β)) (k : String) (v : β) :
    List (String × List β) :=
  d.map (fun p => if p.1 == k then (p.1, p.2 ++ [v]) else p)

/-- `if k not in d: d[k] = []` followed by `d[k].append(v)`. -/
def dictAppendNew {β : Type} (d : List (String × List β)) (k : String) (v : β) :
    List (String × List β) :=
  if d.any (fun p => p.1 == k) then dictAppend d k v else d ++ [(k, [v])]

/-- Lexicographic tuple order used by Python's `sorted` on pairs. -/
def lexLe (a b : Int × Int) : Bool :=
  decide (a.1 < b.1) || (decide (a.1 = b.1) && decide (a.2 ≤ b.2))

/-- Adjacent-pair overlap count of a sorted interval list
(`times[i][1] > times[i+1][0]`). -/
def adjacentViol : List (Int × Int) → Nat
  | [] => 0
  | [_] => 0
  | a :: b :: rest => (if b.1 < a.2 then 1 else 0) + adjacentViol (b :: rest)

/-- The equipment/technician overlap penalty of `evaluate`: sort the usage
tuples, add 1000 per overlapping adjacent pair. -/
def sa_overlapPenalty (usage : List (Int × Int)) : ℚ :=
  1000 * (adjacentViol (pySortBy lexLe usage) : ℚ)

/-- The event sweep of `evaluate`'s tool/material capacity check: events
`(start, +q)`, `(end, -q)` sorted lexicographically, accumulating
`1000 * (current - cap)` whenever `current > cap`.  `cap` is the *first*
resource's capacity — the source's `caps[list(usage.keys())[0]]`. -/
def sa_capSweepGo (cap : Int) : List (Int × Int) → Int → ℚ
  | [], _ => 0
  | e :: rest, cur =>
    let cur' := cur + e.2
    (if cur' > cap then (1000 : ℚ) * ((cur' - cap : Int) : ℚ) else 0)
      + sa_capSweepGo cap rest cur'

def sa_capSweep (entries : List (Int × Int × Int)) (cap : Int) : ℚ :=
  let times := entries.foldl (fun acc e => acc ++ [(e.1, e.2.2), (e.2.1, -e.2.2)]) []
  sa_capSweepGo cap (pySortBy lexLe times) 0

/-- The per-job accumulation pass of `evaluate`: builds the four usage dicts
and the out-of-window penalty, pairing `jobs[j]` with `schedule[j]`. -/
def sa_accumulate (pairs : List (JobIn × SAssign)) (t_start t_end : Int)
    (toolU matU : List (String × List (Int × Int × Int))) :
    List (String × List (Int × Int × Int)) × List (String × List (Int × Int × Int))
      × List (String × List (Int × Int)) × List (String × List (Int × Int)) × ℚ :=
  pairs.foldl (fun acc p =>
    let job := p.1
    let js := p.2.scheduled_start_time
    let je := p.2.scheduled_end_time
    let tu := job.required_tools.foldl
      (fun t r => dictAppend t r.tool_id (js, je, r.quantity)) acc.1
    let mu := job.required_materials.foldl
      (fun m r => dictAppend m r.material_id (js, je, r.quantity)) acc.2.1
    let eu := dictAppendNew acc.2.2.1 job.equipment_id (js, je)
    let hu := p.2.assigned_technicians.foldl
      (fun h tid => dictAppendNew h tid (js, je)) acc.2.2.2.1
    let pen := acc.2.2.2.2 + (if js < t_start ∨ je > t_end then (1000 : ℚ) else 0)
    (tu, mu, eu, hu, pen))
    (toolU, matU, [], [], 0)

/-- `evaluate(schedule, jobs, equip, techs, tools, mats, t_start, t_end)`
(the `equip`/`techs` parameters are unused by the source's body). -/
def sa_evaluate (schedule : List SAssign) (jobs : List JobIn)
    (tools : List ToolIn) (mats : List MatIn) (t_start t_end : Int) : ℚ :=
  let tool_caps := pyDictOf (fun t : ToolIn => t.tool_id) (fun t => t.quantity) tools
  let mat_caps := pyDictOf (fun m : MatIn => m.material_id) (fun m => m.quantity) mats
  let toolU0 := tool_caps.map (fun p => (p.1, ([] : List (Int × Int × Int))))
  let matU0 := mat_caps.map (fun p => (p.1, ([] : List (Int × Int × Int))))
  let acc := sa_accumulate (jobs.zip schedule) t_start t_end toolU0 matU0
  let toolU := acc.1
  let matU := acc.2.1
  let equipU := acc.2.2.1
  let techU := acc.2.2.2.1
  let pen0 := acc.2.2.2.2
  let penOverlap := (equipU.map (fun p => p.2) ++ techU.map (fun p => p.2)).foldl
    (fun q u => q + sa_overlapPenalty u) 0
  let toolCap0 := ((tool_caps.head?).map (fun p => p.2)).getD 0
  let matCap0 := ((mat_caps.head?).map (fun p => p.2)).getD 0
  let penTools := toolU.foldl (fun q p => q + sa_capSweep p.2 toolCap0) 0
  let penMats := matU.foldl (fun q p => q + sa_capSweep p.2 matCap0) 0
  let penalty := pen0 + penOverlap + penTools + penMats
  match schedule.map (fun s => s.scheduled_end_time) with
  | [] => penalty
  | t :: ts => penalty + ((ts.foldl max t - t_start : Int) : ℚ) / 3600

/-- The feasibility precheck inside `optimiser_sa.optimize_schedule` (its own
copy, distinct from `precheck.py`: tools, materials, and an *unconditional*
covering-technician check; no duration check).  A job is kept feasible iff
it collects no reason. -/
def saFeasibleJobs (d : DataIn) : List JobIn :=
  let tool_caps := pyDictOf (fun t : ToolIn => t.tool_id) (fun t => t.quantity) d.tools
  let mat_caps := pyDictOf (fun m : MatIn => m.material_id) (fun m => m.quantity) d.materials
  d.jobs.filter (fun job =>
    job.required_tools.all (fun req => req.quantity ≤ pyGetD tool_caps req.tool_id 0)
    && job.required_materials.all (fun req => req.quantity ≤ pyGetD mat_caps req.material_id 0)
    && !(coveringTechs d.technicians job).isEmpty)

structure SAState where
  current : List SAssign
  current_score : ℚ
  best : List SAssign
  best_score : ℚ
deriving DecidableEq

/-- One inner iteration of the annealing loop at global step index `i`. -/
def sa_step (jobs : List JobIn) (techs : List TechIn) (tools : List ToolIn)
    (mats : List MatIn) (t_start t_end : Int) (rnd : SARand) (i : Nat)
    (st : SAState) : SAState :=
  let candidate := sa_perturb st.current t_start t_end jobs techs i rnd
  let cand_score := sa_evaluate candidate jobs tools mats t_start t_end
  if cand_score < st.current_score ∨ rnd.accept i = true then
    if cand_score < st.best_score then
      { current := candidate, current_score := cand_score,
        best := candidate, best_score := cand_score }
    else
      { st with current := candidate, current_score := cand_score }
  else st

/-- `for inner in range(50)` (parameterized count), threading the global step
index. -/
def sa_inner (jobs : List JobIn) (techs : List TechIn) (tools : List ToolIn)
    (mats : List MatIn) (t_start t_end : Int) (rnd : SARand) :
    Nat → Nat → SAState → SAState
  | 0, _, st => st
  | n + 1, i, st =>
    sa_inner jobs techs tools mats t_start t_end rnd n (i + 1)
      (sa_step jobs techs tools mats t_start t_end rnd i st)

/-- The temperature loop: `outer` temperature steps of 50 inner iterations. -/
def sa_loop (jobs : List JobIn) (techs : List TechIn) (tools : List ToolIn)
    (mats : List MatIn) (t_start t_end : Int) (rnd : SARand) :
    Nat → Nat → SAState → SAState
  | 0, _, st => st
  | o + 1, i, st =>
    sa_loop jobs techs tools mats t_start t_end rnd o (i + 50)
      (sa_inner jobs techs tools mats t_start t_end rnd 50 i st)

/-- `optimiser_sa.optimize_schedule` restricted to its scheduling content:
precheck, initial solution, annealing, returning `best` (the source
additionally writes files and formats the times as ISO strings). -/
def optimize_schedule_sa (d : DataIn) (rnd : SARand) (outer : Nat) :
    List SAssign :=
  let feasible := saFeasibleJobs d
  if feasible.isEmpty then []
  else
    let current := sa_generate_initial feasible d.technicians d.t_start d.t_end rnd
    let score := sa_evaluate current feasible d.tools d.materials d.t_start d.t_end
    (sa_loop feasible d.technicians d.tools d.materials d.t_start d.t_end rnd
      outer 0
      { current := current, current_score := score,
        best := current, best_score := score }).best

def techC8 : TechIn := { tech_id := "T1", name := "", skills := [], hourly_rate := 0 }

/-- A job demanding 2 of tool "TB" (capacity 1) while tool "TA" (capacity 5)
is listed first. -/
def jobC8 : JobIn :=
  { job_id := "J1", description := "", duration := 2, equipment_id := "EQ1",
    required_skills := [], required_tools := [⟨"TB", 2⟩],
    required_materials := [], precedence := [] }

def dataC8 : DataIn :=
  { t_start := 28800, t_end := 36000, jobs := [jobC8], technicians := [techC8],
    equipment := [], tools := [⟨"TA", "", 5⟩, ⟨"TB", "", 1⟩], materials := [] }

def schedC8 : List SAssign := [⟨"J1", "EQ1", 28800, 36000, ["T1"]⟩]

/-- Claim C8 failing input: the schedule `schedC8` reserves 2 of tool "TB"
over the whole horizon while "TB"'s own capacity is 1, yet `evaluate` scores
it as pure makespan (2 hours) with zero capacity penalty, because the sweep
compares every tool's concurrent demand against the capacity of the *first*
tool in the tools list (`tool_caps[list(tool_usage.keys())[0]]` = "TA"'s 5),
and likewise every material against the first material's capacity. -/
theorem C8_capacity_checked_against_first_tool :
    (∃ tool ∈ dataC8.tools, tool.tool_id = "TB" ∧ tool.quantity = 1)
    ∧ (∃ job ∈ dataC8.jobs, ∃ r ∈ job.required_tools,
        r.tool_id = "TB" ∧ r.quantity = 2)
    ∧ sa_evaluate schedC8 dataC8.jobs dataC8.tools dataC8.materials 28800 36000 = 2 := by
  refine ⟨⟨⟨"TB", "", 1⟩, by decide, by decide, by decide⟩,
    ⟨jobC8, by decide, ⟨"TB", 2⟩, by decide, by decide, by decide⟩, ?_⟩
  simp +decide [sa_evaluate, sa_accumulate, sa_capSweep, sa_capSweepGo,
    sa_overlapPenalty, adjacentViol, pySortBy, pyInsortBy, lexLe, dictAppend,
    dictAppendNew, pyDictOf, pyDictInsert, dataC8, jobC8, schedC8, techC8]
  norm_num

def techSA : TechIn := { tech_id := "T1", name := "", skills := [], hourly_rate := 0 }

def jobSA1 : JobIn :=
  { job_id := "J1", description := "", duration := 2, equipment_id := "EQ1",
    required_skills := [], required_tools := [], required_materials := [],
    precedence := [] }

def jobSA2 : JobIn :=
  { job_id := "J2", description := "", duration := 2, equipment_id := "EQ1",
    required_skills := [], required_tools := [], required_materials := [],
    precedence := [] }

/-- Two 2-hour jobs on one equipment over a 2-hour horizon: every start the
source can draw is `t_start` (`randint(0, 0)`), so every reachable schedule
books both jobs on EQ1 and technician T1 over the same interval. -/
def dataSA : DataIn :=
  { t_start := 28800, t_end := 36000, jobs := [jobSA1, jobSA2],
    technicians := [techSA],
    equipment := [{ equipment_id := "EQ1", name := "", priority := 1 }],
    tools := [], materials := [] }

/-- A concrete oracle (all-zero draws, accepting Metropolis outcomes; with
equal scores the source accepts with probability 1, so this is reachable). -/
def rndSA : SARand :=
  { initStart := fun _ => 0, initTech := fun _ _ => 0, perturbIdx := fun _ => 0,
    perturbStart := fun _ => 0, perturbTech := fun _ _ => 0,
    accept := fun _ => true }

def schedSA : List SAssign :=
  [⟨"J1", "EQ1", 28800, 36000, ["T1"]⟩, ⟨"J2", "EQ1", 28800, 36000, ["T1"]⟩]

theorem saFeas_dataSA : saFeasibleJobs dataSA = [jobSA1, jobSA2] := by decide

theorem saInit_dataSA :
    sa_generate_initial [jobSA1, jobSA2] [techSA] 28800 36000 rndSA = schedSA := by
  decide

theorem saPerturb_dataSA (i : Nat) :
    sa_perturb schedSA 28800 36000 [jobSA1, jobSA2] [techSA] i rndSA = schedSA := by
  rfl

theorem saStep_dataSA (i : Nat) (st : SAState) (h1 : st.current = schedSA)
    (h2 : st.best = schedSA) :
    (sa_step [jobSA1, jobSA2] [techSA] [] [] 28800 36000 rndSA i st).current = schedSA
    ∧ (sa_step [jobSA1, jobSA2] [techSA] [] [] 28800 36000 rndSA i st).best = schedSA := by
  unfold sa_step
  rw [h1, saPerturb_dataSA i]
  by_cases hA : sa_evaluate schedSA [jobSA1, jobSA2] [] [] 28800 36000 < st.current_score
      ∨ rndSA.accept i = true
  · by_cases hB : sa_evaluate schedSA [jobSA1, jobSA2] [] [] 28800 36000 < st.best_score
    · simp only [if_pos hA, if_pos hB]
      exact ⟨trivial, trivial⟩
    · simp only [if_pos hA, if_neg hB]
      exact ⟨trivial, h2⟩
  · simp only [if_neg hA]
    exact ⟨h1, h2⟩

theorem saInner_dataSA :
    ∀ (n i : Nat) (st : SAState), st.current = schedSA → st.best = schedSA →
    (sa_inner [jobSA1, jobSA2] [techSA] [] [] 28800 36000 rndSA n i st).current = schedSA
    ∧ (sa_inner [jobSA1, jobSA2] [techSA] [] [] 28800 36000 rndSA n i st).best = schedSA := by
  intro n
  induction n with
  | zero => intro i st h1 h2; exact ⟨h1, h2⟩
  | succ n ih =>
    intro i st h1 h2
    have hs := saStep_dataSA i st h1 h2
    exact ih (i + 1) _ hs.1 hs.2

theorem saLoop_dataSA :
    ∀ (o i : Nat) (st : SAState), st.current = schedSA → st.best = schedSA →
    (sa_loop [jobSA1, jobSA2] [techSA] [] [] 28800 36000 rndSA o i st).current = schedSA
    ∧ (sa_loop [jobSA1, jobSA2] [techSA] [] [] 28800 36000 rndSA o i st).best = schedSA := by
  intro o
  induction o with
  | zero => intro i st h1 h2; exact ⟨h1, h2⟩
  | succ o ih =>
    intro i st h1 h2
    have hs := saInner_dataSA 50 i st h1 h2
    exact ih (i + 50) _ hs.1 hs.2

theorem saRun_dataSA : optimize_schedule_sa dataSA rndSA 180 = schedSA := by
  unfold optimize_schedule_sa
  rw [saFeas_dataSA]
  rw [if_neg (by decide)]
  exact (saLoop_dataSA 180 0 _ saInit_dataSA saInit_dataSA).2

/-- Counterexample to claim C1 as stated: the simulated-annealing strategy
can return (here: must return, for this input and a reachable random stream)
a schedule whose two assignments share equipment id "EQ1" and technician
"T1" while occupying the same time interval — the metaheuristic only
penalizes double-booking, it does not prevent it. -/
theorem C1_counterexample :
    ∃ a1 a2, optimize_schedule_sa dataSA rndSA 180 = [a1, a2]
      ∧ a1.equipment_id = a2.equipment_id
      ∧ ¬ disjointI a1.scheduled_start_time a1.scheduled_end_time
          a2.scheduled_start_time a2.scheduled_end_time
      ∧ ∃ t, t ∈ a1.assigned_technicians ∧ t ∈ a2.assigned_technicians := by
  refine ⟨_, _, saRun_dataSA, by decide, by decide, ⟨"T1", by decide, by decide⟩⟩

/-- Position `k` of the schedule carries exactly the duration of job `k`
(`end - start = 3600 * duration`). -/
def durAligned (jobs : List JobIn) (sched : List SAssign) : Prop :=
  ∀ (k : Nat) (job : JobIn) (a : SAssign), jobs.get? k = some job →
    sched.get? k = some a →
    a.scheduled_end_time - a.scheduled_start_time = 3600 * job.duration

theorem durAligned_generate (jobs : List JobIn) (techs : List TechIn)
    (t0 t1 : Int) (rnd : SARand) :
    durAligned jobs (sa_generate_initial jobs techs t0 t1 rnd) := by
  intro k job a hjk hak
  unfold sa_generate_initial at hak
  rw [List.get?_eq_getElem?, List.getElem?_map, List.getElem?_enum,
    ← List.get?_eq_getElem?, hjk] at hak
  cases hak
  simp

theorem durAligned_perturbAt (sched : List SAssign) (t0 t1 : Int)
    (jobs : List JobIn) (techs : List TechIn) (step : Nat) (rnd : SARand)
    (idx : Nat) (h : durAligned jobs sched) :
    durAligned jobs (sa_perturbAt sched t0 t1 jobs techs step rnd idx) := by
  intro k job a hjk hak
  unfold sa_perturbAt at hak
  cases hj : jobs.get? idx with
  | none => rw [hj] at hak; exact h k job a hjk hak
  | some job' =>
    cases hs : sched.get? idx with
    | none => rw [hj, hs] at hak; exact h k job a hjk hak
    | some a0 =>
      rw [hj, hs] at hak
      by_cases hik : idx = k
      · subst hik
        have hlen : idx < sched.length := by
          by_contra hge
          rw [List.get?_eq_getElem?, List.getElem?_eq_none (Nat.le_of_not_lt hge)] at hs
          cases hs
        rw [List.get?_eq_getElem?, List.getElem?_set_self hlen] at hak
        cases hak
        have : job' = job := by
          rw [hjk] at hj
          cases hj
          rfl
        subst this
        simp
      · rw [List.get?_eq_getElem?, List.getElem?_set_ne hik,
          ← List.get?_eq_getElem?] at hak
        exact h k job a hjk hak

theorem durAligned_perturb (sched : List SAssign) (t0 t1 : Int)
    (jobs : List JobIn) (techs : List TechIn) (step : Nat) (rnd : SARand)
    (h : durAligned jobs sched) :
    durAligned jobs (sa_perturb sched t0 t1 jobs techs step rnd) :=
  durAligned_perturbAt sched t0 t1 jobs techs step rnd _ h

theorem durAligned_step (jobs : List JobIn) (techs : List TechIn)
    (tools : List ToolIn) (mats : List MatIn) (t0 t1 : Int) (rnd : SARand)
    (i : Nat) (st : SAState) (h1 : durAligned jobs st.current)
    (h2 : durAligned jobs st.best) :
    durAligned jobs (sa_step jobs techs tools mats t0 t1 rnd i st).current
    ∧ durAligned jobs (sa_step jobs techs tools mats t0 t1 rnd i st).best := by
  unfold sa_step
  have hc := durAligned_perturb st.current t0 t1 jobs techs i rnd h1
  by_cases hA : sa_evaluate (sa_perturb st.current t0 t1 jobs techs i rnd)
      jobs tools mats t0 t1 < st.current_score ∨ rnd.accept i = true
  · by_cases hB : sa_evaluate (sa_perturb st.current t0 t1 jobs techs i rnd)
        jobs tools mats t0 t1 < st.best_score
    · simp only [if_pos hA, if_pos hB]
      exact ⟨hc, hc⟩
    · simp only [if_pos hA, if_neg hB]
      exact ⟨hc, h2⟩
  · simp only [if_neg hA]
    exact ⟨h1, h2⟩

theorem durAligned_inner (jobs : List JobIn) (techs : List TechIn)
    (tools : List ToolIn) (mats : List MatIn) (t0 t1 : Int) (rnd : SARand) :
    ∀ (n i : Nat) (st : SAState), durAligned jobs st.current →
    durAligned jobs st.best →
    durAligned jobs (sa_inner jobs techs tools mats t0 t1 rnd n i st).current
    ∧ durAligned jobs (sa_inner jobs techs tools mats t0 t1 rnd n i st).best := by
  intro n
  induction n with
  | zero => intro i st h1 h2; exact ⟨h1, h2⟩
  | succ n ih =>
    intro i st h1 h2
    have hs := durAligned_step jobs techs tools mats t0 t1 rnd i st h1 h2
    exact ih (i + 1) _ hs.1 hs.2

theorem durAligned_loop (jobs : List JobIn) (techs : List TechIn)
    (tools : List ToolIn) (mats : List MatIn) (t0 t1 : Int) (rnd : SARand) :
    ∀ (o i : Nat) (st : SAState), durAligned jobs st.current →
    durAligned jobs st.best →
    durAligned jobs (sa_loop jobs techs tools mats t0 t1 rnd o i st).current
    ∧ durAligned jobs (sa_loop jobs techs tools mats t0 t1 rnd o i st).best := by
  intro o
  induction o with
  | zero => intro i st h1 h2; exact ⟨h1, h2⟩
  | succ o ih =>
    intro i st h1 h2
    have hs := durAligned_inner jobs techs tools mats t0 t1 rnd 50 i st h1 h2
    exact ih (i + 50) _ hs.1 hs.2

/-- Claim C3 (amended): the single-window strategies keep
`end - start = duration`.  First conjunct: every schedule the simulated
annealing run can return pairs position `k` with feasible job `k` and
satisfies `end - start = 3600 * duration` there, for every oracle and every
temperature-step count.  Second conjunct: in the ConstraintOptimizer model,
every solution the solver can return yields output entries with
`end - start = 3600 * duration_hours` (the model posts
`end - start == duration * 60` in minutes).  The GreedyScheduler's multi-day
policy does *not* satisfy this — see the counterexample. -/
theorem C3_single_window_duration :
    (∀ (d : DataIn) (rnd : SARand) (outer : Nat) (k : Nat) (job : JobIn)
        (a : SAssign), (saFeasibleJobs d).get? k = some job →
        (optimize_schedule_sa d rnd outer).get? k = some a →
        a.scheduled_end_time - a.scheduled_start_time = 3600 * job.duration)
    ∧ (∀ (d : DataIn) (sol : OrtSol), OrtSatisfies d sol →
        ∀ a ∈ ortOutput d sol,
        a.scheduled_end_time - a.scheduled_start_time = 3600 * a.duration_hours) := by
  constructor
  · intro d rnd outer k job a hjk hak
    unfold optimize_schedule_sa at hak
    by_cases hemp : (saFeasibleJobs d).isEmpty
    · rw [if_pos hemp] at hak
      cases hak
    · rw [if_neg hemp] at hak
      have hinit := durAligned_generate (saFeasibleJobs d) d.technicians
        d.t_start d.t_end rnd
      have hloop := (durAligned_loop (saFeasibleJobs d) d.technicians d.tools
        d.materials d.t_start d.t_end rnd outer 0
        { current := sa_generate_initial (saFeasibleJobs d) d.technicians
            d.t_start d.t_end rnd
          current_score := sa_evaluate (sa_generate_initial (saFeasibleJobs d)
            d.technicians d.t_start d.t_end rnd) (saFeasibleJobs d) d.tools
            d.materials d.t_start d.t_end
          best := sa_generate_initial (saFeasibleJobs d) d.technicians
            d.t_start d.t_end rnd
          best_score := sa_evaluate (sa_generate_initial (saFeasibleJobs d)
            d.technicians d.t_start d.t_end rnd) (saFeasibleJobs d) d.tools
            d.materials d.t_start d.t_end }
        hinit hinit).2
      exact hloop k job a hjk hak
  · intro d sol h a ha
    unfold ortOutput at ha
    rcases List.mem_map.mp ha with ⟨j, hj, rfl⟩
    have hd := h.durationEq j hj
    simp only [minutes_to_datetime]
    omega

/-! ## GreedyScheduler (`src/scheduler.py`)

The `Scheduler` class and its resource classes, embedded as a state record
over which the `run` loop is a fuel-indexed step function.  A `KeyError`
(a job naming an unknown equipment id, an equipment priority outside
`{1, 2, 3}`, an unknown tool/material id reached in `assign_resources`)
makes the run return `none`.  `calculate_job_end_time`'s while-loop takes
fuel from the state field `cfuel`; the outer scheduling loop takes a fuel
argument.  Exhausted fuel stops the loop where the source would continue;
all theorems quantify over both fuels, and concrete runs use enough fuel to
reach the loop's own exit condition. -/

structure Cal where
  wstart : Int
  wend : Int
  wdays : List Int
deriving DecidableEq

/-- The app's `Scheduler(data, workday_start="08:00", workday_end="17:00",
workdays=[0,1,2,3,4])` calendar. -/
def appCal : Cal := { wstart := 28800, wend := 61200, wdays := [0, 1, 2, 3, 4] }

/-- The `while True: time += timedelta(days=1); if weekday ok: start-of-day +
workday_start; break` loop of `get_next_working_time`.  Weekdays repeat with
period 7, so the search is bounded by 7 days; when no listed workday is a
real weekday the source loops forever (the total model returns a 7-day jump,
a case no theorem relies on). -/
def nextWorkdayFrom (cal : Cal) (time : Int) : Int :=
  match ((List.range' 1 7).map (fun (k : Nat) => (k : Int))).find?
      (fun k => decide (weekday (time + 86400 * k) ∈ cal.wdays)) with
  | some k => dayStart (time + 86400 * k) + cal.wstart
  | none => time + 86400 * 7

/-- `Scheduler.get_next_working_time`. -/
def get_next_working_time (cal : Cal) (time : Int) : Int :=
  if secsOfDay time ≥ cal.wend ∨ weekday time ∉ cal.wdays then
    nextWorkdayFrom cal time
  else if secsOfDay time < cal.wstart then
    dayStart time + cal.wstart
  else time

/-- `Scheduler.calculate_job_end_time` (fuel-indexed while-loop; the `+ 1`
is the source's `+ timedelta(seconds=1)`). -/
def calculate_job_end_time (cal : Cal) : Nat → Int → Int → Int
  | 0, current, _ => current
  | fuel + 1, current, remaining =>
    if remaining ≤ 0 then current
    else
      let workday_end := dayStart current + cal.wend
      let time_available := workday_end - current
      if time_available ≥ remaining then current + remaining
      else calculate_job_end_time cal fuel
        (get_next_working_time cal (workday_end + 1)) (remaining - time_available)

inductive JStatus where
  | unscheduled
  | scheduled
deriving DecidableEq

inductive GReason where
  | predNotCompleted
  | resourceOrWindow
deriving DecidableEq

/-- The `Job` object (duration stored as seconds:
`timedelta(hours=duration)`). -/
structure MJob where
  job_id : String
  description : String
  equipment_id : String
  durSec : Int
  required_skills : List String
  required_tools : List ToolReq
  required_materials : List MatReq
  precedence : List String
  scheduled_start_time : Option Int := none
  scheduled_end_time : Option Int := none
  assigned_technicians : List String := []
  status : JStatus := .unscheduled
deriving DecidableEq

/-- The `Equipment` object (its workday fields are stored but unused by
`Equipment.is_available`, exactly as in the source). -/
structure MEquip where
  equipment_id : String
  name : String
  priority : Int
  ewstart : Int
  ewend : Int
  ewdays : List Int
  sched : List (Int × Int × String) := []
deriving DecidableEq

structure MTech where
  tech_id : String
  name : String
  skills : List String
  hourly_rate : ℚ
  wstart : Int
  wend : Int
  wdays : List Int
  assignments : List (Int × Int × String) := []
deriving DecidableEq

structure MTool where
  tool_id : String
  name : String
  total_quantity : Int
  reservations : List (Int × Int × Int) := []
deriving DecidableEq

structure MMat where
  material_id : String
  name : String
  total_quantity : Int
  quantity_used : Int := 0
deriving DecidableEq

structure GState where
  jobs : List MJob
  equipment : List MEquip
  technicians : List MTech
  tools : List MTool
  materials : List MMat
  t_start : Int
  t_end : Int
  current_time : Int
  cal : Cal
  cfuel : Nat
  sched_order : List String
  unsched_out : List (String × GReason)
deriving DecidableEq

/-- Dict-of-records construction: later records with an existing key
overwrite in place, new keys append (Python dict comprehension). -/
def dictUpByKey {α : Type} (key : α → String) (l : List α) (a : α) : List α :=
  if l.any (fun x => key x == key a) then
    l.map (fun x => if key x == key a then a else x)
  else l ++ [a]

def dictListOf {α β : Type} (key : β → String) (f : α → β) (l : List α) : List β :=
  l.foldl (fun acc x => dictUpByKey key acc (f x)) []

def jobOfData (jd : JobIn) : MJob :=
  { job_id := jd.job_id, description := jd.description,
    equipment_id := jd.equipment_id, durSec := 3600 * jd.duration,
    required_skills := jd.required_skills, required_tools := jd.required_tools,
    required_materials := jd.required_materials, precedence := jd.precedence }

def equipOfData (e : EquipIn) : MEquip :=
  { equipment_id := e.equipment_id, name := e.name, priority := e.priority,
    ewstart := e.workday_start, ewend := e.workday_end, ewdays := e.workdays }

def techOfData (t : TechIn) : MTech :=
  { tech_id := t.tech_id, name := t.name, skills := t.skills,
    hourly_rate := t.hourly_rate, wstart := t.workday_start,
    wend := t.workday_end, wdays := t.workdays }

def toolOfData (t : ToolIn) : MTool :=
  { tool_id := t.tool_id, name := t.name, total_quantity := t.quantity }

def matOfData (m : MatIn) : MMat :=
  { material_id := m.material_id, name := m.name, total_quantity := m.quantity }

/-- `Scheduler.__init__`. -/
def initState (d : DataIn) (cal : Cal) (cfuel : Nat) : GState :=
  { jobs := dictListOf (fun j : MJob => j.job_id) jobOfData d.jobs,
    equipment := dictListOf (fun e : MEquip => e.equipment_id) equipOfData d.equipment,
    technicians := dictListOf (fun t : MTech => t.tech_id) techOfData d.technicians,
    tools := dictListOf (fun t : MTool => t.tool_id) toolOfData d.tools,
    materials := dictListOf (fun m : MMat => m.material_id) matOfData d.materials,
    t_start := d.t_start, t_end := d.t_end, current_time := d.t_start,
    cal := cal, cfuel := cfuel, sched_order := [], unsched_out := [] }

def findJob (st : GState) (jid : String) : Option MJob :=
  st.jobs.find? (fun j => j.job_id == jid)

def findEquip (st : GState) (eid : String) : Option MEquip :=
  st.equipment.find? (fun e => e.equipment_id == eid)

def findTech (st : GState) (tid : String) : Option MTech :=
  st.technicians.find? (fun t => t.tech_id == tid)

def findTool (st : GState) (tid : String) : Option MTool :=
  st.tools.find? (fun t => t.tool_id == tid)

def findMat (st : GState) (mid : String) : Option MMat :=
  st.materials.find? (fun m => m.material_id == mid)

/-- Update every entry with the given key (Python mutates the unique dict
entry in place; keys are unique in all states this embedding builds). -/
def keyModify {α : Type} (key : α → String) (k : String) (g : α → α)
    (l : List α) : List α :=
  l.map (fun x => if key x == k then g x else x)

def updJob (st : GState) (j : MJob) : GState :=
  { st with jobs := keyModify (fun x => x.job_id) j.job_id (fun _ => j) st.jobs }

/-- `Equipment.is_available`. -/
def equipAvailable (e : MEquip) (s t : Int) : Bool :=
  e.sched.all (fun r => decide (t ≤ r.1) || decide (s ≥ r.2.1))

/-- `Technician.is_available`. -/
def techAvailable (tech : MTech) (s t : Int) : Bool :=
  !(decide (secsOfDay s < tech.wstart) || decide (secsOfDay t > tech.wend))
  && !(decide (weekday s ∉ tech.wdays) || decide (weekday t ∉ tech.wdays))
  && tech.assignments.all (fun r => decide (t ≤ r.1) || decide (s ≥ r.2.1))

/-- `Tool.is_available`. -/
def toolAvailable (tool : MTool) (s t : Int) (need : Int) : Bool :=
  let in_use := tool.reservations.foldl (fun acc r =>
    if !(decide (t ≤ r.1) || decide (s ≥ r.2.1)) then acc + r.2.2 else acc) 0
  decide (tool.total_quantity - in_use ≥ need)

/-- `Material.is_available`. -/
def matAvailable (m : MMat) (need : Int) : Bool :=
  decide (m.total_quantity - m.quantity_used ≥ need)

/-- `Job.is_ready`. -/
def jobIsReady (jobs : List MJob) (j : MJob) : Bool :=
  j.precedence.all (fun pid =>
    match jobs.find? (fun x => x.job_id == pid) with
    | some p => decide (p.status = JStatus.scheduled)
    | none => false)

/-- `Scheduler.can_assign_technicians`: smallest covering combination in
`itertools.combinations` order; returns the chosen team. -/
def canAssignTechnicians (job : MJob) (avail : List MTech) : Option (List MTech) :=
  (List.range' 1 avail.length).findSome? (fun r =>
    (pyCombinations r avail).find? (fun combo =>
      job.required_skills.all (fun s => combo.any (fun t => t.skills.contains s))))

/-- `Scheduler.is_job_feasible`, returning the (possibly technician-updated)
job alongside the verdict; `none` is the `KeyError` on a missing equipment
id. -/
def is_job_feasible (st : GState) (job : MJob) : Option (Bool × MJob) :=
  if ¬ jobIsReady st.jobs job then some (false, job)
  else
    let ps := get_next_working_time st.cal st.current_time
    let pe := calculate_job_end_time st.cal st.cfuel ps job.durSec
    if pe > st.t_end then some (false, job)
    else
      match findEquip st job.equipment_id with
      | none => none
      | some equip =>
        if ¬ equipAvailable equip ps pe then some (false, job)
        else
          let availT := st.technicians.filter (fun t => techAvailable t ps pe)
          match canAssignTechnicians job availT with
          | none => some (false, job)
          | some combo =>
            let job' := { job with
              assigned_technicians := combo.map (fun t => t.tech_id) }
            let toolsOk := job.required_tools.all (fun req =>
              match findTool st req.tool_id with
              | some tool => toolAvailable tool ps pe req.quantity
              | none => false)
            let matsOk := job.required_materials.all (fun req =>
              match findMat st req.material_id with
              | some m => matAvailable m req.quantity
              | none => false)
            some (toolsOk && matsOk, job')

/-- `Scheduler.assign_resources` (the job's window is passed explicitly; the
source reads it from the job's just-set fields). -/
def assign_resources (st : GState) (job : MJob) (s t : Int) : Option GState := do
  let st1 := job.assigned_technicians.foldl (fun acc tid =>
    let techs := keyModify (fun x => x.tech_id) tid
      (fun x => { x with assignments := x.assignments ++ [(s, t, job.job_id)] })
      acc.technicians
    { acc with technicians := techs }) st
  let st2 ← job.required_tools.foldlM (fun (acc : GState) req =>
    match acc.tools.find? (fun x => x.tool_id == req.tool_id) with
    | none => none
    | some _ =>
      let tls := keyModify (fun x => x.tool_id) req.tool_id
        (fun x => { x with reservations := x.reservations ++ [(s, t, req.quantity)] })
        acc.tools
      some { acc with tools := tls }) st1
  let st3 ← job.required_materials.foldlM (fun (acc : GState) req =>
    match acc.materials.find? (fun x => x.material_id == req.material_id) with
    | none => none
    | some _ =>
      let ms := keyModify (fun x => x.material_id) req.material_id
        (fun x => { x with quantity_used := x.quantity_used + req.quantity })
        acc.materials
      some { acc with materials := ms }) st2
  match st3.equipment.find? (fun x => x.equipment_id == job.equipment_id) with
  | none => none
  | some _ =>
    let eqs := keyModify (fun x => x.equipment_id) job.equipment_id
      (fun x => { x with sched := x.sched ++ [(s, t, job.job_id)] })
      st3.equipment
    some { st3 with equipment := eqs }

/-- `Scheduler.schedule_job`. -/
def schedule_job (st : GState) (jid : String) : Option GState := do
  let job ← findJob st jid
  let ps := get_next_working_time st.cal st.current_time
  let pe := calculate_job_end_time st.cal st.cfuel ps job.durSec
  let job' := { job with
    scheduled_start_time := some ps
    scheduled_end_time := some pe
    status := JStatus.scheduled }
  let st1 := updJob st job'
  let st2 ← assign_resources st1 job' ps pe
  some { st2 with sched_order := st2.sched_order ++ [jid] }

/-- `Scheduler.calculate_cumulative_scheduled_times`. -/
def cumulativeTimes (st : GState) : List (String × Int) :=
  let init := st.equipment.map (fun e => (e.equipment_id, (0 : Int)))
  st.sched_order.foldl (fun acc jid =>
    match findJob st jid with
    | some j =>
      match j.scheduled_start_time, j.scheduled_end_time with
      | some s, some e =>
        acc.map (fun p => if p.1 == j.equipment_id then (p.1, p.2 + (e - s)) else p)
      | _, _ => acc
    | none => acc) init

/-- Python `max` over a list of values (`ValueError` on empty → `none`). -/
def pyMaxInt : List Int → Option Int
  | [] => none
  | a :: l => some (l.foldl max a)

/-- `Scheduler.evaluate_job_impact`. -/
def evaluate_job_impact (st : GState) (job : MJob) : Option Int :=
  let sim := cumulativeTimes st
  let ps := get_next_working_time st.cal st.current_time
  let pe := calculate_job_end_time st.cal st.cfuel ps job.durSec
  let sim' := sim.map (fun p =>
    if p.1 == job.equipment_id then (p.1, p.2 + (pe - ps)) else p)
  pyMaxInt (sim'.map (fun p => p.2))

/-- `Scheduler.select_best_job`: least increase of the maximum cumulative
equipment time, first minimum wins. -/
def select_best_job (st : GState) (feas : List String) : Option String := do
  let cur ← pyMaxInt ((cumulativeTimes st).map (fun p => p.2))
  let res ← feas.foldlM (fun (acc : Option (String × Int)) jid => do
    let job ← findJob st jid
    let impact ← evaluate_job_impact st job
    let inc := impact - cur
    match acc with
    | none => some (some (jid, inc))
    | some (bj, bi) =>
      if inc < bi then some (some (jid, inc)) else some (some (bj, bi)))
    (none : Option (String × Int))
  match res with
  | some (bj, _) => some bj
  | none => none

/-- The feasibility scan of one loop iteration: evaluates
`is_job_feasible` on each pending job in order (committing each job's
technician-assignment side effect to the jobs dict) and collects the
feasible ids. -/
def scanFeasible (st : GState) : List String → Option (GState × List String)
  | [] => some (st, [])
  | jid :: rest => do
    let job ← findJob st jid
    let fr ← is_job_feasible st job
    let st' := updJob st fr.2
    let next ← scanFeasible st' rest
    some (next.1, if fr.1 then jid :: next.2 else next.2)

/-- The no-feasible-job branch: advance to the earliest upcoming scheduled
end (re-aligned to working time) or to the next working minute. -/
def advanceTime (st : GState) : GState :=
  let next_times := st.sched_order.filterMap (fun jid =>
    match findJob st jid with
    | some j =>
      match j.scheduled_end_time with
      | some e => if e > st.current_time then some e else none
      | none => none
    | none => none)
  match next_times with
  | [] => { st with current_time := get_next_working_time st.cal (st.current_time + 60) }
  | t :: ts => { st with current_time := get_next_working_time st.cal (ts.foldl min t) }

/-- The `while self.current_time < self.t_end and unscheduled_jobs` loop of
`Scheduler.run`, for one priority group. -/
def runGroupLoop : Nat → GState → List String → Option (GState × List String)
  | 0, st, pending => some (st, pending)
  | fuel + 1, st, pending =>
    if st.current_time < st.t_end ∧ pending ≠ [] then do
      let st1 := { st with current_time := get_next_working_time st.cal st.current_time }
      let scanned ← scanFeasible st1 pending
      let st2 := scanned.1
      let feas := scanned.2
      if feas ≠ [] then do
        let best ← select_best_job st2 feas
        let st3 ← schedule_job st2 best
        runGroupLoop fuel st3 (pending.erase best)
      else
        let st3 := advanceTime st2
        if st3.current_time ≥ st3.t_end then some (st3, pending)
        else runGroupLoop fuel st3 pending
    else some (st, pending)

/-- `Scheduler.get_unfeasibility_reason` over the leftover pending jobs of a
group. -/
def finishGroup (st : GState) (pending : List String) : GState :=
  pending.foldl (fun acc jid =>
    match findJob acc jid with
    | some j =>
      let r := if ¬ jobIsReady acc.jobs j then GReason.predNotCompleted
        else GReason.resourceOrWindow
      { acc with unsched_out := acc.unsched_out ++ [(jid, r)] }
    | none => acc) st

/-- `Scheduler.get_predecessors_duration`. -/
def get_predecessors_duration (st : GState) (j : MJob) : Int :=
  j.precedence.foldl (fun acc pid =>
    match findJob st pid with
    | some p => acc + p.durSec
    | none => acc) 0

/-- The job's `effective_duration` sort key. -/
def effKey (st : GState) (jid : String) : Int :=
  match findJob st jid with
  | some j => j.durSec + get_predecessors_duration st j
  | none => 0

def sortGroup (st : GState) (g : List String) : List String :=
  pySortBy (fun a b => decide (effKey st a ≤ effKey st b)) g

/-- The `priority_groups = {1: [], 2: [], 3: []}` partition; `none` is the
`KeyError` on a missing equipment id or a priority outside 1..3. -/
def priorityGroups (st : GState) : Option (List String × List String × List String) :=
  st.jobs.foldlM (fun (acc : List String × List String × List String) j =>
    match st.equipment.find? (fun e => e.equipment_id == j.equipment_id) with
    | none => none
    | some e =>
      if e.priority = 1 then some (acc.1 ++ [j.job_id], acc.2.1, acc.2.2)
      else if e.priority = 2 then some (acc.1, acc.2.1 ++ [j.job_id], acc.2.2)
      else if e.priority = 3 then some (acc.1, acc.2.1, acc.2.2 ++ [j.job_id])
      else none)
    ([], [], [])

/-- Process one priority group to exhaustion (sort by effective duration,
loop, then record the leftovers with reasons). -/
def processGroup (fuel : Nat) (st : GState) (g : List String) : Option GState := do
  let res ← runGroupLoop fuel st (sortGroup st g)
  some (finishGroup res.1 res.2)

/-- `Scheduler.run` (after `__init__` on the data bundle). -/
def runScheduler (d : DataIn) (cal : Cal) (cfuel fuel : Nat) : Option GState := do
  let st := initState d cal cfuel
  let gs ← priorityGroups st
  let st1 ← processGroup fuel st gs.1
  let st2 ← processGroup fuel st1 gs.2.1
  let st3 ← processGroup fuel st2 gs.2.2
  some st3

/-- An output row of the greedy schedule (`app.run_scheduler` emits
`scheduler.schedule` in commit order with these fields). -/
structure GAssign where
  job_id : String
  equipment_id : String
  scheduled_start_time : Int
  scheduled_end_time : Int
  assigned_technicians : List String
deriving DecidableEq

def greedyOutput (st : GState) : List GAssign :=
  st.sched_order.filterMap (fun jid =>
    match findJob st jid with
    | some j =>
      match j.scheduled_start_time, j.scheduled_end_time with
      | some s, some e =>
        some ⟨jid, j.equipment_id, s, e, j.assigned_technicians⟩
      | _, _ => none
    | none => none)

theorem find?_keyModify {α : Type} (key : α → String) (k : String) (g : α → α)
    (hg : ∀ x, key x = k → key (g x) = k) (l : List α) (k2 : String) :
    (keyModify key k g l).find? (fun x => key x == k2)
      = if k = k2 then (l.find? (fun x => key x == k2)).map g
        else l.find? (fun x => key x == k2) := by
  induction l with
  | nil => by_cases h : k = k2 <;> simp [keyModify, h]
  | cons a l ih =>
    unfold keyModify at *
    simp only [List.map_cons]
    by_cases ha : (key a == k) = true
    · have hak : key a = k := by simpa using ha
      rw [if_pos ha, List.find?_cons, List.find?_cons]
      have hga : key (g a) = k := hg a hak
      by_cases hk2 : k = k2
      · have h1 : (key (g a) == k2) = true := by simp [hga, hk2]
        have h2 : (key a == k2) = true := by simp [hak, hk2]
        rw [h1, h2, if_pos hk2]
        rfl
      · have h1 : (key (g a) == k2) = false := by
          rw [hga]
          simpa using hk2
        have h2 : (key a == k2) = false := by
          rw [hak]
          simpa using hk2
        rw [h1, h2, if_neg hk2, ih]
        rw [if_neg hk2]
    · rw [if_neg ha, List.find?_cons, List.find?_cons]
      cases hb : (key a == k2) with
      | true =>
        have hne : k ≠ k2 := by
          intro he
          rw [he] at ha
          exact ha hb
        simp [hne]
      | false =>
        rw [ih]

theorem mem_keyModify {α : Type} {key : α → String} {k : String} {g : α → α}
    {l : List α} {x : α} (h : x ∈ keyModify key k g l) :
    ∃ y ∈ l, x = (if key y == k then g y else y) := by
  unfold keyModify at h
  rcases List.mem_map.mp h with ⟨y, hy, hxy⟩
  exact ⟨y, hy, hxy.symm⟩

theorem keyModify_keys {α : Type} (key : α → String) (k : String) (g : α → α)
    (hg : ∀ x, key x = k → key (g x) = k) (l : List α) :
    (keyModify key k g l).map key = l.map key := by
  induction l with
  | nil => rfl
  | cons a l ih =>
    unfold keyModify at *
    simp only [List.map_cons]
    by_cases ha : (key a == k) = true
    · have hak : key a = k := by simpa using ha
      rw [if_pos ha, ih, hg a hak, hak]
    · rw [if_neg ha, ih]

theorem pyInsortBy_perm {α : Type} (le : α → α → Bool) (a : α) (l : List α) :
    (pyInsortBy le a l).Perm (a :: l) := by
  induction l with
  | nil => exact List.Perm.refl _
  | cons b l ih =>
    unfold pyInsortBy
    by_cases h : le a b
    · rw [if_pos h]
    · rw [if_neg h]
      exact (List.Perm.cons b ih).trans (List.Perm.swap a b l)

theorem pySortBy_perm {α : Type} (le : α → α → Bool) (l : List α) :
    (pySortBy le l).Perm l := by
  induction l with
  | nil => exact List.Perm.refl _
  | cons a l ih =>
    unfold pySortBy
    exact (pyInsortBy_perm le a (pySortBy le l)).trans (List.Perm.cons a ih)

theorem mem_pySortBy {α : Type} {le : α → α → Bool} {l : List α} {a : α} :
    a ∈ pySortBy le l ↔ a ∈ l :=
  (pySortBy_perm le l).mem_iff

theorem pyCombinations_subset {α : Type} :
    ∀ (r : Nat) (l : List α) (c : List α), c ∈ pyCombinations r l → c ⊆ l := by
  intro r
  induction r with
  | zero =>
    intro l c hc
    unfold pyCombinations at hc
    simp at hc
    subst hc
    exact List.nil_subset l
  | succ r ih =>
    intro l
    induction l with
    | nil =>
      intro c hc
      unfold pyCombinations at hc
      cases hc
    | cons a t iht =>
      intro c hc
      unfold pyCombinations at hc
      rcases List.mem_append.mp hc with h | h
      · rcases List.mem_map.mp h with ⟨c', hc', rfl⟩
        intro x hx
        rcases List.mem_cons.mp hx with h1 | hx
        · rw [h1]
          exact List.mem_cons_self _ _
        · exact List.mem_cons_of_mem _ (ih t c' hc' hx)
      · intro x hx
        exact List.mem_cons_of_mem a (iht c h hx)

theorem pairwise_filterMap_of {α β : Type} {f : α → Option β} {R : β → β → Prop}
    {l : List α}
    (h : l.Pairwise (fun a b => ∀ x y, f a = some x → f b = some y → R x y)) :
    (l.filterMap f).Pairwise R := by
  induction l with
  | nil => exact List.Pairwise.nil
  | cons a l ih =>
    cases h with
    | cons ha hl =>
      rw [List.filterMap_cons]
      cases hfa : f a with
      | none => exact ih hl
      | some x =>
        refine List.Pairwise.cons ?_ (ih hl)
        intro y hy
        rcases List.mem_filterMap.mp hy with ⟨b, hb, hfb⟩
        exact ha b hb x y hfa hfb

theorem mem_dictUpByKey {α : Type} {key : α → String} {l : List α} {a x : α}
    (h : x ∈ dictUpByKey key l a) : x = a ∨ x ∈ l := by
  unfold dictUpByKey at h
  by_cases hc : l.any (fun y => key y == key a) = true
  · rw [if_pos hc] at h
    rcases List.mem_map.mp h with ⟨y, hy, hxy⟩
    by_cases hk : (key y == key a) = true
    · rw [if_pos hk] at hxy
      exact Or.inl hxy.symm
    · rw [if_neg hk] at hxy
      exact Or.inr (hxy ▸ hy)
  · rw [if_neg hc] at h
    rcases List.mem_append.mp h with h | h
    · exact Or.inr h
    · simp at h
      exact Or.inl h

theorem dictListOf_mem {α β : Type} (key : β → String) (f : α → β) (l : List α) :
    ∀ x ∈ dictListOf key f l, ∃ a ∈ l, x = f a := by
  suffices H : ∀ (acc : List β), (∀ x ∈ acc, ∃ a ∈ l, x = f a) →
      ∀ x ∈ l.foldl (fun acc a => dictUpByKey key acc (f a)) acc, ∃ a ∈ l, x = f a by
    intro x hx
    exact H [] (by intro y hy; cases hy) x hx
  have H2 : ∀ (sub : List α), sub ⊆ l → ∀ (acc : List β),
      (∀ x ∈ acc, ∃ a ∈ l, x = f a) →
      ∀ x ∈ sub.foldl (fun acc a => dictUpByKey key acc (f a)) acc,
      ∃ a ∈ l, x = f a := by
    intro sub
    induction sub with
    | nil => intro _ acc hacc x hx; exact hacc x hx
    | cons a sub ih =>
      intro hsub acc hacc x hx
      simp only [List.foldl_cons] at hx
      refine ih (fun y hy => hsub (by simp [hy])) _ ?_ x hx
      intro y hy
      rcases mem_dictUpByKey hy with h | h
      · exact ⟨a, hsub (by simp), h⟩
      · exact hacc y h
  exact fun acc => H2 l (fun y hy => hy) acc

theorem dictUpByKey_keys_nodup {α : Type} (key : α → String) (l : List α) (a : α)
    (h : (l.map key).Nodup) : ((dictUpByKey key l a).map key).Nodup := by
  unfold dictUpByKey
  by_cases hc : l.any (fun y => key y == key a) = true
  · rw [if_pos hc]
    have e : l.map (fun x => if key x == key a then a else x)
        = keyModify key (key a) (fun _ => a) l := rfl
    rw [e, keyModify_keys key (key a) (fun _ => a) (fun x _ => rfl) l]
    exact h
  · rw [if_neg hc]
    have hno : ∀ y ∈ l, key y ≠ key a := by
      intro y hy he
      apply hc
      rw [List.any_eq_true]
      exact ⟨y, hy, by simpa using he⟩
    rw [List.map_append, List.nodup_append]
    refine ⟨h, by simp, ?_⟩
    intro x hx
    simp only [List.map_cons, List.map_nil, List.mem_singleton]
    intro hxa
    rcases List.mem_map.mp hx with ⟨y, hy, hxy⟩
    exact hno y hy (by rw [hxy, hxa])

theorem dictListOf_keys_nodup {α β : Type} (key : β → String) (f : α → β)
    (l : List α) : ((dictListOf key f l).map key).Nodup := by
  suffices H : ∀ (sub : List α) (acc : List β), (acc.map key).Nodup →
      ((sub.foldl (fun acc a => dictUpByKey key acc (f a)) acc).map key).Nodup by
    exact H l [] (by simp)
  intro sub
  induction sub with
  | nil => intro acc hacc; exact hacc
  | cons a sub ih =>
    intro acc hacc
    simp only [List.foldl_cons]
    exact ih _ (dictUpByKey_keys_nodup key acc (f a) hacc)

/-- With unique keys, two members sharing a key are the same record. -/
theorem nodupKeys_inj {α : Type} {key : α → String} {l : List α}
    (h : (l.map key).Nodup) {x y : α} (hx : x ∈ l) (hy : y ∈ l)
    (hk : key x = key y) : x = y := by
  induction l with
  | nil => cases hx
  | cons a t ih =>
    rw [List.map_cons, List.nodup_cons] at h
    rcases List.mem_cons.mp hx with h1 | h1 <;> rcases List.mem_cons.mp hy with h2 | h2
    · rw [h1, h2]
    · exfalso
      refine h.1 ?_
      rw [List.mem_map]
      exact ⟨y, h2, by rw [← hk, h1]⟩
    · exfalso
      refine h.1 ?_
      rw [List.mem_map]
      exact ⟨x, h1, by rw [hk, h2]⟩
    · exact ih h.2 h1 h2

/-- With unique keys, `find?` at a member's key returns that member. -/
theorem find?_key_of_mem {α : Type} {key : α → String} {l : List α}
    (h : (l.map key).Nodup) {x : α} (hx : x ∈ l) :
    l.find? (fun y => key y == key x) = some x := by
  induction l with
  | nil => cases hx
  | cons a t ih =>
    rw [List.map_cons, List.nodup_cons] at h
    rcases List.mem_cons.mp hx with h1 | h1
    · rw [h1, List.find?_cons]
      have hbe : (key a == key a) = true := by simp
      rw [hbe]
    · have hne : key a ≠ key x := by
        intro he
        refine h.1 ?_
        rw [List.mem_map]
        exact ⟨x, h1, he.symm⟩
      rw [List.find?_cons]
      have hbe : (key a == key x) = false := by simpa using hne
      rw [hbe]
      exact ih h.2 h1

theorem foldlM_option_proj {σ α β : Type} (proj : σ → β) (f : σ → α → Option σ)
    (hf : ∀ acc a st', f acc a = some st' → proj st' = proj acc) :
    ∀ (l : List α) (acc : σ) (st'), l.foldlM f acc = some st' →
      proj st' = proj acc := by
  intro l
  induction l with
  | nil =>
    intro acc st' h
    simp only [List.foldlM_nil] at h
    cases h
    rfl
  | cons a l ih =>
    intro acc st' h
    simp only [List.foldlM_cons] at h
    cases hfa : f acc a with
    | none => rw [hfa] at h; cases h
    | some acc2 =>
      rw [hfa] at h
      rw [ih acc2 st' h, hf acc a acc2 hfa]

theorem foldl_proj {σ α β : Type} (proj : σ → β) (f : σ → α → σ)
    (hf : ∀ acc a, proj (f acc a) = proj acc) :
    ∀ (l : List α) (acc : σ), proj (l.foldl f acc) = proj acc := by
  intro l
  induction l with
  | nil => intro acc; rfl
  | cons a l ih =>
    intro acc
    simp only [List.foldl_cons]
    rw [ih (f acc a), hf acc a]

/-- The state components `assign_resources` leaves untouched. -/
def gframe (st : GState) :
    List MJob × List String × List (String × GReason) × Int × Int × Int × Cal × Nat :=
  (st.jobs, st.sched_order, st.unsched_out, st.current_time, st.t_start,
    st.t_end, st.cal, st.cfuel)

theorem assign_gframe {st : GState} {job : MJob} {s t : Int} {st' : GState}
    (h : assign_resources st job s t = some st') : gframe st' = gframe st := by
  unfold assign_resources at h
  dsimp only [] at h
  have h1 : gframe (job.assigned_technicians.foldl (fun acc tid =>
      let techs := keyModify (fun x => x.tech_id) tid
        (fun x => { x with assignments := x.assignments ++ [(s, t, job.job_id)] })
        acc.technicians
      { acc with technicians := techs }) st) = gframe st :=
    foldl_proj gframe
      (fun (acc : GState) (tid : String) =>
        let techs := keyModify (fun (x : MTech) => x.tech_id) tid
          (fun (x : MTech) => { x with assignments := x.assignments ++ [(s, t, job.job_id)] })
          acc.technicians
        { acc with technicians := techs })
      (fun acc a => rfl) job.assigned_technicians st
  cases h2 : job.required_tools.foldlM (fun (acc : GState) req =>
      match acc.tools.find? (fun x => x.tool_id == req.tool_id) with
      | none => none
      | some _ =>
        let tls := keyModify (fun (x : MTool) => x.tool_id) req.tool_id
          (fun (x : MTool) => { x with reservations := x.reservations ++ [(s, t, req.quantity)] })
          acc.tools
        some { acc with tools := tls })
      (job.assigned_technicians.foldl (fun (acc : GState) (tid : String) =>
        let techs := keyModify (fun (x : MTech) => x.tech_id) tid
          (fun (x : MTech) => { x with assignments := x.assignments ++ [(s, t, job.job_id)] })
          acc.technicians
        { acc with technicians := techs }) st) with
  | none =>
    rw [h2] at h
    cases h
  | some st2 =>
    rw [h2] at h
    simp only [bind, Option.bind] at h
    have h2f : gframe st2 = gframe st := by
      rw [foldlM_option_proj gframe _ ?_ _ _ _ h2, h1]
      intro acc a stx hx
      cases hfind : acc.tools.find? (fun x => x.tool_id == a.tool_id) with
      | none => rw [hfind] at hx; cases hx
      | some _ =>
        rw [hfind] at hx
        cases hx
        rfl
    cases h3 : job.required_materials.foldlM (fun (acc : GState) req =>
        match acc.materials.find? (fun x => x.material_id == req.material_id) with
        | none => none
        | some _ =>
          let ms := keyModify (fun (x : MMat) => x.material_id) req.material_id
            (fun (x : MMat) => { x with quantity_used := x.quantity_used + req.quantity })
            acc.materials
          some { acc with materials := ms }) st2 with
    | none =>
      rw [h3] at h
      cases h
    | some st3 =>
      rw [h3] at h
      simp only [bind, Option.bind] at h
      have h3f : gframe st3 = gframe st2 := by
        refine foldlM_option_proj gframe _ ?_ _ _ _ h3
        intro acc a stx hx
        cases hfind : acc.materials.find? (fun x => x.material_id == a.material_id) with
        | none => rw [hfind] at hx; cases hx
        | some _ =>
          rw [hfind] at hx
          cases hx
          rfl
      cases h4 : st3.equipment.find? (fun x => x.equipment_id == job.equipment_id) with
      | none =>
        rw [h4] at h
        cases h
      | some _ =>
        rw [h4] at h
        cases h
        have e5 : gframe { st3 with equipment := keyModify (fun (x : MEquip) => x.equipment_id) job.equipment_id (fun (x : MEquip) => { x with sched := x.sched ++ [(s, t, job.job_id)] }) st3.equipment } = gframe st3 := rfl
        rw [e5, h3f, h2f]

/-! ## Cyclic-precedence behaviour of the greedy scheduler (C5) -/

/-- A set `C` of job ids is *self-blocking* in a state when every member is
present, not yet scheduled, and has a predecessor inside `C`; no member may
ever appear in the commit order. -/
def CInv (C : List String) (st : GState) : Prop :=
  (∀ jid ∈ C, ∃ j, findJob st jid = some j ∧ j.status ≠ JStatus.scheduled ∧
    ∃ pid, pid ∈ C ∧ pid ∈ j.precedence) ∧
  (∀ jid ∈ C, jid ∉ st.sched_order)

theorem CInv_of_eq {C : List String} {st st' : GState}
    (hj : st'.jobs = st.jobs) (ho : st'.sched_order = st.sched_order)
    (h : CInv C st) : CInv C st' := by
  constructor
  · intro jid hjid
    rcases h.1 jid hjid with ⟨j, hfind, hstat, rest⟩
    refine ⟨j, ?_, hstat, rest⟩
    unfold findJob at *
    rw [hj]
    exact hfind
  · intro jid hjid
    rw [ho]
    exact h.2 jid hjid

theorem findJob_job_id {st : GState} {jid : String} {j : MJob}
    (h : findJob st jid = some j) : j.job_id = jid := by
  unfold findJob at h
  simpa using List.find?_some h

theorem not_ready_of_CInv {C : List String} {st : GState} {jid : String}
    {j : MJob} (hC : CInv C st) (hmem : jid ∈ C)
    (hfind : findJob st jid = some j) : jobIsReady st.jobs j = false := by
  rcases hC.1 jid hmem with ⟨j', hj', _, pid, hpidC, hpidin⟩
  rw [hfind] at hj'
  cases hj'
  rcases hC.1 pid hpidC with ⟨p, hp, hps, _⟩
  cases hb : jobIsReady st.jobs j with
  | false => rfl
  | true =>
    exfalso
    unfold jobIsReady at hb
    rw [List.all_eq_true] at hb
    have h2 := hb pid hpidin
    unfold findJob at hp
    rw [hp] at h2
    exact hps (by simpa using h2)

theorem feasible_false_of_CInv {C : List String} {st : GState} {jid : String}
    {j : MJob} (hC : CInv C st) (hmem : jid ∈ C)
    (hfind : findJob st jid = some j) :
    is_job_feasible st j = some (false, j) := by
  have hb := not_ready_of_CInv hC hmem hfind
  unfold is_job_feasible
  rw [if_pos (by simp [hb])]

theorem findJob_updJob (st : GState) (j : MJob) (jid : String) :
    findJob (updJob st j) jid
      = if j.job_id = jid then (findJob st jid).map (fun _ => j)
        else findJob st jid := by
  unfold findJob updJob
  exact find?_keyModify (fun x => x.job_id) j.job_id (fun _ => j)
    (fun x _ => rfl) st.jobs jid

theorem CInv_updJob_notin {C : List String} {st : GState} {j : MJob}
    (hC : CInv C st) (hj : j.job_id ∉ C) : CInv C (updJob st j) := by
  constructor
  · intro jid hjid
    rcases hC.1 jid hjid with ⟨j', hfind, hstat, rest⟩
    refine ⟨j', ?_, hstat, rest⟩
    rw [findJob_updJob]
    rw [if_neg (by intro he; exact hj (he ▸ hjid))]
    exact hfind
  · intro jid hjid
    exact hC.2 jid hjid

theorem CInv_updJob_same {C : List String} {st : GState} {j : MJob}
    (hC : CInv C st) (hfind : findJob st j.job_id = some j) :
    CInv C (updJob st j) := by
  constructor
  · intro jid hjid
    rcases hC.1 jid hjid with ⟨j', hfind', hstat, rest⟩
    by_cases he : j.job_id = jid
    · have hj' : j' = j := by
        rw [← he] at hfind'
        rw [hfind] at hfind'
        exact (Option.some.inj hfind').symm
      refine ⟨j, ?_, hj' ▸ hstat, hj' ▸ rest⟩
      rw [findJob_updJob, if_pos he, ← he, hfind]
      rfl
    · refine ⟨j', ?_, hstat, rest⟩
      rw [findJob_updJob, if_neg he]
      exact hfind'
  · intro jid hjid
    exact hC.2 jid hjid

theorem is_job_feasible_job_id {st : GState} {job : MJob} {fr : Bool × MJob}
    (h : is_job_feasible st job = some fr) : fr.2.job_id = job.job_id := by
  unfold is_job_feasible at h
  dsimp only [] at h
  split at h
  · cases h; rfl
  · split at h
    · cases h; rfl
    · split at h
      · cases h
      · split at h
        · cases h; rfl
        · split at h
          · cases h; rfl
          · cases h; rfl

theorem scanFeasible_CInv {C : List String} :
    ∀ (pending : List String) (st st' : GState) (feas : List String),
      CInv C st → scanFeasible st pending = some (st', feas) →
      CInv C st' ∧ ∀ x ∈ feas, x ∉ C := by
  intro pending
  induction pending with
  | nil =>
    intro st st' feas hC h
    simp only [scanFeasible] at h
    cases h
    exact ⟨hC, by intro x hx; cases hx⟩
  | cons jid rest ih =>
    intro st st' feas hC h
    simp only [scanFeasible] at h
    cases hjob : findJob st jid with
    | none =>
      rw [hjob] at h
      simp only [bind, Option.bind] at h
      cases h
    | some job =>
      rw [hjob] at h
      simp only [bind, Option.bind] at h
      cases hfr : is_job_feasible st job with
      | none => rw [hfr] at h; cases h
      | some fr =>
        rw [hfr] at h
        simp only [Option.bind] at h
        cases hnext : scanFeasible (updJob st fr.2) rest with
        | none => rw [hnext] at h; cases h
        | some nxt =>
          rw [hnext] at h
          simp only [Option.bind] at h
          by_cases hmem : jid ∈ C
          · have hff := feasible_false_of_CInv hC hmem hjob
            have hfr2 : fr = (false, job) := by
              rw [hfr] at hff
              exact Option.some.inj hff
            have hCupd : CInv C (updJob st fr.2) := by
              rw [hfr2]
              exact CInv_updJob_same hC
                (by rw [findJob_job_id hjob]; exact hjob)
            obtain ⟨hC', hfe⟩ := ih (updJob st fr.2) nxt.1 nxt.2 hCupd hnext
            cases h
            refine ⟨hC', ?_⟩
            intro x hx
            rw [hfr2] at hx
            simp only [] at hx
            exact hfe x hx
          · have hCupd : CInv C (updJob st fr.2) :=
              CInv_updJob_notin hC
                (by rw [is_job_feasible_job_id hfr, findJob_job_id hjob]; exact hmem)
            obtain ⟨hC', hfe⟩ := ih (updJob st fr.2) nxt.1 nxt.2 hCupd hnext
            cases h
            refine ⟨hC', ?_⟩
            intro x hx
            split at hx
            · rcases List.mem_cons.mp hx with h1 | h1
              · rw [h1]; exact hmem
              · exact hfe x h1
            · exact hfe x hx

theorem scanFeasible_frame :
    ∀ (pending : List String) (st st' : GState) (feas : List String),
      scanFeasible st pending = some (st', feas) →
      st'.sched_order = st.sched_order ∧ st'.unsched_out = st.unsched_out := by
  intro pending
  induction pending with
  | nil =>
    intro st st' feas h
    simp only [scanFeasible] at h
    cases h
    exact ⟨rfl, rfl⟩
  | cons jid rest ih =>
    intro st st' feas h
    simp only [scanFeasible] at h
    cases hjob : findJob st jid with
    | none =>
      rw [hjob] at h
      simp only [bind, Option.bind] at h
      cases h
    | some job =>
      rw [hjob] at h
      simp only [bind, Option.bind] at h
      cases hfr : is_job_feasible st job with
      | none => rw [hfr] at h; cases h
      | some fr =>
        rw [hfr] at h
        simp only [Option.bind] at h
        cases hnext : scanFeasible (updJob st fr.2) rest with
        | none => rw [hnext] at h; cases h
        | some nxt =>
          rw [hnext] at h
          simp only [Option.bind] at h
          cases h
          exact ih (updJob st fr.2) nxt.1 nxt.2 hnext

theorem foldlM_best_mem {α β : Type} (f : Option β → α → Option (Option β))
    (R : β → α → Prop)
    (hf : ∀ acc a r, f acc a = some r → ∀ p, r = some p →
      R p a ∨ ∃ q, acc = some q ∧ q = p) :
    ∀ (l : List α) (acc : Option β) (r : Option β),
      l.foldlM f acc = some r → ∀ p, r = some p →
      (∃ a ∈ l, R p a) ∨ ∃ q, acc = some q ∧ q = p := by
  intro l
  induction l with
  | nil =>
    intro acc r h p hp
    right
    simp only [List.foldlM_nil] at h
    exact ⟨p, by rw [Option.some.inj h, hp], rfl⟩
  | cons a rest ih =>
    intro acc r h p hp
    simp only [List.foldlM_cons, bind, Option.bind_eq_some] at h
    obtain ⟨acc2, hfa, hrest⟩ := h
    rcases ih acc2 r hrest p hp with ⟨b, hb, hR⟩ | ⟨q, hq, hqp⟩
    · exact Or.inl ⟨b, List.mem_cons_of_mem a hb, hR⟩
    · rcases hf acc a acc2 hfa p (by rw [hq, hqp]) with hR | hrec
      · exact Or.inl ⟨a, List.mem_cons_self a rest, hR⟩
      · exact Or.inr hrec

theorem select_best_job_mem {st : GState} {feas : List String} {best : String}
    (h : select_best_job st feas = some best) : best ∈ feas := by
  unfold select_best_job at h
  simp only [bind, Option.bind_eq_some] at h
  obtain ⟨cur, hcur, res, hres, hmatch⟩ := h
  cases res with
  | none => cases hmatch
  | some p =>
    obtain ⟨bj, bi⟩ := p
    have hb := foldlM_best_mem _ (fun (p : String × Int) (a : String) => p.1 = a)
      ?hf feas none (some (bj, bi)) hres (bj, bi) rfl
    rcases hb with ⟨a, ha, hR⟩ | ⟨q, hq, _⟩
    · rw [← Option.some.inj hmatch]
      rw [show bj = a from hR]
      exact ha
    · cases hq
    case hf =>
      intro acc a r hs p hp
      simp only [Option.bind_eq_some] at hs
      obtain ⟨job, hjob, impact, himp, hs⟩ := hs
      cases acc with
      | none =>
        have hpe : (a, impact - cur) = p := by
          rw [hp] at hs
          exact Option.some.inj (Option.some.inj hs)
        left
        exact (congrArg Prod.fst hpe).symm
      | some q =>
        obtain ⟨qj, qi⟩ := q
        rw [hp] at hs
        dsimp only [] at hs
        split at hs
        · have hpe : (a, impact - cur) = p := Option.some.inj (Option.some.inj hs)
          left
          exact (congrArg Prod.fst hpe).symm
        · right
          exact ⟨(qj, qi), rfl, Option.some.inj (Option.some.inj hs)⟩

theorem schedule_job_CInv {C : List String} {st : GState} {best : String}
    {st' : GState} (hC : CInv C st) (hbest : best ∉ C)
    (h : schedule_job st best = some st') :
    CInv C st' ∧ st'.unsched_out = st.unsched_out := by
  unfold schedule_job at h
  simp only [bind, Option.bind_eq_some] at h
  obtain ⟨job, hjob, st2, hasg, hst'⟩ := h
  have hid : job.job_id = best := findJob_job_id hjob
  have hg := assign_gframe hasg
  have hCupd : CInv C (updJob st { job with
      scheduled_start_time := some (get_next_working_time st.cal st.current_time)
      scheduled_end_time := some (calculate_job_end_time st.cal st.cfuel
        (get_next_working_time st.cal st.current_time) job.durSec)
      status := JStatus.scheduled }) :=
    CInv_updJob_notin hC (by show job.job_id ∉ C; rw [hid]; exact hbest)
  have hjobs : st2.jobs = (updJob st { job with
      scheduled_start_time := some (get_next_working_time st.cal st.current_time)
      scheduled_end_time := some (calculate_job_end_time st.cal st.cfuel
        (get_next_working_time st.cal st.current_time) job.durSec)
      status := JStatus.scheduled }).jobs := congrArg (fun p => p.1) hg
  have hord : st2.sched_order = st.sched_order := congrArg (fun p => p.2.1) hg
  have huns : st2.unsched_out = st.unsched_out := congrArg (fun p => p.2.2.1) hg
  have hst'2 := Option.some.inj hst'
  refine ⟨⟨?_, ?_⟩, ?_⟩
  · intro jid hjid
    rcases hCupd.1 jid hjid with ⟨j, hfind, hstat, rest⟩
    refine ⟨j, ?_, hstat, rest⟩
    rw [← hst'2]
    show (st2.jobs.find? fun x => x.job_id == jid) = some j
    unfold findJob at hfind
    rw [hjobs]
    exact hfind
  · intro jid hjid
    rw [← hst'2]
    show jid ∉ st2.sched_order ++ [best]
    intro hmem
    rcases List.mem_append.mp hmem with h1 | h1
    · rw [hord] at h1
      exact hC.2 jid hjid h1
    · rw [List.mem_singleton] at h1
      exact hbest (h1 ▸ hjid)
  · rw [← hst'2]
    show st2.unsched_out = st.unsched_out
    exact huns

theorem advanceTime_frame (st : GState) :
    (advanceTime st).jobs = st.jobs ∧ (advanceTime st).sched_order = st.sched_order
      ∧ (advanceTime st).unsched_out = st.unsched_out := by
  unfold advanceTime
  dsimp only []
  split <;> exact ⟨rfl, rfl, rfl⟩

theorem runGroupLoop_CInv {C : List String} :
    ∀ (fuel : Nat) (st : GState) (pending : List String) (st' : GState)
      (pending' : List String),
      CInv C st → runGroupLoop fuel st pending = some (st', pending') →
      CInv C st' ∧ st'.unsched_out = st.unsched_out ∧
        ∀ jid ∈ C, jid ∈ pending → jid ∈ pending' := by
  intro fuel
  induction fuel with
  | zero =>
    intro st pending st' pending' hC h
    simp only [runGroupLoop] at h
    cases h
    exact ⟨hC, rfl, fun jid _ h2 => h2⟩
  | succ fuel ih =>
    intro st pending st' pending' hC h
    simp only [runGroupLoop] at h
    by_cases hcond : st.current_time < st.t_end ∧ pending ≠ []
    · rw [if_pos hcond] at h
      simp only [bind, Option.bind_eq_some] at h
      obtain ⟨scanned, hscan, h⟩ := h
      have hC1 : CInv C
          ({ st with current_time := get_next_working_time st.cal st.current_time }) :=
        CInv_of_eq rfl rfl hC
      obtain ⟨hC2, hfeasC⟩ :=
        scanFeasible_CInv pending _ scanned.1 scanned.2 hC1 hscan
      obtain ⟨hord2, huns2⟩ := scanFeasible_frame pending _ scanned.1 scanned.2 hscan
      by_cases hfe : scanned.2 ≠ []
      · rw [if_pos hfe] at h
        simp only [Option.bind_eq_some] at h
        obtain ⟨best, hbest, st3, hsch, h⟩ := h
        have hbmem := select_best_job_mem hbest
        have hbnotC : best ∉ C := fun hbC => hfeasC best hbmem hbC
        obtain ⟨hC3, huns3⟩ := schedule_job_CInv hC2 hbnotC hsch
        obtain ⟨hC', huns', hpend'⟩ := ih st3 (pending.erase best) st' pending' hC3 h
        refine ⟨hC', ?_, ?_⟩
        · rw [huns', huns3, huns2]
        · intro jid hjC hjp
          refine hpend' jid hjC ?_
          have hne : jid ≠ best := by
            intro he
            rw [he] at hjC
            exact hbnotC hjC
          exact (List.mem_erase_of_ne hne).mpr hjp
      · rw [if_neg hfe] at h
        obtain ⟨hj3, ho3, hu3⟩ := advanceTime_frame scanned.1
        have hC3 : CInv C (advanceTime scanned.1) := CInv_of_eq hj3 ho3 hC2
        by_cases hend :
            (advanceTime scanned.1).current_time ≥ (advanceTime scanned.1).t_end
        · rw [if_pos hend] at h
          cases h
          exact ⟨hC3, by rw [hu3, huns2], fun jid _ hp => hp⟩
        · rw [if_neg hend] at h
          obtain ⟨hC', huns', hpend'⟩ := ih _ pending st' pending' hC3 h
          exact ⟨hC', by rw [huns', hu3, huns2], hpend'⟩
    · rw [if_neg hcond] at h
      cases h
      exact ⟨hC, rfl, fun jid _ h2 => h2⟩

theorem finishGroup_cons (st : GState) (a : String) (rest : List String) :
    finishGroup st (a :: rest) = finishGroup (match findJob st a with
      | some j => { st with unsched_out := st.unsched_out ++
          [(a, if ¬ jobIsReady st.jobs j then GReason.predNotCompleted
            else GReason.resourceOrWindow)] }
      | none => st) rest := rfl

theorem finishGroup_frame (st : GState) (pending : List String) :
    ((finishGroup st pending).jobs, (finishGroup st pending).sched_order)
      = (st.jobs, st.sched_order) := by
  unfold finishGroup
  refine foldl_proj (fun s => (s.jobs, s.sched_order)) _ ?_ pending st
  intro acc a
  cases hj : findJob acc a <;> rfl

theorem finishGroup_mono : ∀ (pending : List String) (st : GState)
    (x : String × GReason), x ∈ st.unsched_out →
    x ∈ (finishGroup st pending).unsched_out := by
  intro pending
  induction pending with
  | nil => intro st x hx; exact hx
  | cons a rest ih =>
    intro st x hx
    rw [finishGroup_cons]
    apply ih
    cases hj : findJob st a
    · exact hx
    · exact List.mem_append_left _ hx

theorem finishGroup_CInv {C : List String} (st : GState) (pending : List String)
    (hC : CInv C st) : CInv C (finishGroup st pending) :=
  CInv_of_eq (congrArg Prod.fst (finishGroup_frame st pending))
    (congrArg Prod.snd (finishGroup_frame st pending)) hC

theorem finishGroup_mem {C : List String} : ∀ (pending : List String)
    (st : GState), CInv C st → ∀ jid ∈ C, jid ∈ pending →
    (jid, GReason.predNotCompleted) ∈ (finishGroup st pending).unsched_out := by
  intro pending
  induction pending with
  | nil => intro st hC jid hjC hjp; cases hjp
  | cons a rest ih =>
    intro st hC jid hjC hjp
    rw [finishGroup_cons]
    rcases List.mem_cons.mp hjp with he | hr
    · subst he
      rcases hC.1 jid hjC with ⟨j, hfind, _, _⟩
      have hnr := not_ready_of_CInv hC hjC hfind
      have hite : (if ¬ jobIsReady st.jobs j = true then GReason.predNotCompleted
          else GReason.resourceOrWindow) = GReason.predNotCompleted := by
        rw [hnr]
        simp
      apply finishGroup_mono
      rw [hfind]
      dsimp only []
      rw [hite]
      exact List.mem_append_right _ (by simp)
    · refine ih _ ?_ jid hjC hr
      cases hj : findJob st a
      · exact hC
      · exact CInv_of_eq rfl rfl hC

theorem processGroup_CInv {C : List String} {st st' : GState} {g : List String}
    {fuel : Nat} (hC : CInv C st) (h : processGroup fuel st g = some st') :
    CInv C st' ∧ (∀ x ∈ st.unsched_out, x ∈ st'.unsched_out) ∧
      ∀ jid ∈ C, jid ∈ g → (jid, GReason.predNotCompleted) ∈ st'.unsched_out := by
  unfold processGroup at h
  simp only [bind, Option.bind_eq_some] at h
  obtain ⟨res, hrunl, hfin⟩ := h
  obtain ⟨hC1, huns1, hpend⟩ :=
    runGroupLoop_CInv fuel st (sortGroup st g) res.1 res.2 hC hrunl
  have hst' : finishGroup res.1 res.2 = st' := Option.some.inj hfin
  refine ⟨?_, ?_, ?_⟩
  · rw [← hst']
    exact finishGroup_CInv res.1 res.2 hC1
  · intro x hx
    rw [← hst']
    apply finishGroup_mono
    rw [huns1]
    exact hx
  · intro jid hjC hjg
    rw [← hst']
    exact finishGroup_mem res.2 res.1 hC1 jid hjC
      (hpend jid hjC (mem_pySortBy.mpr hjg))

theorem priorityGroups_cover_go (st : GState) :
    ∀ (l : List MJob) (acc gs : List String × List String × List String),
      l.foldlM (fun (acc : List String × List String × List String) j =>
        match st.equipment.find? (fun e => e.equipment_id == j.equipment_id) with
        | none => none
        | some e =>
          if e.priority = 1 then some (acc.1 ++ [j.job_id], acc.2.1, acc.2.2)
          else if e.priority = 2 then some (acc.1, acc.2.1 ++ [j.job_id], acc.2.2)
          else if e.priority = 3 then some (acc.1, acc.2.1, acc.2.2 ++ [j.job_id])
          else none) acc = some gs →
      (∀ x, (x ∈ acc.1 ∨ x ∈ acc.2.1 ∨ x ∈ acc.2.2) →
        (x ∈ gs.1 ∨ x ∈ gs.2.1 ∨ x ∈ gs.2.2)) ∧
      (∀ j ∈ l, j.job_id ∈ gs.1 ∨ j.job_id ∈ gs.2.1 ∨ j.job_id ∈ gs.2.2) := by
  intro l
  induction l with
  | nil =>
    intro acc gs h
    simp only [List.foldlM_nil] at h
    cases Option.some.inj h
    exact ⟨fun x hx => hx, fun j hj => absurd hj (List.not_mem_nil j)⟩
  | cons j rest ih =>
    intro acc gs h
    simp only [List.foldlM_cons, bind, Option.bind_eq_some] at h
    obtain ⟨acc2, hstep, hrest⟩ := h
    obtain ⟨hmono, hcov⟩ := ih acc2 gs hrest
    cases hfe : st.equipment.find? (fun e => e.equipment_id == j.equipment_id) with
    | none => rw [hfe] at hstep; cases hstep
    | some e =>
      rw [hfe] at hstep
      dsimp only [] at hstep
      by_cases h1 : e.priority = 1
      · rw [if_pos h1] at hstep
        have hacc2 : acc2 = (acc.1 ++ [j.job_id], acc.2.1, acc.2.2) :=
          (Option.some.inj hstep).symm
        subst hacc2
        refine ⟨?_, ?_⟩
        · intro x hx
          apply hmono
          rcases hx with hx | hx | hx
          · exact Or.inl (List.mem_append_left _ hx)
          · exact Or.inr (Or.inl hx)
          · exact Or.inr (Or.inr hx)
        · intro j' hj'
          rcases List.mem_cons.mp hj' with he | hm
          · subst he
            exact hmono j'.job_id (Or.inl (List.mem_append_right _ (by simp)))
          · exact hcov j' hm
      · rw [if_neg h1] at hstep
        by_cases h2 : e.priority = 2
        · rw [if_pos h2] at hstep
          have hacc2 : acc2 = (acc.1, acc.2.1 ++ [j.job_id], acc.2.2) :=
            (Option.some.inj hstep).symm
          subst hacc2
          refine ⟨?_, ?_⟩
          · intro x hx
            apply hmono
            rcases hx with hx | hx | hx
            · exact Or.inl hx
            · exact Or.inr (Or.inl (List.mem_append_left _ hx))
            · exact Or.inr (Or.inr hx)
          · intro j' hj'
            rcases List.mem_cons.mp hj' with he | hm
            · subst he
              exact hmono j'.job_id
                (Or.inr (Or.inl (List.mem_append_right _ (by simp))))
            · exact hcov j' hm
        · rw [if_neg h2] at hstep
          by_cases h3 : e.priority = 3
          · rw [if_pos h3] at hstep
            have hacc2 : acc2 = (acc.1, acc.2.1, acc.2.2 ++ [j.job_id]) :=
              (Option.some.inj hstep).symm
            subst hacc2
            refine ⟨?_, ?_⟩
            · intro x hx
              apply hmono
              rcases hx with hx | hx | hx
              · exact Or.inl hx
              · exact Or.inr (Or.inl hx)
              · exact Or.inr (Or.inr (List.mem_append_left _ hx))
            · intro j' hj'
              rcases List.mem_cons.mp hj' with he | hm
              · subst he
                exact hmono j'.job_id
                  (Or.inr (Or.inr (List.mem_append_right _ (by simp))))
              · exact hcov j' hm
          · rw [if_neg h3] at hstep
            cases hstep

theorem priorityGroups_cover {st : GState}
    {gs : List String × List String × List String}
    (h : priorityGroups st = some gs) :
    ∀ j ∈ st.jobs, j.job_id ∈ gs.1 ∨ j.job_id ∈ gs.2.1 ∨ j.job_id ∈ gs.2.2 := by
  unfold priorityGroups at h
  exact (priorityGroups_cover_go st st.jobs ([], [], []) gs h).2

def jobG5a : JobIn :=
  { job_id := "J1", description := "", duration := 1, equipment_id := "EQ1",
    required_skills := [], required_tools := [], required_materials := [],
    precedence := ["J2"] }

def jobG5b : JobIn :=
  { job_id := "J2", description := "", duration := 1, equipment_id := "EQ1",
    required_skills := [], required_tools := [], required_materials := [],
    precedence := ["J1"] }

/-- Two jobs whose precedence lists form a 2-cycle, on one machine with one
technician, over a 5-minute horizon. -/
def dataG5 : DataIn :=
  { t_start := 28800, t_end := 29100, jobs := [jobG5a, jobG5b],
    technicians := [{ tech_id := "T1", name := "", skills := [], hourly_rate := 0 }],
    equipment := [{ equipment_id := "EQ1", name := "", priority := 1 }],
    tools := [], materials := [] }

/-- C5: the spec says a precedence cycle is fatal and raised to the caller
before any job is scheduled.  In the code it is not: `Scheduler.run` on a
two-job precedence cycle completes normally (`some` final state, no
exception), schedules nothing, and records each cyclic job as an ordinary
per-job rejection whose `Job.is_ready` check failed (reason "Predecessor
jobs not completed."). -/
theorem C5_counterexample :
    (runScheduler dataG5 appCal 10 20).map
        (fun st => (st.sched_order, st.unsched_out)) =
      some ([], [("J1", GReason.predNotCompleted),
        ("J2", GReason.predNotCompleted)]) := by
  decide

/-- C5 (amended): a set `C` of jobs in which every member has a predecessor
inside `C` (in particular, the jobs on any precedence cycle) is never fatal:
whenever `Scheduler.run` terminates it returns normally, no member of `C` is
ever committed to the schedule, and every member is recorded in the
rejection list with the predecessors-not-completed reason. -/
theorem C5_cycle_rejected_per_job (d : DataIn) (cal : Cal) (cfuel fuel : Nat)
    (C : List String) (st' : GState)
    (hcyc : ∀ jid ∈ C, ∃ j, findJob (initState d cal cfuel) jid = some j ∧
      ∃ pid, pid ∈ C ∧ pid ∈ j.precedence)
    (hrun : runScheduler d cal cfuel fuel = some st') :
    ∀ jid ∈ C, (jid, GReason.predNotCompleted) ∈ st'.unsched_out ∧
      jid ∉ st'.sched_order := by
  have hinv : CInv C (initState d cal cfuel) := by
    constructor
    · intro jid hjid
      rcases hcyc jid hjid with ⟨j, hfind, rest⟩
      refine ⟨j, hfind, ?_, rest⟩
      have hmem : j ∈ (initState d cal cfuel).jobs :=
        List.mem_of_find?_eq_some hfind
      rcases dictListOf_mem _ jobOfData d.jobs j hmem with ⟨a, _, hja⟩
      rw [hja]
      intro hcon
      cases hcon
    · intro jid hjid
      exact List.not_mem_nil jid
  unfold runScheduler at hrun
  simp only [bind, Option.bind_eq_some] at hrun
  obtain ⟨gs, hgs, st1, h1, st2, h2, st3, h3, hst'⟩ := hrun
  have hst'3 : st3 = st' := Option.some.inj hst'
  subst hst'3
  obtain ⟨hC1, hm1, hg1⟩ := processGroup_CInv hinv h1
  obtain ⟨hC2, hm2, hg2⟩ := processGroup_CInv hC1 h2
  obtain ⟨hC3, hm3, hg3⟩ := processGroup_CInv hC2 h3
  intro jid hjC
  constructor
  · rcases hcyc jid hjC with ⟨j, hfind, _⟩
    have hjmem : j ∈ (initState d cal cfuel).jobs :=
      List.mem_of_find?_eq_some hfind
    have hjid : j.job_id = jid := findJob_job_id hfind
    rcases priorityGroups_cover hgs j hjmem with hg | hg | hg
    · exact hm3 _ (hm2 _ (hg1 jid hjC (hjid ▸ hg)))
    · exact hm3 _ (hg2 jid hjC (hjid ▸ hg))
    · exact hg3 jid hjC (hjid ▸ hg)
  · exact hC3.2 jid hjC

/-- The final state of the cyclic two-job run. -/
def stG5 : GState :=
  (runScheduler dataG5 appCal 10 20).getD (initState dataG5 appCal 10)

theorem C5_cycle_rejected_per_job_witness :
    ("J1", GReason.predNotCompleted) ∈ stG5.unsched_out ∧
      "J1" ∉ stG5.sched_order := by
  have hcyc : ∀ jid ∈ (["J1", "J2"] : List String),
      ∃ j, findJob (initState dataG5 appCal 10) jid = some j ∧
        ∃ pid, pid ∈ (["J1", "J2"] : List String) ∧ pid ∈ j.precedence := by
    intro jid hjid
    rcases List.mem_cons.mp hjid with h | h
    · exact ⟨jobOfData jobG5a, by rw [h]; decide, "J2", by decide, by decide⟩
    · rcases List.mem_cons.mp h with h2 | h2
      · exact ⟨jobOfData jobG5b, by rw [h2]; decide, "J1", by decide, by decide⟩
      · cases h2
  exact C5_cycle_rejected_per_job dataG5 appCal 10 20 ["J1", "J2"] stG5 hcyc
    (by decide) "J1" (by decide)

def jobG3 : JobIn :=
  { job_id := "J1", description := "", duration := 10, equipment_id := "EQ1",
    required_skills := [], required_tools := [], required_materials := [],
    precedence := [] }

/-- A single 10-hour job on one machine with one technician; the greedy
scheduler splits it across the 08:00-17:00 workday boundary. -/
def dataG3 : DataIn :=
  { t_start := 28800, t_end := 200000, jobs := [jobG3],
    technicians := [{ tech_id := "T1", name := "", skills := [], hourly_rate := 0 }],
    equipment := [{ equipment_id := "EQ1", name := "", priority := 1 }],
    tools := [], materials := [] }

/-- C3: the greedy scheduler's `calculate_job_end_time` rolls overflow work
into later workdays, so an assignment's `end − start` can exceed the job's
declared duration: a 10-hour job started Monday 08:00 ends Tuesday 09:00,
25 elapsed hours instead of 10. -/
theorem C3_counterexample :
    (runScheduler dataG3 appCal 10 8).map greedyOutput =
        some [⟨"J1", "EQ1", 28800, 118800, ["T1"]⟩] ∧
      jobG3.duration = 10 ∧ (118800 - 28800 : Int) ≠ 3600 * jobG3.duration := by
  refine ⟨by decide, by decide, by decide⟩

/-! ## Sortedness of the greedy schedule (C6) -/

/-- A sane scheduler calendar: the working window lies inside the day and at
least one listed workday is a real weekday, as with the app's
`workday_start="08:00"`, `workday_end="17:00"`, `workdays=[0,1,2,3,4]`. -/
def CalOK (cal : Cal) : Prop :=
  0 ≤ cal.wstart ∧ cal.wstart < cal.wend ∧ cal.wend < 86400 ∧
  ∃ r, r ∈ cal.wdays ∧ 0 ≤ r ∧ r < 7

theorem weekday_ediv (t : Int) : weekday t = t / 86400 % 7 := by
  unfold weekday
  rw [Int.fdiv_eq_ediv _ (by norm_num)]

theorem dayStart_ediv (t : Int) : dayStart t = t / 86400 * 86400 := by
  unfold dayStart
  rw [Int.fdiv_eq_ediv _ (by norm_num)]

theorem weekday_add_days (t : Int) (k : Int) :
    weekday (t + 86400 * k) = (weekday t + k) % 7 := by
  rw [weekday_ediv, weekday_ediv, mul_comm,
    Int.add_mul_ediv_right _ _ (by norm_num : (86400 : Int) ≠ 0)]
  omega

theorem dayStart_add_days (t : Int) (k : Int) :
    dayStart (t + 86400 * k) = dayStart t + 86400 * k := by
  rw [dayStart_ediv, dayStart_ediv]
  have h : (t + 86400 * k) / 86400 = t / 86400 + k := by
    rw [mul_comm]
    exact Int.add_mul_ediv_right _ _ (by norm_num)
  rw [h]
  ring

theorem secsOfDay_dayStart_add (t w : Int) (h0 : 0 ≤ w) (h1 : w < 86400) :
    secsOfDay (dayStart t + w) = w := by
  unfold secsOfDay
  rw [dayStart_ediv]
  omega

theorem weekday_dayStart_add (t w : Int) (h0 : 0 ≤ w) (h1 : w < 86400) :
    weekday (dayStart t + w) = weekday t := by
  rw [weekday_ediv, weekday_ediv, dayStart_ediv]
  omega

theorem dayStart_le_self (t : Int) : dayStart t ≤ t ∧ t < dayStart t + 86400 := by
  rw [dayStart_ediv]
  omega

theorem secsOfDay_split (t : Int) : t = dayStart t + secsOfDay t := by
  rw [dayStart_ediv]
  unfold secsOfDay
  omega

theorem weekday_bounds (t : Int) : 0 ≤ weekday t ∧ weekday t < 7 := by
  rw [weekday_ediv]
  omega

theorem nextWorkdayFrom_spec {cal : Cal} (hcal : CalOK cal) (t : Int) :
    ∃ k : Int, 1 ≤ k ∧ k ≤ 7 ∧ weekday (t + 86400 * k) ∈ cal.wdays ∧
      nextWorkdayFrom cal t = dayStart (t + 86400 * k) + cal.wstart := by
  obtain ⟨r, hr, hr0, hr7⟩ := hcal.2.2.2
  obtain ⟨hw0, hw7⟩ := weekday_bounds t
  have hex : ∃ x ∈ (List.range' 1 7).map (fun (k : Nat) => (k : Int)),
      (fun k => decide (weekday (t + 86400 * k) ∈ cal.wdays)) x = true := by
    have hk0 : ∃ k0 : Int, 1 ≤ k0 ∧ k0 ≤ 7 ∧ (weekday t + k0) % 7 = r := by
      by_cases hlt : weekday t < r
      · exact ⟨r - weekday t, by omega, by omega, by omega⟩
      · exact ⟨r - weekday t + 7, by omega, by omega, by omega⟩
    obtain ⟨k0, hk1, hk7, hkr⟩ := hk0
    have hm0 : k0.toNat ∈ List.range' 1 7 := List.mem_range'_1.mpr ⟨by omega, by omega⟩
    have hc0 : ((k0.toNat : Nat) : Int) = k0 := by omega
    refine ⟨k0, List.mem_map.mpr ⟨k0.toNat, hm0, hc0⟩, ?_⟩
    · show decide (weekday (t + 86400 * k0) ∈ cal.wdays) = true
      rw [weekday_add_days, hkr]
      simpa using hr
  obtain ⟨kf, hkf⟩ := Option.isSome_iff_exists.mp (List.find?_isSome.mpr hex)
  have hmem := List.mem_of_find?_eq_some hkf
  rcases List.mem_map.mp hmem with ⟨n, hn, hcast⟩
  have hn2 := List.mem_range'_1.mp hn
  have hp := List.find?_some hkf
  refine ⟨kf, by omega, by omega, by simpa using hp, ?_⟩
  unfold nextWorkdayFrom
  rw [hkf]

theorem gnwt_ge {cal : Cal} (hcal : CalOK cal) (t : Int) :
    t ≤ get_next_working_time cal t := by
  have hws0 : 0 ≤ cal.wstart := hcal.1
  have hws : cal.wstart < 86400 := by
    have := hcal.2.1
    have := hcal.2.2.1
    omega
  unfold get_next_working_time
  by_cases h1 : secsOfDay t ≥ cal.wend ∨ weekday t ∉ cal.wdays
  · rw [if_pos h1]
    obtain ⟨k, hk1, hk7, _, heq⟩ := nextWorkdayFrom_spec hcal t
    rw [heq, dayStart_add_days]
    have hds := dayStart_le_self t
    omega
  · rw [if_neg h1]
    by_cases h2 : secsOfDay t < cal.wstart
    · rw [if_pos h2]
      have := secsOfDay_split t
      omega
    · rw [if_neg h2]

theorem gnwt_cond {cal : Cal} (hcal : CalOK cal) (t : Int) :
    cal.wstart ≤ secsOfDay (get_next_working_time cal t)
    ∧ secsOfDay (get_next_working_time cal t) < cal.wend
    ∧ weekday (get_next_working_time cal t) ∈ cal.wdays := by
  have hws0 : 0 ≤ cal.wstart := hcal.1
  have hwe : cal.wstart < cal.wend := hcal.2.1
  have hws : cal.wstart < 86400 := by
    have := hcal.2.2.1
    omega
  unfold get_next_working_time
  by_cases h1 : secsOfDay t ≥ cal.wend ∨ weekday t ∉ cal.wdays
  · rw [if_pos h1]
    obtain ⟨k, hk1, hk7, hkw, heq⟩ := nextWorkdayFrom_spec hcal t
    rw [heq]
    rw [secsOfDay_dayStart_add _ _ hws0 hws, weekday_dayStart_add _ _ hws0 hws]
    exact ⟨le_refl _, hwe, hkw⟩
  · rw [if_neg h1]
    push_neg at h1
    by_cases h2 : secsOfDay t < cal.wstart
    · rw [if_pos h2]
      rw [secsOfDay_dayStart_add _ _ hws0 hws, weekday_dayStart_add _ _ hws0 hws]
      exact ⟨le_refl _, hwe, h1.2⟩
    · rw [if_neg h2]
      exact ⟨by omega, h1.1, h1.2⟩

theorem gnwt_idem {cal : Cal} (hcal : CalOK cal) (t : Int) :
    get_next_working_time cal (get_next_working_time cal t)
      = get_next_working_time cal t := by
  obtain ⟨hc1, hc2, hc3⟩ := gnwt_cond hcal t
  set u := get_next_working_time cal t with hu
  unfold get_next_working_time
  rw [if_neg (by push_neg; exact ⟨by omega, hc3⟩)]
  rw [if_neg (by omega)]

/-- The committed start time stored at a job id. -/
def startOf (st : GState) (jid : String) : Option Int :=
  (findJob st jid).bind (fun j => j.scheduled_start_time)

/-- Sortedness invariant of the greedy run: every committed start time is at
most the current time, and commit order carries non-decreasing starts. -/
def SInv (cal : Cal) (st : GState) : Prop :=
  st.cal = cal ∧
  (∀ jid ∈ st.sched_order, ∀ s, startOf st jid = some s → s ≤ st.current_time) ∧
  st.sched_order.Pairwise (fun j1 j2 => ∀ s1 s2, startOf st j1 = some s1 →
    startOf st j2 = some s2 → s1 ≤ s2)

theorem is_job_feasible_start {st : GState} {job : MJob} {fr : Bool × MJob}
    (h : is_job_feasible st job = some fr) :
    fr.2.scheduled_start_time = job.scheduled_start_time := by
  unfold is_job_feasible at h
  dsimp only [] at h
  split at h
  · cases h; rfl
  · split at h
    · cases h; rfl
    · split at h
      · cases h
      · split at h
        · cases h; rfl
        · split at h
          · cases h; rfl
          · cases h; rfl

theorem scanFeasible_frame2 :
    ∀ (pending : List String) (st st' : GState) (feas : List String),
      scanFeasible st pending = some (st', feas) →
      st'.current_time = st.current_time ∧ st'.cal = st.cal
        ∧ st'.cfuel = st.cfuel := by
  intro pending
  induction pending with
  | nil =>
    intro st st' feas h
    simp only [scanFeasible] at h
    cases h
    exact ⟨rfl, rfl, rfl⟩
  | cons jid rest ih =>
    intro st st' feas h
    simp only [scanFeasible] at h
    cases hjob : findJob st jid with
    | none =>
      rw [hjob] at h
      simp only [bind, Option.bind] at h
      cases h
    | some job =>
      rw [hjob] at h
      simp only [bind, Option.bind] at h
      cases hfr : is_job_feasible st job with
      | none => rw [hfr] at h; cases h
      | some fr =>
        rw [hfr] at h
        simp only [Option.bind] at h
        cases hnext : scanFeasible (updJob st fr.2) rest with
        | none => rw [hnext] at h; cases h
        | some nxt =>
          rw [hnext] at h
          simp only [Option.bind] at h
          cases h
          exact ih (updJob st fr.2) nxt.1 nxt.2 hnext

theorem scanFeasible_startOf :
    ∀ (pending : List String) (st st' : GState) (feas : List String),
      scanFeasible st pending = some (st', feas) →
      ∀ jid, startOf st' jid = startOf st jid := by
  intro pending
  induction pending with
  | nil =>
    intro st st' feas h
    simp only [scanFeasible] at h
    cases h
    intro jid
    rfl
  | cons jid rest ih =>
    intro st st' feas h
    simp only [scanFeasible] at h
    cases hjob : findJob st jid with
    | none =>
      rw [hjob] at h
      simp only [bind, Option.bind] at h
      cases h
    | some job =>
      rw [hjob] at h
      simp only [bind, Option.bind] at h
      cases hfr : is_job_feasible st job with
      | none => rw [hfr] at h; cases h
      | some fr =>
        rw [hfr] at h
        simp only [Option.bind] at h
        cases hnext : scanFeasible (updJob st fr.2) rest with
        | none => rw [hnext] at h; cases h
        | some nxt =>
          rw [hnext] at h
          simp only [Option.bind] at h
          cases h
          intro k
          rw [ih (updJob st fr.2) nxt.1 nxt.2 hnext k]
          unfold startOf
          rw [findJob_updJob]
          by_cases he : fr.2.job_id = k
          · rw [if_pos he]
            have hfrid : fr.2.job_id = job.job_id := is_job_feasible_job_id hfr
            have hjid2 : job.job_id = jid := findJob_job_id hjob
            rw [← he, hfrid, hjid2, hjob]
            show fr.2.scheduled_start_time = job.scheduled_start_time
            exact is_job_feasible_start hfr
          · rw [if_neg he]

theorem scanFeasible_feas_sub :
    ∀ (pending : List String) (st st' : GState) (feas : List String),
      scanFeasible st pending = some (st', feas) → ∀ x ∈ feas, x ∈ pending := by
  intro pending
  induction pending with
  | nil =>
    intro st st' feas h
    simp only [scanFeasible] at h
    cases h
    intro x hx
    cases hx
  | cons jid rest ih =>
    intro st st' feas h
    simp only [scanFeasible] at h
    cases hjob : findJob st jid with
    | none =>
      rw [hjob] at h
      simp only [bind, Option.bind] at h
      cases h
    | some job =>
      rw [hjob] at h
      simp only [bind, Option.bind] at h
      cases hfr : is_job_feasible st job with
      | none => rw [hfr] at h; cases h
      | some fr =>
        rw [hfr] at h
        simp only [Option.bind] at h
        cases hnext : scanFeasible (updJob st fr.2) rest with
        | none => rw [hnext] at h; cases h
        | some nxt =>
          rw [hnext] at h
          simp only [Option.bind] at h
          cases h
          intro x hx
          split at hx
          · rcases List.mem_cons.mp hx with h1 | h1
            · rw [h1]; exact List.mem_cons_self _ _
            · exact List.mem_cons_of_mem _ (ih _ nxt.1 nxt.2 hnext x h1)
          · exact List.mem_cons_of_mem _ (ih _ nxt.1 nxt.2 hnext x hx)

theorem SInv_of_parts {cal : Cal} {st st' : GState}
    (hcal : st'.cal = st.cal) (hord : st'.sched_order = st.sched_order)
    (hso : ∀ jid, startOf st' jid = startOf st jid)
    (hcur : st.current_time ≤ st'.current_time)
    (h : SInv cal st) : SInv cal st' := by
  obtain ⟨h1, h2, h3⟩ := h
  refine ⟨by rw [hcal, h1], ?_, ?_⟩
  · intro jid hjid s hs
    rw [hord] at hjid
    rw [hso] at hs
    exact le_trans (h2 jid hjid s hs) hcur
  · rw [hord]
    refine h3.imp ?_
    intro j1 j2 hrel s1 s2 hs1 hs2
    rw [hso] at hs1 hs2
    exact hrel s1 s2 hs1 hs2

theorem schedule_job_parts {st : GState} {best : String} {st' : GState}
    (h : schedule_job st best = some st') :
    st'.sched_order = st.sched_order ++ [best] ∧
    startOf st' best = some (get_next_working_time st.cal st.current_time) ∧
    (∀ k, k ≠ best → startOf st' k = startOf st k) ∧
    st'.current_time = st.current_time ∧ st'.cal = st.cal := by
  unfold schedule_job at h
  simp only [bind, Option.bind_eq_some] at h
  obtain ⟨job, hjob, st2, hasg, hst'⟩ := h
  have hid : job.job_id = best := findJob_job_id hjob
  set j' : MJob := { job with
    scheduled_start_time := some (get_next_working_time st.cal st.current_time)
    scheduled_end_time := some (calculate_job_end_time st.cal st.cfuel
      (get_next_working_time st.cal st.current_time) job.durSec)
    status := JStatus.scheduled } with hj'def
  have hg := assign_gframe hasg
  have hjobs : st2.jobs = (updJob st j').jobs := congrArg (fun p => p.1) hg
  have hord : st2.sched_order = st.sched_order := congrArg (fun p => p.2.1) hg
  have hcur : st2.current_time = st.current_time := congrArg (fun p => p.2.2.2.1) hg
  have hcal : st2.cal = st.cal := congrArg (fun p => p.2.2.2.2.2.2.1) hg
  have hst'2 := Option.some.inj hst'
  have hfu := findJob_updJob st j'
  refine ⟨?_, ?_, ?_, ?_, ?_⟩
  · rw [← hst'2]
    show st2.sched_order ++ [best] = st.sched_order ++ [best]
    rw [hord]
  · rw [← hst'2]
    show (st2.jobs.find? (fun x => x.job_id == best)).bind
      (fun j => j.scheduled_start_time) = _
    rw [hjobs]
    have hf : (updJob st j').jobs.find? (fun x => x.job_id == best) = some j' := by
      show findJob (updJob st j') best = some j'
      rw [hfu best, if_pos (show j'.job_id = best from hid), hjob]
      rfl
    rw [hf]
    rfl
  · intro k hk
    rw [← hst'2]
    show (st2.jobs.find? (fun x => x.job_id == k)).bind
      (fun j => j.scheduled_start_time) = _
    rw [hjobs]
    have hf : (updJob st j').jobs.find? (fun x => x.job_id == k)
        = st.jobs.find? (fun x => x.job_id == k) := by
      show findJob (updJob st j') k = findJob st k
      rw [hfu k, if_neg (show ¬ j'.job_id = k from fun he =>
        hk (by rw [← he]; exact hid))]
    rw [hf]
    rfl
  · rw [← hst'2]
    show st2.current_time = st.current_time
    exact hcur
  · rw [← hst'2]
    show st2.cal = st.cal
    exact hcal

theorem foldl_min_gt (c : Int) : ∀ (ts : List Int) (t : Int), c < t →
    (∀ x ∈ ts, c < x) → c < ts.foldl min t := by
  intro ts
  induction ts with
  | nil => intro t ht _; exact ht
  | cons a ts ih =>
    intro t ht hall
    simp only [List.foldl_cons]
    exact ih (min t a) (lt_min ht (hall a (List.mem_cons_self a ts)))
      (fun x hx => hall x (List.mem_cons_of_mem _ hx))

theorem advanceTime_current {st : GState} (hcal : CalOK st.cal) :
    st.current_time ≤ (advanceTime st).current_time := by
  unfold advanceTime
  dsimp only []
  cases hnt : st.sched_order.filterMap (fun jid =>
      match findJob st jid with
      | some j =>
        match j.scheduled_end_time with
        | some e => if e > st.current_time then some e else none
        | none => none
      | none => none) with
  | nil =>
    show st.current_time ≤ get_next_working_time st.cal (st.current_time + 60)
    have := gnwt_ge hcal (st.current_time + 60)
    omega
  | cons t ts =>
    show st.current_time ≤ get_next_working_time st.cal (ts.foldl min t)
    have hall : ∀ x ∈ t :: ts, st.current_time < x := by
      intro x hx
      rw [← hnt] at hx
      rcases List.mem_filterMap.mp hx with ⟨jid, _, hf⟩
      cases hj : findJob st jid with
      | none => rw [hj] at hf; cases hf
      | some j =>
        rw [hj] at hf
        have hf2 : (match j.scheduled_end_time with
          | some e => if e > st.current_time then some e else none
          | none => none) = some x := hf
        cases he : j.scheduled_end_time with
        | none => rw [he] at hf2; cases hf2
        | some e =>
          rw [he] at hf2
          have hf3 : (if e > st.current_time then some e else none) = some x := hf2
          by_cases hgt : e > st.current_time
          · rw [if_pos hgt] at hf3
            cases hf3
            exact hgt
          · rw [if_neg hgt] at hf3
            cases hf3
    have hmin : st.current_time < ts.foldl min t :=
      foldl_min_gt _ ts t (hall t (List.mem_cons_self t ts))
        (fun x hx => hall x (List.mem_cons_of_mem _ hx))
    have := gnwt_ge hcal (ts.foldl min t)
    omega

theorem finishGroup_frame2 (st : GState) (pending : List String) :
    ((finishGroup st pending).current_time, (finishGroup st pending).cal)
      = (st.current_time, st.cal) := by
  unfold finishGroup
  refine foldl_proj (fun s => (s.current_time, s.cal)) _ ?_ pending st
  intro acc a
  cases hj : findJob acc a <;> rfl

theorem nodup_shuffle {α : Type} [DecidableEq α] (A B C R : List α) (x : α)
    (h : ((A ++ (B ++ C)) ++ (x :: R)).Nodup) :
    (((A ++ [x]) ++ (B ++ C)) ++ R).Nodup
    ∧ ((A ++ ((B ++ [x]) ++ C)) ++ R).Nodup
    ∧ ((A ++ (B ++ (C ++ [x]))) ++ R).Nodup := by
  refine ⟨List.Perm.nodup ?_ h, List.Perm.nodup ?_ h, List.Perm.nodup ?_ h⟩ <;>
    · rw [List.perm_iff_count]
      intro a
      simp only [List.count_append, List.count_cons, List.count_nil]
      by_cases hax : (a == x) = true <;> simp [hax] <;> omega

theorem advanceTime_cal (st : GState) : (advanceTime st).cal = st.cal := by
  unfold advanceTime
  dsimp only []
  split <;> rfl

theorem priorityGroups_nodup_go (st : GState) :
    ∀ (l : List MJob) (acc gs : List String × List String × List String),
      l.foldlM (fun (acc : List String × List String × List String) j =>
        match st.equipment.find? (fun e => e.equipment_id == j.equipment_id) with
        | none => none
        | some e =>
          if e.priority = 1 then some (acc.1 ++ [j.job_id], acc.2.1, acc.2.2)
          else if e.priority = 2 then some (acc.1, acc.2.1 ++ [j.job_id], acc.2.2)
          else if e.priority = 3 then some (acc.1, acc.2.1, acc.2.2 ++ [j.job_id])
          else none) acc = some gs →
      ((acc.1 ++ (acc.2.1 ++ acc.2.2)) ++ l.map (fun j => j.job_id)).Nodup →
      (gs.1 ++ (gs.2.1 ++ gs.2.2)).Nodup := by
  intro l
  induction l with
  | nil =>
    intro acc gs h hnd
    simp only [List.foldlM_nil] at h
    cases Option.some.inj h
    simpa using hnd
  | cons j rest ih =>
    intro acc gs h hnd
    simp only [List.foldlM_cons, bind, Option.bind_eq_some] at h
    obtain ⟨acc2, hstep, hrest⟩ := h
    simp only [List.map_cons] at hnd
    obtain ⟨hn1, hn2, hn3⟩ := nodup_shuffle acc.1 acc.2.1 acc.2.2
      (rest.map (fun j => j.job_id)) j.job_id hnd
    cases hfe : st.equipment.find? (fun e => e.equipment_id == j.equipment_id) with
    | none => rw [hfe] at hstep; cases hstep
    | some e =>
      rw [hfe] at hstep
      dsimp only [] at hstep
      by_cases h1 : e.priority = 1
      · rw [if_pos h1] at hstep
        have hacc2 : acc2 = (acc.1 ++ [j.job_id], acc.2.1, acc.2.2) :=
          (Option.some.inj hstep).symm
        subst hacc2
        exact ih _ gs hrest hn1
      · rw [if_neg h1] at hstep
        by_cases h2 : e.priority = 2
        · rw [if_pos h2] at hstep
          have hacc2 : acc2 = (acc.1, acc.2.1 ++ [j.job_id], acc.2.2) :=
            (Option.some.inj hstep).symm
          subst hacc2
          exact ih _ gs hrest hn2
        · rw [if_neg h2] at hstep
          by_cases h3 : e.priority = 3
          · rw [if_pos h3] at hstep
            have hacc2 : acc2 = (acc.1, acc.2.1, acc.2.2 ++ [j.job_id]) :=
              (Option.some.inj hstep).symm
            subst hacc2
            exact ih _ gs hrest hn3
          · rw [if_neg h3] at hstep
            cases hstep

theorem priorityGroups_nodup {st : GState}
    {gs : List String × List String × List String}
    (h : priorityGroups st = some gs)
    (hnd : (st.jobs.map (fun j => j.job_id)).Nodup) :
    (gs.1 ++ (gs.2.1 ++ gs.2.2)).Nodup := by
  unfold priorityGroups at h
  exact priorityGroups_nodup_go st st.jobs ([], [], []) gs h (by simpa using hnd)

theorem runGroupLoop_SInv {cal : Cal} (hcal : CalOK cal) :
    ∀ (fuel : Nat) (st : GState) (pending : List String) (st' : GState)
      (pending' : List String),
      SInv cal st → pending.Nodup → (∀ x ∈ pending, x ∉ st.sched_order) →
      runGroupLoop fuel st pending = some (st', pending') →
      SInv cal st' ∧ (∀ x ∈ st'.sched_order, x ∈ st.sched_order ∨ x ∈ pending) := by
  intro fuel
  induction fuel with
  | zero =>
    intro st pending st' pending' hS hnd hdisj h
    simp only [runGroupLoop] at h
    cases h
    exact ⟨hS, fun x hx => Or.inl hx⟩
  | succ fuel ih =>
    intro st pending st' pending' hS hnd hdisj h
    simp only [runGroupLoop] at h
    by_cases hcond : st.current_time < st.t_end ∧ pending ≠ []
    · rw [if_pos hcond] at h
      simp only [bind, Option.bind_eq_some] at h
      obtain ⟨scanned, hscan, h⟩ := h
      have hcalst : st.cal = cal := hS.1
      have hS1 : SInv cal
          ({ st with current_time := get_next_working_time st.cal st.current_time }) :=
        @SInv_of_parts cal st
          ({ st with current_time := get_next_working_time st.cal st.current_time })
          rfl rfl (fun jid => rfl)
          (by show st.current_time ≤ get_next_working_time st.cal st.current_time
              rw [hcalst]
              exact gnwt_ge hcal st.current_time) hS
      have hSOs := scanFeasible_startOf pending _ scanned.1 scanned.2 hscan
      obtain ⟨hordsc, _⟩ := scanFeasible_frame pending _ scanned.1 scanned.2 hscan
      obtain ⟨hcursc, hcalsc, _⟩ := scanFeasible_frame2 pending _ scanned.1 scanned.2 hscan
      have hordsc2 : scanned.1.sched_order = st.sched_order := hordsc
      have hcal2 : scanned.1.cal = cal := by rw [hcalsc]; exact hcalst
      have hcur2 : scanned.1.current_time
          = get_next_working_time st.cal st.current_time := hcursc
      have hS2 : SInv cal scanned.1 :=
        SInv_of_parts hcalsc hordsc hSOs (le_of_eq hcursc.symm) hS1
      by_cases hfe : scanned.2 ≠ []
      · rw [if_pos hfe] at h
        simp only [Option.bind_eq_some] at h
        obtain ⟨best, hbest, st3, hsch, h⟩ := h
        have hbmem : best ∈ pending :=
          scanFeasible_feas_sub pending _ scanned.1 scanned.2 hscan best
            (select_best_job_mem hbest)
        have hbnot : best ∉ st.sched_order := hdisj best hbmem
        obtain ⟨hordp, hstart, hother, hcurp, hcalp⟩ := schedule_job_parts hsch
        have hps : get_next_working_time scanned.1.cal scanned.1.current_time
            = scanned.1.current_time := by
          rw [hcal2, hcur2, hcalst]
          exact gnwt_idem hcal st.current_time
        have hS3 : SInv cal st3 := by
          refine ⟨by rw [hcalp, hcal2], ?_, ?_⟩
          · intro jid hjid s hs
            rw [hordp] at hjid
            rw [hcurp]
            rcases List.mem_append.mp hjid with hj | hj
            · by_cases he : jid = best
              · rw [he] at hs
                rw [hstart, hps] at hs
                rw [← Option.some.inj hs]
              · rw [hother jid he] at hs
                exact hS2.2.1 jid hj s hs
            · rw [List.mem_singleton] at hj
              rw [hj] at hs
              rw [hstart, hps] at hs
              rw [← Option.some.inj hs]
          · rw [hordp]
            rw [List.pairwise_append]
            refine ⟨?_, List.pairwise_singleton _ _, ?_⟩
            · refine List.Pairwise.imp_of_mem ?_ hS2.2.2
              intro a b ha hb hrel s1 s2 hs1 hs2
              have hane : a ≠ best := fun he => hbnot (by
                rw [← hordsc2]
                rw [← he]
                exact ha)
              have hbne : b ≠ best := fun he => hbnot (by
                rw [← hordsc2]
                rw [← he]
                exact hb)
              rw [hother a hane] at hs1
              rw [hother b hbne] at hs2
              exact hrel s1 s2 hs1 hs2
            · intro a ha b hb s1 s2 hs1 hs2
              rw [List.mem_singleton] at hb
              have hane : a ≠ best := fun he => hbnot (by
                rw [← hordsc2]
                rw [← he]
                exact ha)
              rw [hother a hane] at hs1
              have h1 := hS2.2.1 a ha s1 hs1
              rw [hb] at hs2
              rw [hstart, hps] at hs2
              rw [← Option.some.inj hs2]
              exact h1
        have hnd3 : (pending.erase best).Nodup := hnd.erase best
        have hdisj3 : ∀ x ∈ pending.erase best, x ∉ st3.sched_order := by
          intro x hx
          rw [hnd.mem_erase_iff] at hx
          rw [hordp, hordsc2]
          intro hmem
          rcases List.mem_append.mp hmem with h1 | h1
          · exact hdisj x hx.2 h1
          · rw [List.mem_singleton] at h1
            exact hx.1 h1
        obtain ⟨hS', hsub⟩ := ih st3 (pending.erase best) st' pending' hS3 hnd3 hdisj3 h
        refine ⟨hS', ?_⟩
        intro x hx
        rcases hsub x hx with h1 | h1
        · rw [hordp, hordsc2] at h1
          rcases List.mem_append.mp h1 with h2 | h2
          · exact Or.inl h2
          · rw [List.mem_singleton] at h2
            exact Or.inr (h2 ▸ hbmem)
        · rw [hnd.mem_erase_iff] at h1
          exact Or.inr h1.2
      · rw [if_neg hfe] at h
        obtain ⟨hj3, ho3, hu3⟩ := advanceTime_frame scanned.1
        have hS3 : SInv cal (advanceTime scanned.1) := by
          refine SInv_of_parts (advanceTime_cal scanned.1) ho3 ?_ ?_ hS2
          · intro jid
            unfold startOf findJob
            rw [hj3]
          · exact advanceTime_current (by rw [hcal2]; exact hcal)
        by_cases hend :
            (advanceTime scanned.1).current_time ≥ (advanceTime scanned.1).t_end
        · rw [if_pos hend] at h
          cases h
          refine ⟨hS3, ?_⟩
          intro x hx
          rw [ho3, hordsc2] at hx
          exact Or.inl hx
        · rw [if_neg hend] at h
          have hdisj3 : ∀ x ∈ pending, x ∉ (advanceTime scanned.1).sched_order := by
            intro x hx
            rw [ho3, hordsc2]
            exact hdisj x hx
          obtain ⟨hS', hsub⟩ := ih _ pending st' pending' hS3 hnd hdisj3 h
          refine ⟨hS', ?_⟩
          intro x hx
          rcases hsub x hx with h1 | h1
          · rw [ho3, hordsc2] at h1
            exact Or.inl h1
          · exact Or.inr h1
    · rw [if_neg hcond] at h
      cases h
      exact ⟨hS, fun x hx => Or.inl hx⟩

theorem processGroup_SInv {cal : Cal} (hcal : CalOK cal) {st st' : GState}
    {g : List String} {fuel : Nat}
    (hS : SInv cal st) (hgnd : g.Nodup)
    (hdisj : ∀ x ∈ g, x ∉ st.sched_order)
    (h : processGroup fuel st g = some st') :
    SInv cal st' ∧ (∀ x ∈ st'.sched_order, x ∈ st.sched_order ∨ x ∈ g) := by
  unfold processGroup at h
  simp only [bind, Option.bind_eq_some] at h
  obtain ⟨res, hrunl, hfin⟩ := h
  have hnd2 : (sortGroup st g).Nodup := (pySortBy_perm _ g).symm.nodup hgnd
  have hdisj2 : ∀ x ∈ sortGroup st g, x ∉ st.sched_order :=
    fun x hx => hdisj x (mem_pySortBy.mp hx)
  obtain ⟨hS1, hsub⟩ :=
    runGroupLoop_SInv hcal fuel st (sortGroup st g) res.1 res.2 hS hnd2 hdisj2 hrunl
  have hst' := Option.some.inj hfin
  have hfr := finishGroup_frame res.1 res.2
  have hfr2 := finishGroup_frame2 res.1 res.2
  have hjobs : (finishGroup res.1 res.2).jobs = res.1.jobs := congrArg Prod.fst hfr
  have hordf : (finishGroup res.1 res.2).sched_order = res.1.sched_order :=
    congrArg Prod.snd hfr
  constructor
  · rw [← hst']
    refine SInv_of_parts (congrArg Prod.snd hfr2) hordf ?_
      (le_of_eq (congrArg Prod.fst hfr2).symm) hS1
    intro jid
    unfold startOf findJob
    rw [hjobs]
  · intro x hx
    rw [← hst'] at hx
    rw [hordf] at hx
    rcases hsub x hx with h1 | h1
    · exact Or.inl h1
    · exact Or.inr (mem_pySortBy.mp h1)

theorem greedyOutput_entry {st : GState} {jid : String} {a : GAssign}
    (h : (match findJob st jid with
      | some j =>
        match j.scheduled_start_time, j.scheduled_end_time with
        | some s, some e =>
          some (⟨jid, j.equipment_id, s, e, j.assigned_technicians⟩ : GAssign)
        | _, _ => none
      | none => none) = some a) :
    startOf st jid = some a.scheduled_start_time := by
  cases hj : findJob st jid with
  | none => rw [hj] at h; cases h
  | some j =>
    rw [hj] at h
    have h2 : (match j.scheduled_start_time, j.scheduled_end_time with
      | some s, some e =>
        some (⟨jid, j.equipment_id, s, e, j.assigned_technicians⟩ : GAssign)
      | _, _ => none) = some a := h
    unfold startOf
    rw [hj]
    show j.scheduled_start_time = some a.scheduled_start_time
    cases hs : j.scheduled_start_time with
    | none =>
      cases he : j.scheduled_end_time with
      | none => rw [hs, he] at h2; cases h2
      | some e => rw [hs, he] at h2; cases h2
    | some s =>
      cases he : j.scheduled_end_time with
      | none => rw [hs, he] at h2; cases h2
      | some e =>
        rw [hs, he] at h2
        rw [← Option.some.inj h2]

/-- C6 (amended): only the greedy scheduler emits its assignments sorted by
start time: its commit order carries non-decreasing scheduled starts, because
each commit starts exactly at the monotonically advanced current time (for
any calendar with a sane working window).  The OR-Tools strategy's output is
in input job order and need not be sorted — see the counterexample, where a
precedence forces the first listed job to start later than the second. -/
theorem C6_greedy_sorted_by_start (d : DataIn) (cal : Cal) (cfuel fuel : Nat)
    (st' : GState) (hcal : CalOK cal)
    (hrun : runScheduler d cal cfuel fuel = some st') :
    (greedyOutput st').Pairwise
      (fun a b => a.scheduled_start_time ≤ b.scheduled_start_time) := by
  unfold runScheduler at hrun
  simp only [bind, Option.bind_eq_some] at hrun
  obtain ⟨gs, hgs, st1, h1, st2, h2, st3, h3, hst'⟩ := hrun
  have hst'3 : st3 = st' := Option.some.inj hst'
  subst hst'3
  have hS0 : SInv cal (initState d cal cfuel) := by
    refine ⟨rfl, ?_, ?_⟩
    · intro jid h s hs
      exact absurd h (List.not_mem_nil jid)
    · exact List.Pairwise.nil
  have hkeys : ((initState d cal cfuel).jobs.map (fun j => j.job_id)).Nodup :=
    dictListOf_keys_nodup _ jobOfData d.jobs
  have hnd := priorityGroups_nodup hgs hkeys
  rw [List.nodup_append] at hnd
  obtain ⟨hnd1, hnd23, hdj1⟩ := hnd
  rw [List.nodup_append] at hnd23
  obtain ⟨hnd2, hnd3, hdj23⟩ := hnd23
  have hdisj1 : ∀ x ∈ gs.1, x ∉ (initState d cal cfuel).sched_order := by
    intro x hx h
    exact (List.not_mem_nil x) h
  obtain ⟨hS1, hsub1⟩ := processGroup_SInv hcal hS0 hnd1 hdisj1 h1
  have hdisj2 : ∀ x ∈ gs.2.1, x ∉ st1.sched_order := by
    intro x hx hmem
    rcases hsub1 x hmem with hin | hin
    · exact (List.not_mem_nil x) hin
    · exact hdj1 hin (List.mem_append_left _ hx)
  obtain ⟨hS2, hsub2⟩ := processGroup_SInv hcal hS1 hnd2 hdisj2 h2
  have hdisj3 : ∀ x ∈ gs.2.2, x ∉ st2.sched_order := by
    intro x hx hmem
    rcases hsub2 x hmem with hin | hin
    · rcases hsub1 x hin with hin2 | hin2
      · exact (List.not_mem_nil x) hin2
      · exact hdj1 hin2 (List.mem_append_right _ hx)
    · exact hdj23 hin hx
  obtain ⟨hS3, _⟩ := processGroup_SInv hcal hS2 hnd3 hdisj3 h3
  unfold greedyOutput
  refine pairwise_filterMap_of ?_
  refine hS3.2.2.imp ?_
  intro j1 j2 hrel x y hfx hfy
  exact hrel _ _ (greedyOutput_entry hfx) (greedyOutput_entry hfy)

/-- The final state of the single-job greedy run used as the C6 witness. -/
def stC6w : GState :=
  (runScheduler dataG3 appCal 10 8).getD (initState dataG3 appCal 10)

theorem C6_greedy_sorted_by_start_witness :
    (greedyOutput stC6w).Pairwise
      (fun a b => a.scheduled_start_time ≤ b.scheduled_start_time) :=
  C6_greedy_sorted_by_start dataG3 appCal 10 8 stC6w
    ⟨by decide, by decide, by decide, 0, by decide, by decide, by decide⟩
    (by decide)

/-! ## No-overlap discipline of the greedy schedule (C1) -/

theorem pyCombinations_sublist {α : Type} :
    ∀ (r : Nat) (l : List α) (c : List α), c ∈ pyCombinations r l → c.Sublist l := by
  intro r
  induction r with
  | zero =>
    intro l c hc
    unfold pyCombinations at hc
    simp at hc
    subst hc
    exact List.nil_sublist l
  | succ r ih =>
    intro l
    induction l with
    | nil =>
      intro c hc
      unfold pyCombinations at hc
      cases hc
    | cons a t iht =>
      intro c hc
      unfold pyCombinations at hc
      rcases List.mem_append.mp hc with h | h
      · rcases List.mem_map.mp h with ⟨c', hc', rfl⟩
        exact List.Sublist.cons₂ a (ih t c' hc')
      · exact List.Sublist.cons a (iht c h)

theorem canAssignTechnicians_sublist {job : MJob} {avail : List MTech}
    {combo : List MTech} (h : canAssignTechnicians job avail = some combo) :
    combo.Sublist avail := by
  unfold canAssignTechnicians at h
  rw [List.findSome?_eq_some_iff] at h
  obtain ⟨l1, r, l2, _, hf, _⟩ := h
  have hf2 : (pyCombinations r avail).find? (fun c =>
      job.required_skills.all (fun s => c.any (fun t => t.skills.contains s)))
      = some combo := hf
  exact pyCombinations_sublist r avail combo (List.mem_of_find?_eq_some hf2)

theorem is_job_feasible_true_spec {st : GState} {job job2 : MJob}
    (h : is_job_feasible st job = some (true, job2)) :
    ∃ equip combo,
      findEquip st job.equipment_id = some equip ∧
      equipAvailable equip (get_next_working_time st.cal st.current_time)
        (calculate_job_end_time st.cal st.cfuel
          (get_next_working_time st.cal st.current_time) job.durSec) = true ∧
      canAssignTechnicians job (st.technicians.filter (fun t => techAvailable t
        (get_next_working_time st.cal st.current_time)
        (calculate_job_end_time st.cal st.cfuel
          (get_next_working_time st.cal st.current_time) job.durSec)))
        = some combo ∧
      job2 = { job with assigned_technicians := combo.map (fun t => t.tech_id) } := by
  unfold is_job_feasible at h
  dsimp only [] at h
  split at h
  · exact absurd (congrArg Prod.fst (Option.some.inj h)) Bool.false_ne_true
  · split at h
    · exact absurd (congrArg Prod.fst (Option.some.inj h)) Bool.false_ne_true
    · split at h
      · cases h
      · next equip hfe =>
        split at h
        · exact absurd (congrArg Prod.fst (Option.some.inj h)) Bool.false_ne_true
        · next heav =>
          split at h
          · exact absurd (congrArg Prod.fst (Option.some.inj h)) Bool.false_ne_true
          · next combo hca =>
            refine ⟨equip, combo, hfe, of_not_not heav, hca,
              (congrArg Prod.snd (Option.some.inj h)).symm⟩

/-- What the feasibility scan guarantees for every id it reports feasible:
the technician team stored on the job came from the availability filter, and
the equipment availability check passed, for the exact window the commit
will recompute. -/
def scanPost (st : GState) (jid : String) : Prop :=
  ∃ (job : MJob) (combo : List MTech) (equip : MEquip),
    findJob st jid = some job ∧
    job.assigned_technicians = combo.map (fun t => t.tech_id) ∧
    combo.Sublist (st.technicians.filter (fun t => techAvailable t
      (get_next_working_time st.cal st.current_time)
      (calculate_job_end_time st.cal st.cfuel
        (get_next_working_time st.cal st.current_time) job.durSec))) ∧
    findEquip st job.equipment_id = some equip ∧
    equipAvailable equip (get_next_working_time st.cal st.current_time)
      (calculate_job_end_time st.cal st.cfuel
        (get_next_working_time st.cal st.current_time) job.durSec) = true

theorem equipAvailable_all {e : MEquip} {s t : Int}
    (h : equipAvailable e s t = true) :
    ∀ r ∈ e.sched, disjointI r.1 r.2.1 s t := by
  unfold equipAvailable at h
  rw [List.all_eq_true] at h
  intro r hr
  have h2 := h r hr
  rw [Bool.or_eq_true, decide_eq_true_eq, decide_eq_true_eq] at h2
  unfold disjointI
  omega

theorem techAvailable_all {te : MTech} {s t : Int}
    (h : techAvailable te s t = true) :
    ∀ r ∈ te.assignments, disjointI r.1 r.2.1 s t := by
  unfold techAvailable at h
  rw [Bool.and_eq_true] at h
  have h3 := h.2
  rw [List.all_eq_true] at h3
  intro r hr
  have h2 := h3 r hr
  rw [Bool.or_eq_true, decide_eq_true_eq, decide_eq_true_eq] at h2
  unfold disjointI
  omega

theorem pairwise_append_single {α : Type} {R : α → α → Prop} {l : List α}
    {x : α} (h1 : l.Pairwise R) (h2 : ∀ r ∈ l, R r x) :
    (l ++ [x]).Pairwise R := by
  rw [List.pairwise_append]
  refine ⟨h1, List.pairwise_singleton _ _, ?_⟩
  intro a ha b hb
  rw [List.mem_singleton] at hb
  rw [hb]
  exact h2 a ha

theorem disjointI_symmKind {r1 r2 : Int × Int × String}
    (h : disjointI r1.1 r1.2.1 r2.1 r2.2.1) : disjointI r2.1 r2.2.1 r1.1 r1.2.1 := by
  unfold disjointI at *
  omega

/-- Pairwise-disjoint reservation list. -/
def resPW (l : List (Int × Int × String)) : Prop :=
  l.Pairwise (fun r1 r2 => disjointI r1.1 r1.2.1 r2.1 r2.2.1)

/-- Resource-discipline invariant of the greedy run: resource keys are
unique, every equipment schedule and technician assignment list is pairwise
disjoint, commits are unique, and every committed job's window is mirrored
in its equipment's schedule and each assigned technician's list. -/
def GInv (st : GState) : Prop :=
  (st.equipment.map (fun e => e.equipment_id)).Nodup ∧
  (st.technicians.map (fun t => t.tech_id)).Nodup ∧
  (∀ e ∈ st.equipment, resPW e.sched) ∧
  (∀ te ∈ st.technicians, resPW te.assignments) ∧
  st.sched_order.Nodup ∧
  (∀ jid ∈ st.sched_order, ∀ job, findJob st jid = some job →
    ∃ s t, job.scheduled_start_time = some s ∧ job.scheduled_end_time = some t ∧
      (∃ e, findEquip st job.equipment_id = some e ∧ (s, t, jid) ∈ e.sched) ∧
      (∀ tid ∈ job.assigned_technicians,
        ∃ te, findTech st tid = some te ∧ (s, t, jid) ∈ te.assignments))

theorem GInv_of_frames {st st' : GState}
    (heq : st'.equipment = st.equipment) (hte : st'.technicians = st.technicians)
    (hord : st'.sched_order = st.sched_order)
    (hjf : ∀ jid ∈ st.sched_order, findJob st' jid = findJob st jid)
    (h : GInv st) : GInv st' := by
  obtain ⟨h1, h2, h3, h4, h5, h6⟩ := h
  refine ⟨by rw [heq]; exact h1, by rw [hte]; exact h2, by rw [heq]; exact h3,
    by rw [hte]; exact h4, by rw [hord]; exact h5, ?_⟩
  intro jid hjid job hjob
  rw [hord] at hjid
  rw [hjf jid hjid] at hjob
  obtain ⟨s, t, hs, ht, ⟨e, he, hme⟩, htechs⟩ := h6 jid hjid job hjob
  refine ⟨s, t, hs, ht, ⟨e, ?_, hme⟩, ?_⟩
  · unfold findEquip at *
    rw [heq]
    exact he
  · intro tid htid
    obtain ⟨te, hte2, hmt⟩ := htechs tid htid
    refine ⟨te, ?_, hmt⟩
    unfold findTech at *
    rw [hte]
    exact hte2

theorem scanFeasible_find_untouched :
    ∀ (pending : List String) (st st' : GState) (feas : List String),
      scanFeasible st pending = some (st', feas) →
      ∀ k, k ∉ pending → findJob st' k = findJob st k := by
  intro pending
  induction pending with
  | nil =>
    intro st st' feas h
    simp only [scanFeasible] at h
    cases h
    intro k _
    rfl
  | cons jid rest ih =>
    intro st st' feas h
    simp only [scanFeasible] at h
    cases hjob : findJob st jid with
    | none =>
      rw [hjob] at h
      simp only [bind, Option.bind] at h
      cases h
    | some job =>
      rw [hjob] at h
      simp only [bind, Option.bind] at h
      cases hfr : is_job_feasible st job with
      | none => rw [hfr] at h; cases h
      | some fr =>
        rw [hfr] at h
        simp only [Option.bind] at h
        cases hnext : scanFeasible (updJob st fr.2) rest with
        | none => rw [hnext] at h; cases h
        | some nxt =>
          rw [hnext] at h
          simp only [Option.bind] at h
          cases h
          intro k hk
          have hk1 : k ≠ jid := fun he => hk (he ▸ List.mem_cons_self jid rest)
          have hk2 : k ∉ rest := fun hm => hk (List.mem_cons_of_mem _ hm)
          rw [ih (updJob st fr.2) nxt.1 nxt.2 hnext k hk2]
          rw [findJob_updJob]
          rw [if_neg (fun he => hk1 (by
            rw [← he, is_job_feasible_job_id hfr, findJob_job_id hjob]))]

theorem scanFeasible_frame3 :
    ∀ (pending : List String) (st st' : GState) (feas : List String),
      scanFeasible st pending = some (st', feas) →
      st'.equipment = st.equipment ∧ st'.technicians = st.technicians
        ∧ st'.tools = st.tools ∧ st'.materials = st.materials := by
  intro pending
  induction pending with
  | nil =>
    intro st st' feas h
    simp only [scanFeasible] at h
    cases h
    exact ⟨rfl, rfl, rfl, rfl⟩
  | cons jid rest ih =>
    intro st st' feas h
    simp only [scanFeasible] at h
    cases hjob : findJob st jid with
    | none =>
      rw [hjob] at h
      simp only [bind, Option.bind] at h
      cases h
    | some job =>
      rw [hjob] at h
      simp only [bind, Option.bind] at h
      cases hfr : is_job_feasible st job with
      | none => rw [hfr] at h; cases h
      | some fr =>
        rw [hfr] at h
        simp only [Option.bind] at h
        cases hnext : scanFeasible (updJob st fr.2) rest with
        | none => rw [hnext] at h; cases h
        | some nxt =>
          rw [hnext] at h
          simp only [Option.bind] at h
          cases h
          exact ih (updJob st fr.2) nxt.1 nxt.2 hnext

theorem GInv_scan {pending : List String} {st st2 : GState} {feas : List String}
    (hdisj : ∀ x ∈ pending, x ∉ st.sched_order) (hG : GInv st)
    (h : scanFeasible st pending = some (st2, feas)) : GInv st2 := by
  obtain ⟨hequ, htec, _, _⟩ := scanFeasible_frame3 pending st st2 feas h
  obtain ⟨hord, _⟩ := scanFeasible_frame pending st st2 feas h
  refine GInv_of_frames hequ htec hord ?_ hG
  intro jid hjid
  refine scanFeasible_find_untouched pending st st2 feas h jid ?_
  intro hmem
  exact hdisj jid hmem hjid

theorem scanFeasible_post :
    ∀ (pending : List String) (st st2 : GState) (feas : List String),
      pending.Nodup → scanFeasible st pending = some (st2, feas) →
      ∀ jid ∈ feas, scanPost st2 jid := by
  intro pending
  induction pending with
  | nil =>
    intro st st2 feas _ h
    simp only [scanFeasible] at h
    cases h
    intro jid hjid
    cases hjid
  | cons a rest ih =>
    intro st st2 feas hnd h
    obtain ⟨ha, hnd'⟩ := List.nodup_cons.mp hnd
    simp only [scanFeasible] at h
    cases hjob : findJob st a with
    | none =>
      rw [hjob] at h
      simp only [bind, Option.bind] at h
      cases h
    | some job =>
      rw [hjob] at h
      simp only [bind, Option.bind] at h
      cases hfr : is_job_feasible st job with
      | none => rw [hfr] at h; cases h
      | some fr =>
        rw [hfr] at h
        simp only [Option.bind] at h
        cases hnext : scanFeasible (updJob st fr.2) rest with
        | none => rw [hnext] at h; cases h
        | some nxt =>
          rw [hnext] at h
          simp only [Option.bind] at h
          cases h
          intro jid hjid
          split at hjid
          · next hb =>
            rcases List.mem_cons.mp hjid with he | hm
            · subst he
              have hfr' : is_job_feasible st job = some (true, fr.2) := by
                rw [hfr, ← hb]
              obtain ⟨equip, combo, hfe, heav, hca, hjob2⟩ :=
                is_job_feasible_true_spec hfr'
              have hfrid : fr.2.job_id = jid := by
                rw [is_job_feasible_job_id hfr, findJob_job_id hjob]
              have hfj1 : findJob (updJob st fr.2) jid = some fr.2 := by
                rw [findJob_updJob, if_pos hfrid, hjob]
                rfl
              have hfj2 : findJob nxt.1 jid = some fr.2 := by
                rw [scanFeasible_find_untouched rest _ nxt.1 nxt.2 hnext jid ha]
                exact hfj1
              obtain ⟨hequ, htec, _, _⟩ := scanFeasible_frame3 rest _ nxt.1 nxt.2 hnext
              obtain ⟨hcur, hcal, hcfu⟩ := scanFeasible_frame2 rest _ nxt.1 nxt.2 hnext
              have hdur : fr.2.durSec = job.durSec := by rw [hjob2]
              refine ⟨fr.2, combo, equip, hfj2, by rw [hjob2], ?_, ?_, ?_⟩
              · rw [htec, hcal, hcur, hcfu, hdur]
                exact canAssignTechnicians_sublist hca
              · have heqid : fr.2.equipment_id = job.equipment_id := by rw [hjob2]
                rw [heqid]
                unfold findEquip at hfe ⊢
                rw [hequ]
                exact hfe
              · rw [hcal, hcur, hcfu, hdur]
                exact heav
            · exact ih (updJob st fr.2) nxt.1 nxt.2 hnd' hnext jid hm
          · exact ih (updJob st fr.2) nxt.1 nxt.2 hnd' hnext jid hjid

theorem foldl_keyModify_keys {α : Type} (key : α → String) (g : α → α)
    (hg : ∀ x, key (g x) = key x) :
    ∀ (tids : List String) (l : List α),
      ((tids.foldl (fun l tid => keyModify key tid g l) l).map key) = l.map key := by
  intro tids
  induction tids with
  | nil => intro l; rfl
  | cons tid rest ih =>
    intro l
    simp only [List.foldl_cons]
    rw [ih]
    exact keyModify_keys key tid g (fun x hx => (hg x).trans hx) l

theorem foldl_keyModify_find_pres {α : Type} (key : α → String) (g : α → α)
    (P : α → Prop) (hg : ∀ x, key (g x) = key x) (hP : ∀ x, P x → P (g x)) :
    ∀ (tids : List String) (l : List α) (k : String),
      (∃ a, l.find? (fun x => key x == k) = some a ∧ P a) →
      ∃ a, ((tids.foldl (fun l tid => keyModify key tid g l) l).find?
        (fun x => key x == k)) = some a ∧ P a := by
  intro tids
  induction tids with
  | nil => intro l k h; exact h
  | cons tid rest ih =>
    intro l k h
    simp only [List.foldl_cons]
    refine ih (keyModify key tid g l) k ?_
    obtain ⟨a, ha, hPa⟩ := h
    rw [find?_keyModify key tid g (fun x hx => (hg x).trans hx)]
    by_cases he : tid = k
    · rw [if_pos he, ha]
      exact ⟨g a, rfl, hP a hPa⟩
    · rw [if_neg he]
      exact ⟨a, ha, hPa⟩

theorem foldl_keyModify_hits {α : Type} (key : α → String) (g : α → α)
    (Q : α → Prop) (hg : ∀ x, key (g x) = key x) (hQg : ∀ x, Q (g x)) :
    ∀ (tids : List String) (l : List α) (k : String), k ∈ tids →
      (∃ a, l.find? (fun x => key x == k) = some a) →
      ∃ a, ((tids.foldl (fun l tid => keyModify key tid g l) l).find?
        (fun x => key x == k)) = some a ∧ Q a := by
  intro tids
  induction tids with
  | nil => intro l k hk; cases hk
  | cons tid rest ih =>
    intro l k hk h
    simp only [List.foldl_cons]
    by_cases he : tid = k
    · refine foldl_keyModify_find_pres key g Q hg (fun x _ => hQg x) rest
        (keyModify key tid g l) k ?_
      obtain ⟨a, ha⟩ := h
      rw [find?_keyModify key tid g (fun x hx => (hg x).trans hx), if_pos he, ha]
      exact ⟨g a, rfl, hQg a⟩
    · rcases List.mem_cons.mp hk with h1 | h1
      · exact absurd h1.symm he
      · refine ih (keyModify key tid g l) k h1 ?_
        obtain ⟨a, ha⟩ := h
        rw [find?_keyModify key tid g (fun x hx => (hg x).trans hx), if_neg he]
        exact ⟨a, ha⟩

theorem foldl_keyModify_all {α : Type} (key : α → String) (g : α → α)
    (P : α → Prop) (C : α → Prop) (hg : ∀ x, key (g x) = key x)
    (hPC : ∀ x, P x → C x → P (g x)) :
    ∀ (tids : List String), tids.Nodup → ∀ (l : List α),
      (∀ x ∈ l, P x) → (∀ x ∈ l, key x ∈ tids → C x) →
      ∀ x ∈ tids.foldl (fun l tid => keyModify key tid g l) l, P x := by
  intro tids
  induction tids with
  | nil => intro _ l hP _ x hx; exact hP x hx
  | cons tid rest ih =>
    intro hnd l hP hC
    obtain ⟨htid, hnd'⟩ := List.nodup_cons.mp hnd
    simp only [List.foldl_cons]
    refine ih hnd' (keyModify key tid g l) ?_ ?_
    · intro x hx
      obtain ⟨y, hy, hxy⟩ := mem_keyModify hx
      by_cases he : (key y == tid) = true
      · rw [if_pos he] at hxy
        rw [hxy]
        exact hPC y (hP y hy) (hC y hy (by
          rw [show key y = tid by simpa using he]
          exact List.mem_cons_self tid rest))
      · rw [if_neg he] at hxy
        rw [hxy]
        exact hP y hy
    · intro x hx hkx
      obtain ⟨y, hy, hxy⟩ := mem_keyModify hx
      by_cases he : (key y == tid) = true
      · rw [if_pos he] at hxy
        exfalso
        rw [hxy] at hkx
        rw [hg y, show key y = tid by simpa using he] at hkx
        exact htid hkx
      · rw [if_neg he] at hxy
        rw [hxy] at hkx ⊢
        exact hC y hy (List.mem_cons_of_mem _ hkx)

/-- The per-technician reservation append of `assign_resources`. -/
def addAssign (s t : Int) (jid : String) (x : MTech) : MTech :=
  { x with assignments := x.assignments ++ [(s, t, jid)] }

/-- One step of the technician fold of `assign_resources`. -/
def techFoldStep (s t : Int) (jid : String) (acc : GState) (tid : String) :
    GState :=
  { acc with technicians :=
      keyModify (fun x => x.tech_id) tid (addAssign s t jid) acc.technicians }

theorem techFold_technicians (s t : Int) (jid : String) :
    ∀ (tids : List String) (acc : GState),
      (tids.foldl (techFoldStep s t jid) acc).technicians
      = tids.foldl (fun l tid =>
          keyModify (fun x => x.tech_id) tid (addAssign s t jid) l)
          acc.technicians := by
  intro tids
  induction tids with
  | nil => intro acc; rfl
  | cons tid rest ih =>
    intro acc
    simp only [List.foldl_cons]
    exact ih _

/-- The equipment reservation append of `assign_resources`. -/
def addSched (s t : Int) (jid : String) (x : MEquip) : MEquip :=
  { x with sched := x.sched ++ [(s, t, jid)] }

theorem assign_resources_GInv {st1 : GState} {jb : MJob} {s t : Int}
    {st3 : GState}
    (hkE : (st1.equipment.map (fun e => e.equipment_id)).Nodup)
    (hkT : (st1.technicians.map (fun x => x.tech_id)).Nodup)
    (hPWE : ∀ e ∈ st1.equipment, resPW e.sched)
    (hPWT : ∀ te ∈ st1.technicians, resPW te.assignments)
    (htidnd : jb.assigned_technicians.Nodup)
    (htech : ∀ te ∈ st1.technicians, te.tech_id ∈ jb.assigned_technicians →
      ∀ r ∈ te.assignments, disjointI r.1 r.2.1 s t)
    (htechex : ∀ tid ∈ jb.assigned_technicians,
      ∃ te, st1.technicians.find? (fun x => x.tech_id == tid) = some te)
    (hequip : ∃ e, st1.equipment.find?
        (fun x => x.equipment_id == jb.equipment_id) = some e ∧
      ∀ r ∈ e.sched, disjointI r.1 r.2.1 s t)
    (h : assign_resources st1 jb s t = some st3) :
    (st3.equipment.map (fun e => e.equipment_id)).Nodup ∧
    (st3.technicians.map (fun x => x.tech_id)).Nodup ∧
    (∀ e ∈ st3.equipment, resPW e.sched) ∧
    (∀ te ∈ st3.technicians, resPW te.assignments) ∧
    (∃ e, st3.equipment.find?
        (fun x => x.equipment_id == jb.equipment_id) = some e ∧
      (s, t, jb.job_id) ∈ e.sched) ∧
    (∀ tid ∈ jb.assigned_technicians,
      ∃ te, st3.technicians.find? (fun x => x.tech_id == tid) = some te ∧
        (s, t, jb.job_id) ∈ te.assignments) ∧
    (∀ k e, st1.equipment.find? (fun x => x.equipment_id == k) = some e →
      ∃ e2, st3.equipment.find? (fun x => x.equipment_id == k) = some e2 ∧
        ∀ r ∈ e.sched, r ∈ e2.sched) ∧
    (∀ k te, st1.technicians.find? (fun x => x.tech_id == k) = some te →
      ∃ te2, st3.technicians.find? (fun x => x.tech_id == k) = some te2 ∧
        ∀ r ∈ te.assignments, r ∈ te2.assignments) := by
  unfold assign_resources at h
  dsimp only [] at h
  simp only [bind, Option.bind_eq_some] at h
  obtain ⟨stA, hA, stB, hB, hmatch⟩ := h
  have hAp : (stA.equipment, stA.technicians)
      = ((jb.assigned_technicians.foldl (techFoldStep s t jb.job_id)
          st1).equipment,
        (jb.assigned_technicians.foldl (techFoldStep s t jb.job_id)
          st1).technicians) := by
    refine foldlM_option_proj (fun (st : GState) => (st.equipment, st.technicians))
      _ ?_ _ _ _ hA
    intro acc a stx hx
    cases hfind : acc.tools.find? (fun x => x.tool_id == a.tool_id) with
    | none => rw [hfind] at hx; cases hx
    | some _ =>
      rw [hfind] at hx
      cases hx
      rfl
  have hBp : (stB.equipment, stB.technicians) = (stA.equipment, stA.technicians) := by
    refine foldlM_option_proj (fun (st : GState) => (st.equipment, st.technicians))
      _ ?_ _ _ _ hB
    intro acc a stx hx
    cases hfind : acc.materials.find? (fun x => x.material_id == a.material_id) with
    | none => rw [hfind] at hx; cases hx
    | some _ =>
      rw [hfind] at hx
      cases hx
      rfl
  have hTe : (jb.assigned_technicians.foldl (techFoldStep s t jb.job_id)
      st1).equipment = st1.equipment :=
    foldl_proj (fun (st : GState) => st.equipment) (techFoldStep s t jb.job_id)
      (fun acc a => rfl) jb.assigned_technicians st1
  have hBe1 : stB.equipment = stA.equipment := congrArg Prod.fst hBp
  have hAe1 : stA.equipment = (jb.assigned_technicians.foldl
      (techFoldStep s t jb.job_id) st1).equipment := congrArg Prod.fst hAp
  have hBt1 : stB.technicians = stA.technicians := congrArg Prod.snd hBp
  have hAt1 : stA.technicians = (jb.assigned_technicians.foldl
      (techFoldStep s t jb.job_id) st1).technicians := congrArg Prod.snd hAp
  have hBe : stB.equipment = st1.equipment := by
    rw [hBe1, hAe1]
    exact hTe
  have hBt : stB.technicians = jb.assigned_technicians.foldl (fun l tid =>
      keyModify (fun x => x.tech_id) tid (addAssign s t jb.job_id) l)
      st1.technicians := by
    rw [hBt1, hAt1]
    exact techFold_technicians s t jb.job_id jb.assigned_technicians st1
  cases hqf : stB.equipment.find? (fun x => x.equipment_id == jb.equipment_id) with
  | none => rw [hqf] at hmatch; cases hmatch
  | some e0 =>
    rw [hqf] at hmatch
    have hst3 := Option.some.inj hmatch
    obtain ⟨e, hfe, hedisj⟩ := hequip
    have he0 : e0 = e := by
      rw [hBe] at hqf
      rw [hqf] at hfe
      exact Option.some.inj hfe
    have hE3 : st3.equipment = keyModify (fun x => x.equipment_id)
        jb.equipment_id (addSched s t jb.job_id) st1.equipment := by
      rw [← hst3]
      show keyModify (fun x => x.equipment_id) jb.equipment_id _ stB.equipment = _
      rw [hBe]
      exact rfl
    have hT3 : st3.technicians = jb.assigned_technicians.foldl (fun l tid =>
        keyModify (fun x => x.tech_id) tid (addAssign s t jb.job_id) l)
        st1.technicians := by
      rw [← hst3]
      show stB.technicians = _
      exact hBt
    have hgE : ∀ x : MEquip, (addSched s t jb.job_id x).equipment_id
        = x.equipment_id := fun x => rfl
    have hgT : ∀ x : MTech, (addAssign s t jb.job_id x).tech_id = x.tech_id :=
      fun x => rfl
    have hmeme : e ∈ st1.equipment := List.mem_of_find?_eq_some hfe
    have hkeye : e.equipment_id = jb.equipment_id := by
      simpa using List.find?_some hfe
    refine ⟨?_, ?_, ?_, ?_, ?_, ?_, ?_, ?_⟩
    · rw [hE3, keyModify_keys _ _ _ (fun x hx => (hgE x).trans hx)]
      exact hkE
    · rw [hT3, foldl_keyModify_keys _ _ hgT]
      exact hkT
    · intro e2 he2
      rw [hE3] at he2
      obtain ⟨y, hy, hxy⟩ := mem_keyModify he2
      by_cases hky : (y.equipment_id == jb.equipment_id) = true
      · rw [if_pos hky] at hxy
        have hye : y = e := nodupKeys_inj hkE hy hmeme
          (by rw [hkeye]; simpa using hky)
        rw [hxy, hye]
        exact pairwise_append_single (hPWE e hmeme) hedisj
      · rw [if_neg hky] at hxy
        rw [hxy]
        exact hPWE y hy
    · intro te hte
      rw [hT3] at hte
      refine foldl_keyModify_all (fun x => x.tech_id) (addAssign s t jb.job_id)
        (fun te => resPW te.assignments)
        (fun te => ∀ r ∈ te.assignments, disjointI r.1 r.2.1 s t)
        hgT ?_ jb.assigned_technicians htidnd st1.technicians hPWT ?_ te hte
      · intro x hP hC
        exact pairwise_append_single hP hC
      · intro x hx hkx
        exact htech x hx hkx
    · rw [hE3, find?_keyModify _ _ _ (fun x hx => (hgE x).trans hx), if_pos rfl,
        hfe]
      exact ⟨addSched s t jb.job_id e, rfl, by
        show (s, t, jb.job_id) ∈ e.sched ++ [(s, t, jb.job_id)]
        exact List.mem_append_right _ (by simp)⟩
    · intro tid htid
      rw [hT3]
      refine foldl_keyModify_hits (fun x => x.tech_id) (addAssign s t jb.job_id)
        (fun te => (s, t, jb.job_id) ∈ te.assignments) hgT ?_
        jb.assigned_technicians st1.technicians tid htid (htechex tid htid)
      intro x
      show (s, t, jb.job_id) ∈ x.assignments ++ [(s, t, jb.job_id)]
      exact List.mem_append_right _ (by simp)
    · intro k e2 hfind
      rw [hE3, find?_keyModify _ _ _ (fun x hx => (hgE x).trans hx)]
      by_cases he : jb.equipment_id = k
      · rw [if_pos he, hfind]
        refine ⟨addSched s t jb.job_id e2, rfl, ?_⟩
        intro r hr
        show r ∈ e2.sched ++ [(s, t, jb.job_id)]
        exact List.mem_append_left _ hr
      · rw [if_neg he, hfind]
        exact ⟨e2, rfl, fun r hr => hr⟩
    · intro k te hfind
      rw [hT3]
      refine foldl_keyModify_find_pres (fun x => x.tech_id)
        (addAssign s t jb.job_id)
        (fun te2 => ∀ r ∈ te.assignments, r ∈ te2.assignments) hgT ?_
        jb.assigned_technicians st1.technicians k ⟨te, hfind, fun r hr => hr⟩
      intro x hx r hr
      show r ∈ x.assignments ++ [(s, t, jb.job_id)]
      exact List.mem_append_left _ (hx r hr)

theorem schedule_job_GInv {st2 : GState} {best : String} {st3 : GState}
    (hG : GInv st2) (hpost : scanPost st2 best) (hbnot : best ∉ st2.sched_order)
    (h : schedule_job st2 best = some st3) : GInv st3 := by
  obtain ⟨hkE, hkT, hPWE, hPWT, hndo, hmirror⟩ := hG
  obtain ⟨job, combo, equip, hjob, hassigned, hsub, hfeq, heav⟩ := hpost
  unfold schedule_job at h
  simp only [bind, Option.bind_eq_some] at h
  obtain ⟨job0, hjob0, stX, hasg, hst3⟩ := h
  have hjj : job0 = job := by
    rw [hjob0] at hjob
    exact Option.some.inj hjob
  subst job0
  have hbid : job.job_id = best := findJob_job_id hjob0
  set ps := get_next_working_time st2.cal st2.current_time with hps
  set pe := calculate_job_end_time st2.cal st2.cfuel ps job.durSec with hpe
  set j' : MJob := { job with
    scheduled_start_time := some ps
    scheduled_end_time := some pe
    status := JStatus.scheduled } with hj'
  have hj'a : j'.assigned_technicians = combo.map (fun t => t.tech_id) := hassigned
  have hsub2 : (combo.map (fun t => t.tech_id)).Sublist
      (st2.technicians.map (fun x => x.tech_id)) :=
    (hsub.map (fun t => t.tech_id)).trans
      ((List.filter_sublist st2.technicians).map (fun x => x.tech_id))
  have htidnd : j'.assigned_technicians.Nodup := by
    rw [hj'a]
    exact hkT.sublist hsub2
  have hcmem : ∀ tc ∈ combo, tc ∈ st2.technicians ∧ techAvailable tc ps pe = true := by
    intro tc htc
    have := hsub.subset htc
    rw [List.mem_filter] at this
    exact this
  have htech : ∀ te ∈ st2.technicians, te.tech_id ∈ j'.assigned_technicians →
      ∀ r ∈ te.assignments, disjointI r.1 r.2.1 ps pe := by
    intro te hte htid
    rw [hj'a] at htid
    rcases List.mem_map.mp htid with ⟨tc, htc, hct⟩
    obtain ⟨htcm, htca⟩ := hcmem tc htc
    have : te = tc := nodupKeys_inj hkT hte htcm (by rw [hct])
    rw [this]
    exact techAvailable_all htca
  have htechex : ∀ tid ∈ j'.assigned_technicians,
      ∃ te, st2.technicians.find? (fun x => x.tech_id == tid) = some te := by
    intro tid htid
    rw [hj'a] at htid
    rcases List.mem_map.mp htid with ⟨tc, htc, hct⟩
    refine ⟨tc, ?_⟩
    rw [← hct]
    exact find?_key_of_mem hkT (hcmem tc htc).1
  have hequip : ∃ e, st2.equipment.find?
      (fun x => x.equipment_id == j'.equipment_id) = some e ∧
      ∀ r ∈ e.sched, disjointI r.1 r.2.1 ps pe := by
    refine ⟨equip, ?_, equipAvailable_all heav⟩
    unfold findEquip at hfeq
    exact hfeq
  have hkE1 : ((updJob st2 j').equipment.map (fun e => e.equipment_id)).Nodup := hkE
  have hkT1 : ((updJob st2 j').technicians.map (fun x => x.tech_id)).Nodup := hkT
  have hPWE1 : ∀ e ∈ (updJob st2 j').equipment, resPW e.sched := hPWE
  have hPWT1 : ∀ te ∈ (updJob st2 j').technicians, resPW te.assignments := hPWT
  have htech1 : ∀ te ∈ (updJob st2 j').technicians,
      te.tech_id ∈ j'.assigned_technicians →
      ∀ r ∈ te.assignments, disjointI r.1 r.2.1 ps pe := htech
  have htechex1 : ∀ tid ∈ j'.assigned_technicians,
      ∃ te, (updJob st2 j').technicians.find? (fun x => x.tech_id == tid)
        = some te := htechex
  have hequip1 : ∃ e, (updJob st2 j').equipment.find?
      (fun x => x.equipment_id == j'.equipment_id) = some e ∧
      ∀ r ∈ e.sched, disjointI r.1 r.2.1 ps pe := hequip
  obtain ⟨hkE3, hkT3, hPWE3, hPWT3, ⟨eN, heN, hmemN⟩, htechN, holdE, holdT⟩ :=
    assign_resources_GInv hkE1 hkT1 hPWE1 hPWT1 htidnd htech1 htechex1 hequip1 hasg
  have hgX := assign_gframe hasg
  have hXjobs : stX.jobs = (updJob st2 j').jobs := congrArg (fun p => p.1) hgX
  have hXord : stX.sched_order = st2.sched_order := congrArg (fun p => p.2.1) hgX
  have hst3' := Option.some.inj hst3
  have h3E : st3.equipment = stX.equipment := by rw [← hst3']
  have h3T : st3.technicians = stX.technicians := by rw [← hst3']
  have h3J : st3.jobs = stX.jobs := by rw [← hst3']
  have h3O : st3.sched_order = stX.sched_order ++ [best] := by rw [← hst3']
  refine ⟨?_, ?_, ?_, ?_, ?_, ?_⟩
  · rw [h3E]; exact hkE3
  · rw [h3T]; exact hkT3
  · rw [h3E]; exact hPWE3
  · rw [h3T]; exact hPWT3
  · rw [h3O, hXord, List.nodup_append]
    refine ⟨hndo, by simp, ?_⟩
    intro a ha hab
    rw [List.mem_singleton] at hab
    rw [hab] at ha
    exact hbnot ha
  · intro jid hjid jobF hjobF
    rw [h3O, hXord] at hjid
    have hfj : findJob st3 jid = findJob (updJob st2 j') jid := by
      unfold findJob
      rw [h3J, hXjobs]
    rcases List.mem_append.mp hjid with hold | hnew
    · have hne : j'.job_id ≠ jid := by
        show job.job_id ≠ jid
        rw [hbid]
        intro he
        rw [← he] at hold
        exact hbnot hold
      rw [hfj, findJob_updJob, if_neg hne] at hjobF
      obtain ⟨s0, t0, hs0, ht0, ⟨e1, he1, hm1⟩, htech1⟩ :=
        hmirror jid hold jobF hjobF
      refine ⟨s0, t0, hs0, ht0, ?_, ?_⟩
      · unfold findEquip at he1
        obtain ⟨e2, he2, hmono⟩ := holdE jobF.equipment_id e1 he1
        refine ⟨e2, ?_, hmono _ hm1⟩
        unfold findEquip
        rw [h3E]
        exact he2
      · intro tid htid
        obtain ⟨te1, hte1, hmt1⟩ := htech1 tid htid
        unfold findTech at hte1
        obtain ⟨te2, hte2, hmono⟩ := holdT tid te1 hte1
        refine ⟨te2, ?_, hmono _ hmt1⟩
        unfold findTech
        rw [h3T]
        exact hte2
    · rw [List.mem_singleton] at hnew
      subst hnew
      have hjid' : j'.job_id = jid := hbid
      rw [hfj, findJob_updJob, if_pos hjid', hjob0] at hjobF
      have hjobF' : jobF = j' := (Option.some.inj hjobF).symm
      subst hjobF'
      refine ⟨ps, pe, rfl, rfl, ?_, ?_⟩
      · refine ⟨eN, ?_, ?_⟩
        · unfold findEquip
          rw [h3E]
          exact heN
        · have : (ps, pe, j'.job_id) ∈ eN.sched := hmemN
          rw [show j'.job_id = jid from hbid] at this
          exact this
      · intro tid htid
        obtain ⟨te, hte, hmt⟩ := htechN tid htid
        refine ⟨te, ?_, ?_⟩
        · unfold findTech
          rw [h3T]
          exact hte
        · rw [show j'.job_id = jid from hbid] at hmt
          exact hmt

theorem advanceTime_frame3 (st : GState) :
    (advanceTime st).equipment = st.equipment
      ∧ (advanceTime st).technicians = st.technicians := by
  unfold advanceTime
  dsimp only []
  split <;> exact ⟨rfl, rfl⟩

theorem finishGroup_frame3 (st : GState) (pending : List String) :
    ((finishGroup st pending).equipment, (finishGroup st pending).technicians)
      = (st.equipment, st.technicians) := by
  unfold finishGroup
  refine foldl_proj (fun s => (s.equipment, s.technicians)) _ ?_ pending st
  intro acc a
  cases hj : findJob acc a <;> rfl

theorem runGroupLoop_GInv :
    ∀ (fuel : Nat) (st : GState) (pending : List String) (st' : GState)
      (pending' : List String),
      GInv st → pending.Nodup → (∀ x ∈ pending, x ∉ st.sched_order) →
      runGroupLoop fuel st pending = some (st', pending') →
      GInv st' ∧ (∀ x ∈ st'.sched_order, x ∈ st.sched_order ∨ x ∈ pending) := by
  intro fuel
  induction fuel with
  | zero =>
    intro st pending st' pending' hG hnd hdisj h
    simp only [runGroupLoop] at h
    cases h
    exact ⟨hG, fun x hx => Or.inl hx⟩
  | succ fuel ih =>
    intro st pending st' pending' hG hnd hdisj h
    simp only [runGroupLoop] at h
    by_cases hcond : st.current_time < st.t_end ∧ pending ≠ []
    · rw [if_pos hcond] at h
      simp only [bind, Option.bind_eq_some] at h
      obtain ⟨scanned, hscan, h⟩ := h
      have hG1 : GInv
          ({ st with current_time := get_next_working_time st.cal st.current_time }) :=
        GInv_of_frames rfl rfl rfl (fun _ _ => rfl) hG
      have hdisj1 : ∀ x ∈ pending, x ∉
          ({ st with current_time := get_next_working_time st.cal st.current_time } : GState).sched_order := hdisj
      have hG2 : GInv scanned.1 := GInv_scan hdisj1 hG1 hscan
      have hposts := scanFeasible_post pending _ scanned.1 scanned.2 hnd hscan
      obtain ⟨hordsc, _⟩ := scanFeasible_frame pending _ scanned.1 scanned.2 hscan
      have hordsc2 : scanned.1.sched_order = st.sched_order := hordsc
      by_cases hfe : scanned.2 ≠ []
      · rw [if_pos hfe] at h
        simp only [Option.bind_eq_some] at h
        obtain ⟨best, hbest, st3, hsch, h⟩ := h
        have hbfeas := select_best_job_mem hbest
        have hbmem : best ∈ pending :=
          scanFeasible_feas_sub pending _ scanned.1 scanned.2 hscan best hbfeas
        have hbnot : best ∉ scanned.1.sched_order := by
          rw [hordsc2]
          exact hdisj best hbmem
        have hG3 : GInv st3 :=
          schedule_job_GInv hG2 (hposts best hbfeas) hbnot hsch
        obtain ⟨hordp, _, _, _, _⟩ := schedule_job_parts hsch
        have hnd3 : (pending.erase best).Nodup := hnd.erase best
        have hdisj3 : ∀ x ∈ pending.erase best, x ∉ st3.sched_order := by
          intro x hx
          rw [hnd.mem_erase_iff] at hx
          rw [hordp, hordsc2]
          intro hmem
          rcases List.mem_append.mp hmem with h1 | h1
          · exact hdisj x hx.2 h1
          · rw [List.mem_singleton] at h1
            exact hx.1 h1
        obtain ⟨hG', hsub⟩ := ih st3 (pending.erase best) st' pending' hG3 hnd3 hdisj3 h
        refine ⟨hG', ?_⟩
        intro x hx
        rcases hsub x hx with h1 | h1
        · rw [hordp, hordsc2] at h1
          rcases List.mem_append.mp h1 with h2 | h2
          · exact Or.inl h2
          · rw [List.mem_singleton] at h2
            exact Or.inr (h2 ▸ hbmem)
        · rw [hnd.mem_erase_iff] at h1
          exact Or.inr h1.2
      · rw [if_neg hfe] at h
        obtain ⟨hj3, ho3, hu3⟩ := advanceTime_frame scanned.1
        obtain ⟨heq3, hte3⟩ := advanceTime_frame3 scanned.1
        have hG3 : GInv (advanceTime scanned.1) :=
          GInv_of_frames heq3 hte3 ho3 (by
            intro jid _
            unfold findJob
            rw [hj3]) hG2
        by_cases hend :
            (advanceTime scanned.1).current_time ≥ (advanceTime scanned.1).t_end
        · rw [if_pos hend] at h
          cases h
          refine ⟨hG3, ?_⟩
          intro x hx
          rw [ho3, hordsc2] at hx
          exact Or.inl hx
        · rw [if_neg hend] at h
          have hdisj3 : ∀ x ∈ pending, x ∉ (advanceTime scanned.1).sched_order := by
            intro x hx
            rw [ho3, hordsc2]
            exact hdisj x hx
          obtain ⟨hG', hsub⟩ := ih _ pending st' pending' hG3 hnd hdisj3 h
          refine ⟨hG', ?_⟩
          intro x hx
          rcases hsub x hx with h1 | h1
          · rw [ho3, hordsc2] at h1
            exact Or.inl h1
          · exact Or.inr h1
    · rw [if_neg hcond] at h
      cases h
      exact ⟨hG, fun x hx => Or.inl hx⟩

theorem processGroup_GInv {st st' : GState} {g : List String} {fuel : Nat}
    (hG : GInv st) (hgnd : g.Nodup) (hdisj : ∀ x ∈ g, x ∉ st.sched_order)
    (h : processGroup fuel st g = some st') :
    GInv st' ∧ (∀ x ∈ st'.sched_order, x ∈ st.sched_order ∨ x ∈ g) := by
  unfold processGroup at h
  simp only [bind, Option.bind_eq_some] at h
  obtain ⟨res, hrunl, hfin⟩ := h
  have hnd2 : (sortGroup st g).Nodup := (pySortBy_perm _ g).symm.nodup hgnd
  have hdisj2 : ∀ x ∈ sortGroup st g, x ∉ st.sched_order :=
    fun x hx => hdisj x (mem_pySortBy.mp hx)
  obtain ⟨hG1, hsub⟩ :=
    runGroupLoop_GInv fuel st (sortGroup st g) res.1 res.2 hG hnd2 hdisj2 hrunl
  have hst' := Option.some.inj hfin
  have hfr := finishGroup_frame res.1 res.2
  have hfr3 := finishGroup_frame3 res.1 res.2
  have hjobs : (finishGroup res.1 res.2).jobs = res.1.jobs := congrArg Prod.fst hfr
  have hordf : (finishGroup res.1 res.2).sched_order = res.1.sched_order :=
    congrArg Prod.snd hfr
  have heqf : (finishGroup res.1 res.2).equipment = res.1.equipment :=
    congrArg Prod.fst hfr3
  have htef : (finishGroup res.1 res.2).technicians = res.1.technicians :=
    congrArg Prod.snd hfr3
  constructor
  · rw [← hst']
    refine GInv_of_frames heqf htef hordf ?_ hG1
    intro jid _
    unfold findJob
    rw [hjobs]
  · intro x hx
    rw [← hst'] at hx
    rw [hordf] at hx
    rcases hsub x hx with h1 | h1
    · exact Or.inl h1
    · exact Or.inr (mem_pySortBy.mp h1)

theorem greedyOutput_full {st : GState} {jid : String} {a : GAssign}
    (h : (match findJob st jid with
      | some j =>
        match j.scheduled_start_time, j.scheduled_end_time with
        | some s, some e =>
          some (⟨jid, j.equipment_id, s, e, j.assigned_technicians⟩ : GAssign)
        | _, _ => none
      | none => none) = some a) :
    ∃ job, findJob st jid = some job ∧
      job.scheduled_start_time = some a.scheduled_start_time ∧
      job.scheduled_end_time = some a.scheduled_end_time ∧
      a.equipment_id = job.equipment_id ∧
      a.assigned_technicians = job.assigned_technicians := by
  cases hj : findJob st jid with
  | none => rw [hj] at h; cases h
  | some j =>
    rw [hj] at h
    have h2 : (match j.scheduled_start_time, j.scheduled_end_time with
      | some s, some e =>
        some (⟨jid, j.equipment_id, s, e, j.assigned_technicians⟩ : GAssign)
      | _, _ => none) = some a := h
    cases hs : j.scheduled_start_time with
    | none =>
      cases he : j.scheduled_end_time with
      | none => rw [hs, he] at h2; cases h2
      | some e => rw [hs, he] at h2; cases h2
    | some s =>
      cases he : j.scheduled_end_time with
      | none => rw [hs, he] at h2; cases h2
      | some e =>
        rw [hs, he] at h2
        have ha := (Option.some.inj h2).symm
        refine ⟨j, rfl, ?_, ?_, ?_, ?_⟩
        · rw [ha]
          exact hs
        · rw [ha]
          exact he
        · rw [ha]
        · rw [ha]

theorem initState_GInv (d : DataIn) (cal : Cal) (cfuel : Nat) :
    GInv (initState d cal cfuel) := by
  refine ⟨?_, ?_, ?_, ?_, ?_, ?_⟩
  · exact dictListOf_keys_nodup _ equipOfData d.equipment
  · exact dictListOf_keys_nodup _ techOfData d.technicians
  · intro e he
    rcases dictListOf_mem _ equipOfData d.equipment e he with ⟨a, _, hea⟩
    rw [hea]
    exact List.Pairwise.nil
  · intro te hte
    rcases dictListOf_mem _ techOfData d.technicians te hte with ⟨a, _, hta⟩
    rw [hta]
    exact List.Pairwise.nil
  · exact List.nodup_nil
  · intro jid hjid
    exact absurd hjid (List.not_mem_nil jid)

/-- C1 (amended): the GreedyScheduler's output does satisfy the no-overlap
invariant: any two output assignments on the same equipment id occupy
disjoint time intervals, and so do any two sharing a technician id.  The
availability checks of `is_job_feasible` are re-established at every commit
and mirrored into the equipment schedules and technician assignment lists.
The simulated-annealing strategy does *not* satisfy the invariant — its
score merely penalises overlaps, and a run can return an overlapping
schedule (see the counterexample). -/
theorem C1_greedy_no_overlap (d : DataIn) (cal : Cal) (cfuel fuel : Nat)
    (st' : GState) (hrun : runScheduler d cal cfuel fuel = some st') :
    (greedyOutput st').Pairwise (fun a b =>
      (a.equipment_id = b.equipment_id →
        disjointI a.scheduled_start_time a.scheduled_end_time
          b.scheduled_start_time b.scheduled_end_time) ∧
      ∀ tid, tid ∈ a.assigned_technicians → tid ∈ b.assigned_technicians →
        disjointI a.scheduled_start_time a.scheduled_end_time
          b.scheduled_start_time b.scheduled_end_time) := by
  unfold runScheduler at hrun
  simp only [bind, Option.bind_eq_some] at hrun
  obtain ⟨gs, hgs, st1, h1, st2, h2, st3, h3, hst'⟩ := hrun
  have hst'3 : st3 = st' := Option.some.inj hst'
  subst hst'3
  have hG0 := initState_GInv d cal cfuel
  have hkeys : ((initState d cal cfuel).jobs.map (fun j => j.job_id)).Nodup :=
    dictListOf_keys_nodup _ jobOfData d.jobs
  have hnd := priorityGroups_nodup hgs hkeys
  rw [List.nodup_append] at hnd
  obtain ⟨hnd1, hnd23, hdj1⟩ := hnd
  rw [List.nodup_append] at hnd23
  obtain ⟨hnd2, hnd3, hdj23⟩ := hnd23
  have hdisj1 : ∀ x ∈ gs.1, x ∉ (initState d cal cfuel).sched_order := by
    intro x hx h
    exact (List.not_mem_nil x) h
  obtain ⟨hG1, hsub1⟩ := processGroup_GInv hG0 hnd1 hdisj1 h1
  have hdisj2 : ∀ x ∈ gs.2.1, x ∉ st1.sched_order := by
    intro x hx hmem
    rcases hsub1 x hmem with hin | hin
    · exact (List.not_mem_nil x) hin
    · exact hdj1 hin (List.mem_append_left _ hx)
  obtain ⟨hG2, hsub2⟩ := processGroup_GInv hG1 hnd2 hdisj2 h2
  have hdisj3 : ∀ x ∈ gs.2.2, x ∉ st2.sched_order := by
    intro x hx hmem
    rcases hsub2 x hmem with hin | hin
    · rcases hsub1 x hin with hin2 | hin2
      · exact (List.not_mem_nil x) hin2
      · exact hdj1 hin2 (List.mem_append_right _ hx)
    · exact hdj23 hin hx
  obtain ⟨hG3, _⟩ := processGroup_GInv hG2 hnd3 hdisj3 h3
  obtain ⟨hkE, hkT, hPWE, hPWT, hndo, hmirror⟩ := hG3
  unfold greedyOutput
  refine pairwise_filterMap_of ?_
  refine List.Pairwise.imp_of_mem ?_ hndo
  intro j1 j2 h1m h2m hne x y hfx hfy
  obtain ⟨job1, hjob1, hsx1, hex1, heq1, hts1⟩ := greedyOutput_full hfx
  obtain ⟨job2, hjob2, hsx2, hex2, heq2, hts2⟩ := greedyOutput_full hfy
  obtain ⟨s1, t1, hS1, hT1, ⟨eA, heA, hmA⟩, htA⟩ := hmirror j1 h1m job1 hjob1
  obtain ⟨s2, t2, hS2, hT2, ⟨eB, heB, hmB⟩, htB⟩ := hmirror j2 h2m job2 hjob2
  have hsx : s1 = x.scheduled_start_time := by
    rw [hS1] at hsx1
    exact Option.some.inj hsx1
  have htx : t1 = x.scheduled_end_time := by
    rw [hT1] at hex1
    exact Option.some.inj hex1
  have hsy : s2 = y.scheduled_start_time := by
    rw [hS2] at hsx2
    exact Option.some.inj hsx2
  have hty : t2 = y.scheduled_end_time := by
    rw [hT2] at hex2
    exact Option.some.inj hex2
  have hneq : (s1, t1, j1) ≠ (s2, t2, j2) :=
    fun hc => hne (congrArg (fun p => p.2.2) hc)
  have hsymm : Symmetric (fun r1 r2 : Int × Int × String =>
      disjointI r1.1 r1.2.1 r2.1 r2.2.1) :=
    fun r1 r2 h => disjointI_symmKind h
  constructor
  · intro heqid
    have hkeyeq : job1.equipment_id = job2.equipment_id := by
      rw [← heq1, ← heq2, heqid]
    rw [hkeyeq] at heA
    rw [heA] at heB
    have heAB : eA = eB := Option.some.inj heB
    unfold findEquip at heA
    have hmem_eA : eA ∈ st3.equipment := List.mem_of_find?_eq_some heA
    have hdis := List.Pairwise.forall hsymm (hPWE eA hmem_eA) hmA
      (heAB ▸ hmB) hneq
    show disjointI x.scheduled_start_time x.scheduled_end_time
      y.scheduled_start_time y.scheduled_end_time
    rw [← hsx, ← htx, ← hsy, ← hty]
    exact hdis
  · intro tid hta htb
    rw [hts1] at hta
    rw [hts2] at htb
    obtain ⟨teA, hteA, hmtA⟩ := htA tid hta
    obtain ⟨teB, hteB, hmtB⟩ := htB tid htb
    rw [hteA] at hteB
    have hteAB : teA = teB := Option.some.inj hteB
    unfold findTech at hteA
    have hmem_teA : teA ∈ st3.technicians := List.mem_of_find?_eq_some hteA
    have hdis := List.Pairwise.forall hsymm (hPWT teA hmem_teA) hmtA
      (hteAB ▸ hmtB) hneq
    show disjointI x.scheduled_start_time x.scheduled_end_time
      y.scheduled_start_time y.scheduled_end_time
    rw [← hsx, ← htx, ← hsy, ← hty]
    exact hdis

theorem C1_greedy_no_overlap_witness :
    (greedyOutput stC6w).Pairwise (fun a b =>
      (a.equipment_id = b.equipment_id →
        disjointI a.scheduled_start_time a.scheduled_end_time
          b.scheduled_start_time b.scheduled_end_time) ∧
      ∀ tid, tid ∈ a.assigned_technicians → tid ∈ b.assigned_technicians →
        disjointI a.scheduled_start_time a.scheduled_end_time
          b.scheduled_start_time b.scheduled_end_time) :=
  C1_greedy_no_overlap dataG3 appCal 10 8 stC6w (by decide)

/-! ## optimiser_ga.py: the active GeneticAlgorithm inside optimize_schedule -/

namespace GA

/-- Module constants of `optimiser_ga` (active section, lines 237-244). -/
def POPULATION_SIZE : Nat := 100

def GENERATIONS : Nat := 100

def MUTATION_RATE : ℚ := 1 / 10

def CROSSOVER_RATE : ℚ := 4 / 5

/-- `WORKDAY_START = time(8, 0)` as seconds of day. -/
def WORKDAY_START : Int := 28800

/-- `WORKDAY_END = time(17, 0)` as seconds of day. -/
def WORKDAY_END : Int := 61200

/-- `WORKDAYS = {0, 1, 2, 3, 4}`. -/
def WORKDAYS : List Int := [0, 1, 2, 3, 4]

/-- The inputs the inner `GeneticAlgorithm.__init__` stores (the feasible
jobs after the GA's own precheck, plus the resource lists and horizon). -/
structure GACtx where
  jobs : List JobIn
  technicians : List TechIn
  equipment : List EquipIn
  tools : List ToolIn
  materials : List MatIn
  t_start : Int
  t_end : Int

/-- Oracle for the `random` calls, indexed by the call site's loop
coordinates: `genInitMin i j` is the `random.randint(0, total_minutes)` of
individual `i`, job `j`; `genTechIdxs`/`mutTechIdxs` give the index choices
behind `random.sample` over technicians; `tournIdxs g p b` the index choices
of tournament `b` of pair `p` in generation `g`; `crossRand`/`mutRand` the
`random.random()` draws; `crossPoint` the `randint(1, len-1)`;
`mutShift` the `randint(-12, 12)` hour shift. -/
structure GARand where
  genInitMin : Nat → Nat → Nat
  genTechIdxs : Nat → Nat → List Nat
  tournIdxs : Nat → Nat → Nat → List Nat
  crossRand : Nat → Nat → ℚ
  crossPoint : Nat → Nat → Nat
  mutRand : Nat → Nat → Nat → Nat → ℚ
  mutShift : Nat → Nat → Nat → Nat → Int
  mutTechIdxs : Nat → Nat → Nat → Nat → List Nat

/-- `random.sample(l, k)` under an index oracle: the first `k` oracle
indices fetched from `l` (a valid oracle supplies `k` distinct in-range
indices). -/
def pySample {α : Type} (l : List α) (k : Nat) (idxs : List Nat) : List α :=
  (idxs.take k).filterMap (fun i => l[i]?)

/-- `GeneticAlgorithm.is_working_hour`: weekday in WORKDAYS and
`WORKDAY_START <= dt.time() < WORKDAY_END`. -/
def is_working_hour (dt : Int) : Bool :=
  WORKDAYS.contains (weekday dt) &&
    (decide (WORKDAY_START ≤ secsOfDay dt) && decide (secsOfDay dt < WORKDAY_END))

/-- `dt.replace(hour=8, minute=0)` (the `second` field is kept). -/
def replace_at_workday_start (dt : Int) : Int :=
  dayStart dt + WORKDAY_START + secsOfDay dt % 60

/-- `GeneticAlgorithm.next_working_hour` (fuel bounds the while loop; each
pass adds an hour, then snaps to 08:00 of the same or the next day). -/
def next_working_hour (fuel : Nat) (dt : Int) : Int :=
  match fuel with
  | 0 => dt
  | fuel + 1 =>
    if is_working_hour dt then dt
    else
      let dt1 := dt + 3600
      let dt2 :=
        if secsOfDay dt1 < WORKDAY_START then replace_at_workday_start dt1
        else if WORKDAY_END ≤ secsOfDay dt1 then replace_at_workday_start (dt1 + 86400)
        else dt1
      next_working_hour fuel dt2

/-- The fix-up while loop shared by `generate_individual` and `mutate`:
while the end (start + durSec) is not inside working hours at its last
minute, or exceeds `t_end`, push the start an hour on (and restart from
`t_start` if it ran past `t_end`). Returns the final start. -/
def fit_in_window (ctx : GACtx) (ffuel nfuel : Nat) (durSec : Int)
    (start_time : Int) : Int :=
  match ffuel with
  | 0 => start_time
  | ffuel + 1 =>
    let end_time := start_time + durSec
    if !is_working_hour (end_time - 60) || decide (ctx.t_end < end_time) then
      let s1 := next_working_hour nfuel (start_time + 3600)
      let s2 := if ctx.t_end ≤ s1 then next_working_hour nfuel ctx.t_start else s1
      fit_in_window ctx ffuel nfuel durSec s2
    else start_time

/-- `GeneticAlgorithm.generate_individual` for individual index `i`: one
schedule entry per job, started at `next_working_hour(t_start + random
minutes)` then fixed up, with up to two randomly sampled skill-eligible
technicians. -/
def generate_individual (ctx : GACtx) (oracle : GARand) (nfuel ffuel : Nat)
    (i : Nat) : List GAssign :=
  ctx.jobs.enum.map (fun jp =>
    let job := jp.2
    let start0 := next_working_hour nfuel
      (ctx.t_start + 60 * (oracle.genInitMin i jp.1 : Int))
    let start_time := fit_in_window ctx ffuel nfuel (3600 * job.duration) start0
    let end_time := start_time + 3600 * job.duration
    let available_techs := ctx.technicians.filter
      (fun t => job.required_skills.all (fun s => t.skills.contains s))
    let assigned_techs := pySample available_techs
      (min available_techs.length 2) (oracle.genTechIdxs i jp.1)
    { job_id := job.job_id
      equipment_id := job.equipment_id
      scheduled_start_time := start_time
      scheduled_end_time := end_time
      assigned_technicians := assigned_techs.map (fun t => t.tech_id) })

/-- The hour-stepping violation count in `fitness`: one point per hour mark
in `[start, end)` outside working hours (fuel bounds the loop). -/
def count_offhours (fuel : Nat) (current_time end_time : Int) : Int :=
  match fuel with
  | 0 => 0
  | fuel + 1 =>
    if current_time < end_time then
      (if is_working_hour current_time then 0 else 1) +
        count_offhours fuel (current_time + 3600) end_time
    else 0

/-- `usage[k].append(p)` on an association-list usage dict. -/
def addUsage (u : List (String × List (Int × Int))) (k : String)
    (p : Int × Int) : List (String × List (Int × Int)) :=
  u.map (fun kv => if kv.1 = k then (kv.1, kv.2 ++ [p]) else kv)

/-- `usage[k] += q` on an association-list counter dict. -/
def addQty (u : List (String × Int)) (k : String) (q : Int) :
    List (String × Int) :=
  u.map (fun kv => if kv.1 = k then (kv.1, kv.2 + q) else kv)

/-- Counter-dict read, 0 when the key is absent. -/
def lookup0 (u : List (String × Int)) (k : String) : Int :=
  ((u.find? (fun kv => kv.1 == k)).map (fun kv => kv.2)).getD 0

/-- Stable insertion by first component (an element goes after all
existing entries with a key ≤ its own), matching Python's stable
`usage.sort(key=lambda x: x[0])`. -/
def insort (p : Int × Int) : List (Int × Int) → List (Int × Int)
  | [] => [p]
  | q :: qs => if q.1 ≤ p.1 then q :: insort p qs else p :: q :: qs

def sortByStart (l : List (Int × Int)) : List (Int × Int) :=
  l.foldl (fun acc p => insort p acc) []

/-- Adjacent-pair overlap count of the sorted usage list:
`usage[i][1] > usage[i+1][0]` scores one point each. -/
def adjViol : List (Int × Int) → Int
  | a :: b :: rest => (if b.1 < a.2 then 1 else 0) + adjViol (b :: rest)
  | _ => 0

/-- `GeneticAlgorithm.fitness`: accumulates window/off-hours violations and
the usage dicts over the individual, then overlap and over-capacity
violations, and returns `1 / (makespan_hours + violations * 100)`.
(Unknown equipment/technician ids leave the usage dicts unchanged and a
missing `job_id` skips the tool/material demand where Python would raise;
neither occurs for individuals built over the context's own jobs.) -/
def fitness (ctx : GACtx) (wfuel : Nat) (individual : List GAssign) : ℚ :=
  let acc := individual.foldl (fun acc job =>
    let s := job.scheduled_start_time
    let e := job.scheduled_end_time
    let v1 : Int := if s < ctx.t_start ∨ ctx.t_end < e then 1000 else 0
    let v2 := count_offhours wfuel s e
    let eu := addUsage acc.2.1 job.equipment_id (s, e)
    let tu := job.assigned_technicians.foldl
      (fun u tid => addUsage u tid (s, e)) acc.2.2.1
    let rest :=
      match ctx.jobs.find? (fun j => j.job_id == job.job_id) with
      | some job_data =>
        (job_data.required_tools.foldl
          (fun u (r : ToolReq) => addQty u r.tool_id r.quantity) acc.2.2.2.1,
         job_data.required_materials.foldl
          (fun u (r : MatReq) => addQty u r.material_id r.quantity) acc.2.2.2.2)
      | none => (acc.2.2.2.1, acc.2.2.2.2)
    (acc.1 + v1 + v2, eu, tu, rest.1, rest.2))
    (((0 : Int),
      ctx.equipment.map (fun e => (e.equipment_id, ([] : List (Int × Int)))),
      ctx.technicians.map (fun t => (t.tech_id, ([] : List (Int × Int)))),
      ctx.tools.map (fun t => (t.tool_id, (0 : Int))),
      ctx.materials.map (fun m => (m.material_id, (0 : Int)))))
  let v3 := ((acc.2.1.map Prod.snd) ++ (acc.2.2.1.map Prod.snd)).foldl
    (fun v u => v + adjViol (sortByStart u)) 0
  let v4 := ctx.tools.foldl (fun v t =>
    let used := lookup0 acc.2.2.2.1 t.tool_id
    if t.quantity < used then v + (used - t.quantity) else v) 0
  let v5 := ctx.materials.foldl (fun v m =>
    let used := lookup0 acc.2.2.2.2 m.material_id
    if m.quantity < used then v + (used - m.quantity) else v) 0
  let total_violation := acc.1 + v3 + v4 + v5
  let makespan :=
    match individual with
    | [] => 0
    | x :: xs =>
      (xs.foldl (fun m j => max m j.scheduled_end_time) x.scheduled_end_time) -
      (xs.foldl (fun m j => min m j.scheduled_start_time) x.scheduled_start_time)
  1 / ((makespan : ℚ) / 3600 + (total_violation : ℚ) * 100)

/-- `GeneticAlgorithm.crossover`: skipped when `random.random()` exceeds
CROSSOVER_RATE, otherwise one-point list splice at the drawn point. -/
def crossover (oracle : GARand) (g p : Nat) (parent1 parent2 : List GAssign) :
    List GAssign × List GAssign :=
  if CROSSOVER_RATE < oracle.crossRand g p then (parent1, parent2)
  else
    let crossover_point := oracle.crossPoint g p
    (parent1.take crossover_point ++ parent2.drop crossover_point,
     parent2.take crossover_point ++ parent1.drop crossover_point)

/-- `GeneticAlgorithm.mutate` for child slot `c` of pair `p` in generation
`g`: each entry independently mutates with probability MUTATION_RATE,
redrawing its start (shifted then fixed up) and its technician sample. -/
def mutate (ctx : GACtx) (oracle : GARand) (nfuel ffuel : Nat) (g p c : Nat)
    (individual : List GAssign) : List GAssign :=
  individual.enum.map (fun ip =>
    let job := ip.2
    if oracle.mutRand g p c ip.1 < MUTATION_RATE then
      let dur := ((ctx.jobs.find? (fun j => j.job_id == job.job_id)).map
        (fun j => j.duration)).getD 0
      let new_start0 := next_working_hour nfuel
        (job.scheduled_start_time + 3600 * oracle.mutShift g p c ip.1)
      let new_start := fit_in_window ctx ffuel nfuel (3600 * dur) new_start0
      let new_end := new_start + 3600 * dur
      let req_skills := ((ctx.jobs.find? (fun j => j.job_id == job.job_id)).map
        (fun j => j.required_skills)).getD []
      let available_techs := ctx.technicians.filter
        (fun t => req_skills.all (fun s => t.skills.contains s))
      let assigned := pySample available_techs
        (min available_techs.length 2) (oracle.mutTechIdxs g p c ip.1)
      { job with
          scheduled_start_time := new_start
          scheduled_end_time := new_end
          assigned_technicians := assigned.map (fun t => t.tech_id) }
    else job)

/-- Python `max(l, key=f)`: `none` on the empty list (where Python raises),
otherwise the first element of maximal key. -/
def pyMaxKey {α : Type} (f : α → ℚ) : List α → Option α
  | [] => none
  | x :: xs => some (xs.foldl (fun b a => if f b < f a then a else b) x)

/-- `GeneticAlgorithm.select_parents`: two size-5 tournaments sampled from
the population, each won by its max-fitness member. -/
def select_parents (ctx : GACtx) (oracle : GARand) (wfuel : Nat) (g p : Nat)
    (population : List (List GAssign)) : List GAssign × List GAssign :=
  let tournament1 := pySample population 5 (oracle.tournIdxs g p 0)
  let tournament2 := pySample population 5 (oracle.tournIdxs g p 1)
  ((pyMaxKey (fitness ctx wfuel) tournament1).getD [],
   (pyMaxKey (fitness ctx wfuel) tournament2).getD [])

/-- One generation of `GeneticAlgorithm.optimize`: POPULATION_SIZE // 2
pair draws, each appending the two mutated crossover children. -/
def step (ctx : GACtx) (oracle : GARand) (wfuel nfuel ffuel : Nat) (g : Nat)
    (population : List (List GAssign)) : List (List GAssign) :=
  (List.range (POPULATION_SIZE / 2)).foldl
    (fun new_population p =>
      let parents := select_parents ctx oracle wfuel g p population
      let children := crossover oracle g p parents.1 parents.2
      new_population ++
        [mutate ctx oracle nfuel ffuel g p 0 children.1,
         mutate ctx oracle nfuel ffuel g p 1 children.2])
    []

/-- The initial population: POPULATION_SIZE calls of
`generate_individual`. -/
def initial_population (ctx : GACtx) (oracle : GARand) (nfuel ffuel : Nat) :
    List (List GAssign) :=
  (List.range POPULATION_SIZE).map (fun i => generate_individual ctx oracle nfuel ffuel i)

/-- The population after `g` generations of the optimize loop. -/
def popAfter (ctx : GACtx) (oracle : GARand) (wfuel nfuel ffuel : Nat) :
    Nat → List (List GAssign)
  | 0 => initial_population ctx oracle nfuel ffuel
  | g + 1 => step ctx oracle wfuel nfuel ffuel g
      (popAfter ctx oracle wfuel nfuel ffuel g)

/-- `GeneticAlgorithm.optimize`: GENERATIONS generations, tracking
`best_individual = max(population, key=self.fitness)` of each; the value
returned after the loop is the last one computed (`none` only if the
generation count were zero, where Python would raise NameError). -/
def optimize (ctx : GACtx) (oracle : GARand) (wfuel nfuel ffuel : Nat) :
    Option (List GAssign) :=
  ((List.range GENERATIONS).foldl
    (fun st g =>
      let newpop := step ctx oracle wfuel nfuel ffuel g st.1
      (newpop, pyMaxKey (fitness ctx wfuel) newpop))
    (initial_population ctx oracle nfuel ffuel, (none : Option (List GAssign)))).2

end GA

namespace GA

/-- The fold behind `pyMaxKey` returns a member of `x :: xs` whose key is
maximal among `x` and `xs` (Python's `max` keeps the current holder on
ties, so the first maximal element wins). -/
theorem pyMaxFold_spec {α : Type} (f : α → ℚ) :
    ∀ (xs : List α) (x : α),
      xs.foldl (fun b a => if f b < f a then a else b) x ∈ x :: xs ∧
      f x ≤ f (xs.foldl (fun b a => if f b < f a then a else b) x) ∧
      ∀ y ∈ xs, f y ≤ f (xs.foldl (fun b a => if f b < f a then a else b) x) := by
  intro xs
  induction xs with
  | nil =>
    intro x
    refine ⟨List.mem_cons_self x [], le_refl _, ?_⟩
    intro y hy
    cases hy
  | cons a as ih =>
    intro x
    rw [List.foldl_cons]
    by_cases hxa : f x < f a
    · have h := ih (if f x < f a then a else x)
      rw [if_pos hxa] at h ⊢
      refine ⟨?_, ?_, ?_⟩
      · rcases List.mem_cons.mp h.1 with h1 | h1
        · rw [h1]
          exact List.mem_cons_of_mem _ (List.mem_cons_self a as)
        · exact List.mem_cons_of_mem _ (List.mem_cons_of_mem _ h1)
      · exact le_trans (le_of_lt hxa) h.2.1
      · intro y hy
        rcases List.mem_cons.mp hy with h1 | h1
        · rw [h1]
          exact h.2.1
        · exact h.2.2 y h1
    · have h := ih (if f x < f a then a else x)
      rw [if_neg hxa] at h ⊢
      refine ⟨?_, ?_, ?_⟩
      · rcases List.mem_cons.mp h.1 with h1 | h1
        · rw [h1]
          exact List.mem_cons_self x _
        · exact List.mem_cons_of_mem _ (List.mem_cons_of_mem _ h1)
      · exact h.2.1
      · intro y hy
        rcases List.mem_cons.mp hy with h1 | h1
        · rw [h1]
          exact le_trans (le_of_not_lt hxa) h.2.1
        · exact h.2.2 y h1

/-- `max(l, key=f)` returns a member of `l`. -/
theorem pyMaxKey_mem {α : Type} (f : α → ℚ) (l : List α) (x : α)
    (h : pyMaxKey f l = some x) : x ∈ l := by
  cases l with
  | nil => simp [pyMaxKey] at h
  | cons a as =>
    rw [pyMaxKey] at h
    have hx := Option.some.inj h
    rw [← hx]
    exact (pyMaxFold_spec f as a).1

/-- `max(l, key=f)` returns an element of maximal key. -/
theorem pyMaxKey_isMax {α : Type} (f : α → ℚ) (l : List α) (x : α)
    (h : pyMaxKey f l = some x) : ∀ y ∈ l, f y ≤ f x := by
  cases l with
  | nil => simp [pyMaxKey] at h
  | cons a as =>
    rw [pyMaxKey] at h
    have hx := Option.some.inj h
    intro y hy
    rw [← hx]
    rcases List.mem_cons.mp hy with h1 | h1
    · rw [h1]
      exact (pyMaxFold_spec f as a).2.1
    · exact (pyMaxFold_spec f as a).2.2 y h1

/-- `max` over a constant nonempty list is that constant. -/
theorem pyMaxKey_replicate {α : Type} (f : α → ℚ) (x : α) :
    ∀ n, pyMaxKey f (List.replicate (n + 1) x) = some x := by
  have hfold : ∀ n,
      (List.replicate n x).foldl (fun b a => if f b < f a then a else b) x = x := by
    intro n
    induction n with
    | zero => rfl
    | succ n ih =>
      rw [List.replicate_succ, List.foldl_cons, if_neg (lt_irrefl (f x))]
      exact ih
  intro n
  rw [List.replicate_succ, pyMaxKey, hfold]

/-- The optimize loop's state after `n` generations: the population is
`popAfter n` and the tracked best is the fitness-max of that population
(still `none` before the first generation runs). -/
theorem optimize_loop_spec (ctx : GACtx) (oracle : GARand)
    (wfuel nfuel ffuel : Nat) :
    ∀ n : Nat,
      (List.range n).foldl
        (fun st g =>
          let newpop := step ctx oracle wfuel nfuel ffuel g st.1
          (newpop, pyMaxKey (fitness ctx wfuel) newpop))
        (initial_population ctx oracle nfuel ffuel, (none : Option (List GAssign))) =
      (popAfter ctx oracle wfuel nfuel ffuel n,
       if n = 0 then none
       else pyMaxKey (fitness ctx wfuel) (popAfter ctx oracle wfuel nfuel ffuel n)) := by
  intro n
  induction n with
  | zero => rfl
  | succ n ih =>
    rw [List.range_succ, List.foldl_append, ih]
    simp only [List.foldl_cons, List.foldl_nil, popAfter]
    rw [if_neg (Nat.succ_ne_zero n)]

/-- `optimize` is exactly the fitness-max of the final generation's
population. -/
theorem optimize_eq_pyMaxKey (ctx : GACtx) (oracle : GARand)
    (wfuel nfuel ffuel : Nat) :
    optimize ctx oracle wfuel nfuel ffuel =
      pyMaxKey (fitness ctx wfuel) (popAfter ctx oracle wfuel nfuel ffuel GENERATIONS) := by
  unfold optimize
  rw [optimize_loop_spec ctx oracle wfuel nfuel ffuel GENERATIONS,
    if_neg (by decide : ¬ GENERATIONS = 0)]

/-- A fold whose body only ever appends two fixed copies of `x` produces a
replicate of twice the index list's length. -/
theorem foldl_two_replicate {α : Type} (f : List α → Nat → List α) (x : α)
    (hf : ∀ acc p, f acc p = acc ++ [x, x]) :
    ∀ (l : List Nat) (acc : List α),
      l.foldl f acc = acc ++ List.replicate (2 * l.length) x := by
  intro l
  induction l with
  | nil =>
    intro acc
    simp
  | cons p ps ih =>
    intro acc
    rw [List.foldl_cons, hf, ih, List.length_cons]
    have h2 : List.replicate (2 * (ps.length + 1)) x =
        x :: x :: List.replicate (2 * ps.length) x := by
      have h3 : 2 * (ps.length + 1) = 2 * ps.length + 1 + 1 := by ring
      rw [h3, List.replicate_succ, List.replicate_succ]
    rw [h2, List.append_assoc]
    rfl

end GA

/-! ### C7: what the GA run returns -/

def jobC7a : JobIn := ⟨"J1", "", 1, "EQ1", [], [], [], []⟩

def jobC7b : JobIn := ⟨"J2", "", 1, "EQ1", [], [], [], []⟩

def techC7 : TechIn := ⟨"T1", "T1", [], 0, 28800, 64800, [0, 1, 2, 3, 4]⟩

def equipC7 : EquipIn := ⟨"EQ1", "EQ1", 1, 0, 86340, [0, 1, 2, 3, 4, 5, 6]⟩

/-- Two 1-hour jobs on one equipment, one technician, horizon day-0
08:00..18:00 (epoch seconds; day 0 is a workday). -/
def ctxC7 : GA.GACtx := ⟨[jobC7a, jobC7b], [techC7], [equipC7], [], [], 28800, 64800⟩

/-- A random trace: individual 0 places J2 an hour after J1 (offset 60
minutes), every other individual stacks both jobs at 08:00; every
tournament samples indices 1..5 (never individual 0 of the initial
population); `random.random()` always draws 1, so crossover is always
skipped and mutation never fires. -/
def oracleC7 : GA.GARand :=
  ⟨fun i j => if i = 0 ∧ j = 1 then 60 else 0,
   fun _ _ => [0],
   fun _ _ _ => [1, 2, 3, 4, 5],
   fun _ _ => 1,
   fun _ _ => 1,
   fun _ _ _ _ => 1,
   fun _ _ _ _ => 0,
   fun _ _ _ _ => [0]⟩

/-- Individual 0 of the initial population: J1 08:00-09:00, J2 09:00-10:00
(fitness 1/2: makespan 2h, no violations). -/
def indG : List GAssign :=
  [⟨"J1", "EQ1", 28800, 32400, ["T1"]⟩, ⟨"J2", "EQ1", 32400, 36000, ["T1"]⟩]

/-- Every other individual: both jobs 08:00-09:00 (fitness 1/201: makespan
1h, one equipment overlap and one technician overlap). -/
def indX : List GAssign :=
  [⟨"J1", "EQ1", 28800, 32400, ["T1"]⟩, ⟨"J2", "EQ1", 28800, 32400, ["T1"]⟩]

namespace GA

/-- `select_parents` when both tournaments sample five copies of the same
individual: both winners are that individual. -/
theorem select_parents_const (ctx : GACtx) (oracle : GARand) (wfuel g p : Nat)
    (population : List (List GAssign)) (x : List GAssign)
    (h0 : pySample population 5 (oracle.tournIdxs g p 0) = List.replicate 5 x)
    (h1 : pySample population 5 (oracle.tournIdxs g p 1) = List.replicate 5 x) :
    select_parents ctx oracle wfuel g p population = (x, x) := by
  have h5 : pyMaxKey (fitness ctx wfuel) (List.replicate 5 x) = some x :=
    pyMaxKey_replicate (fitness ctx wfuel) x 4
  unfold select_parents
  rw [h0, h1]
  simp only [h5, Option.getD_some]

/-- `mutate` is the identity when no per-entry mutation draw fires. -/
theorem mutate_off (ctx : GACtx) (oracle : GARand) (nfuel ffuel g p c : Nat)
    (individual : List GAssign)
    (h : ∀ i, ¬ (oracle.mutRand g p c i < MUTATION_RATE)) :
    mutate ctx oracle nfuel ffuel g p c individual = individual := by
  unfold mutate
  exact (List.map_congr_left (fun ip _ => if_neg (h ip.1))).trans
    (List.enum_map_snd individual)

/-- One generation over a population whose tournaments all return the same
individual `x`, with crossover always skipped and mutation never firing,
rebuilds the population as copies of `x`. -/
theorem step_uniform (ctx : GACtx) (oracle : GARand) (wfuel nfuel ffuel g : Nat)
    (population : List (List GAssign)) (x : List GAssign)
    (hsamp : ∀ p b, pySample population 5 (oracle.tournIdxs g p b) = List.replicate 5 x)
    (hcross : ∀ p, CROSSOVER_RATE < oracle.crossRand g p)
    (hmut : ∀ p c i, ¬ (oracle.mutRand g p c i < MUTATION_RATE)) :
    step ctx oracle wfuel nfuel ffuel g population =
      List.replicate (2 * (POPULATION_SIZE / 2)) x := by
  have hbody : ∀ (acc : List (List GAssign)) (p : Nat),
      (fun new_population p =>
        let parents := select_parents ctx oracle wfuel g p population
        let children := crossover oracle g p parents.1 parents.2
        new_population ++
          [mutate ctx oracle nfuel ffuel g p 0 children.1,
           mutate ctx oracle nfuel ffuel g p 1 children.2]) acc p = acc ++ [x, x] := by
    intro acc p
    have hsel : select_parents ctx oracle wfuel g p population = (x, x) :=
      select_parents_const ctx oracle wfuel g p population x (hsamp p 0) (hsamp p 1)
    have hcr : crossover oracle g p x x = (x, x) := by
      unfold crossover
      rw [if_pos (hcross p)]
    have hmu : ∀ c, mutate ctx oracle nfuel ffuel g p c x = x := fun c =>
      mutate_off ctx oracle nfuel ffuel g p c x (hmut p c)
    simp only [hsel, hcr, hmu]
  unfold step
  rw [foldl_two_replicate _ x hbody (List.range (POPULATION_SIZE / 2)) []]
  rw [List.nil_append, List.length_range]

end GA

theorem oracleC7_cross (g p : Nat) : GA.CROSSOVER_RATE < oracleC7.crossRand g p := by
  show GA.CROSSOVER_RATE < 1
  norm_num [GA.CROSSOVER_RATE]

theorem oracleC7_mut (g p c i : Nat) :
    ¬ (oracleC7.mutRand g p c i < GA.MUTATION_RATE) := by
  show ¬ ((1 : ℚ) < GA.MUTATION_RATE)
  norm_num [GA.MUTATION_RATE]

theorem stepC7_pop1 (g : Nat) :
    GA.step ctxC7 oracleC7 4 8 8 g (List.replicate 100 indX) =
      List.replicate 100 indX :=
  (GA.step_uniform ctxC7 oracleC7 4 8 8 g (List.replicate 100 indX) indX
    (fun _ _ => rfl) (fun p => oracleC7_cross g p)
    (fun p c i => oracleC7_mut g p c i)).trans rfl

theorem popAfterC7_one :
    GA.popAfter ctxC7 oracleC7 4 8 8 1 = List.replicate 100 indX :=
  (GA.step_uniform ctxC7 oracleC7 4 8 8 0 (GA.popAfter ctxC7 oracleC7 4 8 8 0) indX
    (fun _ _ => rfl) (fun p => oracleC7_cross 0 p)
    (fun p c i => oracleC7_mut 0 p c i)).trans rfl

theorem optimizeC7run : GA.optimize ctxC7 oracleC7 4 8 8 = some indX := by
  rw [GA.optimize_eq_pyMaxKey]
  have hstep : ∀ n, GA.popAfter ctxC7 oracleC7 4 8 8 (n + 1) = List.replicate 100 indX := by
    intro n
    induction n with
    | zero => exact popAfterC7_one
    | succ n ih =>
      show GA.step ctxC7 oracleC7 4 8 8 (n + 1)
        (GA.popAfter ctxC7 oracleC7 4 8 8 (n + 1)) = _
      rw [ih]
      exact stepC7_pop1 (n + 1)
  have h100 : GA.popAfter ctxC7 oracleC7 4 8 8 GA.GENERATIONS =
      List.replicate 100 indX := hstep 99
  rw [h100]
  exact GA.pyMaxKey_replicate (GA.fitness ctxC7 4) indX 99

/-- C7 counterexample: a run of `GeneticAlgorithm.optimize` (two 1-hour
jobs, random draws as in `oracleC7`) returns `indX` with fitness 1/201,
although the search produced `indG` with fitness 1/2 in its initial
population — `optimize` returns only the best of the final generation, not
the best individual ever produced. -/
theorem C7_counterexample :
    GA.optimize ctxC7 oracleC7 4 8 8 = some indX ∧
    indG ∈ GA.initial_population ctxC7 oracleC7 8 8 ∧
    GA.fitness ctxC7 4 indX < GA.fitness ctxC7 4 indG :=
  ⟨optimizeC7run, by decide, by with_unfolding_all decide⟩

/-- C7 (amended): for every input and every random trace, the individual
`GeneticAlgorithm.optimize` returns is a member of the final generation's
population of maximal fitness there — the search keeps no record of
better individuals from earlier generations. -/
theorem C7_ga_best_of_final_generation
    (ctx : GA.GACtx) (oracle : GA.GARand) (wfuel nfuel ffuel : Nat)
    (best : List GAssign)
    (hrun : GA.optimize ctx oracle wfuel nfuel ffuel = some best) :
    best ∈ GA.popAfter ctx oracle wfuel nfuel ffuel GA.GENERATIONS ∧
    ∀ y ∈ GA.popAfter ctx oracle wfuel nfuel ffuel GA.GENERATIONS,
      GA.fitness ctx wfuel y ≤ GA.fitness ctx wfuel best := by
  rw [GA.optimize_eq_pyMaxKey] at hrun
  exact ⟨GA.pyMaxKey_mem _ _ _ hrun, GA.pyMaxKey_isMax _ _ _ hrun⟩

theorem C7_ga_best_of_final_generation_witness :
    indX ∈ GA.popAfter ctxC7 oracleC7 4 8 8 GA.GENERATIONS ∧
    ∀ y ∈ GA.popAfter ctxC7 oracleC7 4 8 8 GA.GENERATIONS,
      GA.fitness ctxC7 4 y ≤ GA.fitness ctxC7 4 indX :=
  C7_ga_best_of_final_generation ctxC7 oracleC7 4 8 8 indX optimizeC7run
